import Mathlib

/-!
# go-champ: a persistent CHAMP map

A shallow embedding of `map.go` and `node.go`.

* Go slices are Lean lists; an index or slice expression that is out of range
  makes the Go program stop with a run-time error, which is the result `none`
  of the embedded function.
* `uint32` and `uint64` values are natural numbers; the one place where 32-bit
  wrap-around arithmetic is used (`popcount`) reduces modulo `2 ^ 32`.
* A Go `node[K, V]` interface value is an `Option (Node K V)`, `none` being `nil`.
* Nodes are values, without addresses. The one comparison of addresses whose
  outcome can change a result, `n1 == n2` in `equalNode`, takes its outcome from
  a parameter `sameNode`, asked at the position of the two nodes in the trees;
  two nodes at one address have the same fields.
* Go's `==` on the value type `V` of `Equal` is a parameter `valueEq`; it need
  not hold of a value and itself (a `float64` NaN), nor tell apart all values.
* `iter.Seq2` sequences are the lists of the pairs they produce when the
  consumer never stops early.
-/

namespace Champ

set_option linter.unusedSectionVars false

/-! ## Constants (`map.go`) -/

def bitsPerLevel : Nat := 5
def branchFactor : Nat := 1 <<< bitsPerLevel
def bitMask : Nat := branchFactor - 1
def maxDepth : Nat := 7

/-! ## Helpers of `node.go` -/

/-- The function `popcount` of `node.go`, on `uint32` with wrap-around arithmetic. -/
def popcount (x : Nat) : Nat :=
  let x := (x + 2 ^ 32 - ((x >>> 1) &&& 0x55555555)) % 2 ^ 32
  let x := ((x &&& 0x33333333) + ((x >>> 2) &&& 0x33333333)) % 2 ^ 32
  let x := ((x + (x >>> 4)) % 2 ^ 32) &&& 0x0f0f0f0f
  let x := (x + (x >>> 8)) % 2 ^ 32
  let x := (x + (x >>> 16)) % 2 ^ 32
  x &&& 0x3f

/-- Go's `x &^ y` on `uint32`: the bits of `x` that are not bits of `y`. -/
def andNot (x y : Nat) : Nat := x &&& (y ^^^ 0xFFFFFFFF)

/-- The function `insertAt` of `node.go`; it stops with a run-time error when `idx > len(arr)`. -/
def insertAt {T : Type} (arr : List T) (idx : Nat) (val : T) : Option (List T) :=
  if idx ≤ arr.length then some (arr.take idx ++ val :: arr.drop idx) else none

/-- The function `removeAt` of `node.go`; it stops with a run-time error when `idx ≥ len(arr)`. -/
def removeAt {T : Type} (arr : List T) (idx : Nat) : Option (List T) :=
  if idx < arr.length then some (arr.take idx ++ arr.drop (idx + 1)) else none

/-- The loop `for i, k := range keys { if k == key { ... } }`: the first index holding `key`. -/
def findKey {K : Type} [DecidableEq K] : List K → K → Option Nat
  | [], _ => none
  | k :: ks, key => if k = key then some 0 else (findKey ks key).map (· + 1)

/-- The loop `for i := 0; i < len(keys); i++ { yield(keys[i], values[i]) }` run to its end. -/
def yieldEntries {K V : Type} : List K → List V → Option (List (K × V))
  | [], _ => some []
  | _ :: _, [] => none
  | k :: ks, v :: vs => (yieldEntries ks vs).map ((k, v) :: ·)

/-! ## Nodes (`node.go`) -/

/-- The two implementations of the interface `node[K, V]`. -/
inductive Node (K V : Type) where
  | bitmapIndexedNode (nodemap datamap : Nat) (nodes : List (Node K V))
      (keys : List K) (values : List V)
  | collisionNode (keys : List K) (values : List V)

section NodeOps

variable {K V : Type} [DecidableEq K]

/-- The method `createSubNode`, with a bound on the number of nested calls. -/
def createSubNodeFuel : Nat → K → V → Nat → K → V → Nat → Nat → Option (Node K V)
  | 0, _, _, _, _, _, _, _ => none
  | fuel + 1, key1, val1, hash1, key2, val2, hash2, shift =>
    if shift ≥ maxDepth * bitsPerLevel then
      some (.collisionNode [key1, key2] [val1, val2])
    else
      let bit1 := 1 <<< ((hash1 >>> shift) &&& bitMask)
      let bit2 := 1 <<< ((hash2 >>> shift) &&& bitMask)
      if bit1 = bit2 then
        match createSubNodeFuel fuel key1 val1 hash1 key2 val2 hash2 (shift + bitsPerLevel) with
        | none => none
        | some subNode => some (.bitmapIndexedNode bit1 0 [subNode] [] [])
      else if bit1 < bit2 then
        some (.bitmapIndexedNode 0 (bit1 ||| bit2) [] [key1, key2] [val1, val2])
      else
        some (.bitmapIndexedNode 0 (bit1 ||| bit2) [] [key2, key1] [val2, val1])

/-- The method `createSubNode`: every call raises `shift` by `bitsPerLevel` and the calls
stop at `maxDepth * bitsPerLevel`, so `maxDepth + 1` nested calls are enough. -/
def createSubNode (key1 : K) (val1 : V) (hash1 : Nat) (key2 : K) (val2 : V) (hash2 : Nat)
    (shift : Nat) : Option (Node K V) :=
  createSubNodeFuel (maxDepth + 1) key1 val1 hash1 key2 val2 hash2 shift

variable [Inhabited V]

mutual
/-- The methods `bitmapIndexedNode.get` and `collisionNode.get`. -/
def Node.get : Node K V → K → Nat → Nat → Option (V × Bool)
  | .bitmapIndexedNode nodemap datamap nodes keys values, key, hash, shift =>
    let bit := 1 <<< ((hash >>> shift) &&& bitMask)
    if datamap &&& bit ≠ 0 then
      let idx := popcount (datamap &&& (bit - 1))
      match keys[idx]? with
      | none => none
      | some k =>
        if k = key then
          match values[idx]? with
          | none => none
          | some v => some (v, true)
        else some (default, false)
    else if nodemap &&& bit ≠ 0 then
      let idx := popcount (nodemap &&& (bit - 1))
      Node.getAt nodes idx key hash (shift + bitsPerLevel)
    else some (default, false)
  | .collisionNode keys values, key, _, _ =>
    match findKey keys key with
    | some i =>
      match values[i]? with
      | none => none
      | some v => some (v, true)
    | none => some (default, false)
/-- The call `nodes[idx].get(key, hash, shift)`. -/
def Node.getAt : List (Node K V) → Nat → K → Nat → Nat → Option (V × Bool)
  | [], _, _, _, _ => none
  | n :: _, 0, key, hash, shift => n.get key hash shift
  | _ :: ns, idx + 1, key, hash, shift => Node.getAt ns idx key hash shift
end

mutual
/-- The methods `bitmapIndexedNode.set` and `collisionNode.set`. In the child branch the
source returns `n` itself when the child came back identical and nothing was added; the
rebuilt node has the same fields, so that branch is not a case of its own here. -/
def Node.set (hashFunc : K → Nat) : Node K V → K → V → Nat → Nat → Option (Node K V × Bool)
  | .bitmapIndexedNode nodemap datamap nodes keys values, key, value, hash, shift =>
    let bit := 1 <<< ((hash >>> shift) &&& bitMask)
    if datamap &&& bit ≠ 0 then
      let idx := popcount (datamap &&& (bit - 1))
      match keys[idx]? with
      | none => none
      | some k =>
        if k = key then
          if idx < values.length then
            some (.bitmapIndexedNode nodemap datamap nodes keys (values.set idx value), false)
          else none
        else
          match values[idx]? with
          | none => none
          | some v =>
            match createSubNode k v (hashFunc k) key value hash (shift + bitsPerLevel) with
            | none => none
            | some subNode =>
              match insertAt nodes (popcount (nodemap &&& (bit - 1))) subNode,
                    removeAt keys idx, removeAt values idx with
              | some newNodes, some newKeys, some newValues =>
                some (.bitmapIndexedNode (nodemap ||| bit) (andNot datamap bit)
                  newNodes newKeys newValues, true)
              | _, _, _ => none
    else if nodemap &&& bit ≠ 0 then
      let idx := popcount (nodemap &&& (bit - 1))
      match Node.setAt hashFunc nodes idx key value hash (shift + bitsPerLevel) with
      | none => none
      | some (newNode, added) =>
        some (.bitmapIndexedNode nodemap datamap (nodes.set idx newNode) keys values, added)
    else
      let idx := popcount (datamap &&& (bit - 1))
      match insertAt keys idx key, insertAt values idx value with
      | some newKeys, some newValues =>
        some (.bitmapIndexedNode nodemap (datamap ||| bit) nodes newKeys newValues, true)
      | _, _ => none
  | .collisionNode keys values, key, value, _, _ =>
    match findKey keys key with
    | some i =>
      if i < values.length then some (.collisionNode keys (values.set i value), false)
      else none
    | none => some (.collisionNode (keys ++ [key]) (values ++ [value]), true)
/-- The call `nodes[idx].set(key, value, hash, shift, hashFunc)`. -/
def Node.setAt (hashFunc : K → Nat) :
    List (Node K V) → Nat → K → V → Nat → Nat → Option (Node K V × Bool)
  | [], _, _, _, _, _ => none
  | n :: _, 0, key, value, hash, shift => n.set hashFunc key value hash shift
  | _ :: ns, idx + 1, key, value, hash, shift => Node.setAt hashFunc ns idx key value hash shift
end

mutual
/-- The methods `bitmapIndexedNode.del` and `collisionNode.del`; the node of the result is
`none` where the source returns `nil`. -/
def Node.del : Node K V → K → Nat → Nat → Option (Option (Node K V) × Bool)
  | .bitmapIndexedNode nodemap datamap nodes keys values, key, hash, shift =>
    let bit := 1 <<< ((hash >>> shift) &&& bitMask)
    if datamap &&& bit ≠ 0 then
      let idx := popcount (datamap &&& (bit - 1))
      match keys[idx]? with
      | none => none
      | some k =>
        if k ≠ key then
          some (some (.bitmapIndexedNode nodemap datamap nodes keys values), false)
        else if keys.length = 1 ∧ nodes.length = 0 then
          some (none, true)
        else
          match removeAt keys idx, removeAt values idx with
          | some newKeys, some newValues =>
            some (some (.bitmapIndexedNode nodemap (andNot datamap bit) nodes newKeys newValues),
              true)
          | _, _ => none
    else if nodemap &&& bit ≠ 0 then
      let idx := popcount (nodemap &&& (bit - 1))
      (match Node.delAt nodes idx key hash (shift + bitsPerLevel) with
      | none => none
      | some (_, false) =>
        some (some (.bitmapIndexedNode nodemap datamap nodes keys values), false)
      | some (none, true) =>
        if nodes.length = 1 ∧ keys.length = 0 then
          some (none, true)
        else
          match removeAt nodes idx with
          | some newNodes =>
            some (some (.bitmapIndexedNode (andNot nodemap bit) datamap newNodes keys values),
              true)
          | none => none
      | some (some newNode, true) =>
        match newNode with
        | .bitmapIndexedNode mNodemap _ _ mKeys mValues =>
          if mNodemap = 0 ∧ mKeys.length = 1 then
            (match mKeys[0]?, mValues[0]?, removeAt nodes idx with
            | some mKey, some mValue, some newNodes =>
              (match insertAt keys (popcount (datamap &&& (bit - 1))) mKey,
                    insertAt values (popcount (datamap &&& (bit - 1))) mValue with
              | some newKeys, some newValues =>
                some (some (.bitmapIndexedNode (andNot nodemap bit) (datamap ||| bit)
                  newNodes newKeys newValues), true)
              | _, _ => none)
            | _, _, _ => none)
          else
            some (some (.bitmapIndexedNode nodemap datamap (nodes.set idx newNode) keys values),
              true)
        | .collisionNode _ _ =>
          some (some (.bitmapIndexedNode nodemap datamap (nodes.set idx newNode) keys values),
            true))
    else some (some (.bitmapIndexedNode nodemap datamap nodes keys values), false)
  | .collisionNode keys values, key, _, _ =>
    match findKey keys key with
    | some i =>
      if keys.length = 2 then
        (match keys[1 - i]?, values[1 - i]? with
        | some k, some v => some (some (.bitmapIndexedNode 0 1 [] [k] [v]), true)
        | _, _ => none)
      else
        match removeAt keys i, removeAt values i with
        | some newKeys, some newValues => some (some (.collisionNode newKeys newValues), true)
        | _, _ => none
    | none => some (some (.collisionNode keys values), false)
/-- The call `nodes[idx].del(key, hash, shift)`. -/
def Node.delAt : List (Node K V) → Nat → K → Nat → Nat → Option (Option (Node K V) × Bool)
  | [], _, _, _, _ => none
  | n :: _, 0, key, hash, shift => n.del key hash shift
  | _ :: ns, idx + 1, key, hash, shift => Node.delAt ns idx key hash shift
end

mutual
/-- The methods `bitmapIndexedNode.all` and `collisionNode.all`: the pairs in the order in
which they are produced. -/
def Node.all : Node K V → Option (List (K × V))
  | .bitmapIndexedNode _ _ nodes keys values =>
    match yieldEntries keys values, Node.allOf nodes with
    | some own, some below => some (own ++ below)
    | _, _ => none
  | .collisionNode keys values => yieldEntries keys values
/-- The loop `for _, child := range nodes` of `bitmapIndexedNode.all`. -/
def Node.allOf : List (Node K V) → Option (List (K × V))
  | [] => some []
  | child :: rest =>
    match child.all, Node.allOf rest with
    | some first, some others => some (first ++ others)
    | _, _ => none
end

end NodeOps

/-! ## Equality of nodes (`map.go`) -/

section EqualOps

variable {K V : Type} [DecidableEq K]

/-- The loop `for i := range n1.keys` of `equalBitmapIndexedNodes` and `equalCollisionNodes`:
`some false` at the first index where the keys or the values differ; `valueEq` is `==` on
the values. -/
def equalEntries (valueEq : V → V → Bool) : List K → List V → List K → List V → Option Bool
  | [], _, _, _ => some true
  | _ :: _, _, [], _ => none
  | k1 :: keys1, values1, k2 :: keys2, values2 =>
    if k1 ≠ k2 then some false
    else
      match values1, values2 with
      | v1 :: rest1, v2 :: rest2 =>
        if valueEq v1 v2 = false then some false
        else equalEntries valueEq keys1 rest1 keys2 rest2
      | _, _ => none

mutual
/-- The function `equalNode` on two nodes that are not `nil`, with `equalBitmapIndexedNodes`
and `equalCollisionNodes`. `sameNode path n1 n2` is the outcome of `n1 == n2`, the
comparison of the two addresses, for the nodes at the position `path` (the indices of the
children on the way from the roots). -/
def Node.equal (sameNode : List Nat → Node K V → Node K V → Bool) (valueEq : V → V → Bool) :
    List Nat → Node K V → Node K V → Option Bool
  | path, .bitmapIndexedNode nodemap1 datamap1 nodes1 keys1 values1,
    .bitmapIndexedNode nodemap2 datamap2 nodes2 keys2 values2 =>
    if sameNode path (.bitmapIndexedNode nodemap1 datamap1 nodes1 keys1 values1)
        (.bitmapIndexedNode nodemap2 datamap2 nodes2 keys2 values2) = true then some true
    else if datamap1 ≠ datamap2 ∨ nodemap1 ≠ nodemap2 then some false
    else
      match equalEntries valueEq keys1 values1 keys2 values2 with
      | none => none
      | some false => some false
      | some true => Node.equalAll sameNode valueEq path 0 nodes1 nodes2
  | path, .collisionNode keys1 values1, .collisionNode keys2 values2 =>
    if sameNode path (.collisionNode keys1 values1) (.collisionNode keys2 values2) = true then
      some true
    else if keys1.length ≠ keys2.length then some false
    else equalEntries valueEq keys1 values1 keys2 values2
  | path, .bitmapIndexedNode nodemap1 datamap1 nodes1 keys1 values1,
    .collisionNode keys2 values2 =>
    if sameNode path (.bitmapIndexedNode nodemap1 datamap1 nodes1 keys1 values1)
        (.collisionNode keys2 values2) = true then some true
    else some false
  | path, .collisionNode keys1 values1,
    .bitmapIndexedNode nodemap2 datamap2 nodes2 keys2 values2 =>
    if sameNode path (.collisionNode keys1 values1)
        (.bitmapIndexedNode nodemap2 datamap2 nodes2 keys2 values2) = true then some true
    else some false
/-- The loop `for i := range n1.nodes` of `equalBitmapIndexedNodes`, from the index `i` on. -/
def Node.equalAll (sameNode : List Nat → Node K V → Node K V → Bool) (valueEq : V → V → Bool) :
    List Nat → Nat → List (Node K V) → List (Node K V) → Option Bool
  | _, _, [], _ => some true
  | _, _, _ :: _, [] => none
  | path, i, n1 :: rest1, n2 :: rest2 =>
    match Node.equal sameNode valueEq (path ++ [i]) n1 n2 with
    | none => none
    | some false => some false
    | some true => Node.equalAll sameNode valueEq path (i + 1) rest1 rest2
end

/-- The function `equalNode` of `map.go`, called on the roots of two maps. Two `nil`
values are equal under `n1 == n2`; a `nil` value and a node are of different types. -/
def equalNode (sameNode : List Nat → Node K V → Node K V → Bool) (valueEq : V → V → Bool) :
    Option (Node K V) → Option (Node K V) → Option Bool
  | none, none => some true
  | some n1, some n2 => Node.equal sameNode valueEq [] n1 n2
  | none, some _ => some false
  | some _, none => some false

/-- The outcome of `n1 == n2` when no two nodes that are compared stand at one address. -/
def distinctNodes : List Nat → Node K V → Node K V → Bool := fun _ _ _ => false

end EqualOps

/-! ## The map (`map.go`) -/

/-- A key: a Go string, that is a sequence of bytes. -/
abbrev Key : Type := List UInt8

/-- The function `hashKey` of `map.go`: the 32-bit FNV-1a hash of the bytes of the key
(`fnv.New32a`, `Write`, `Sum32` of the Go standard library). -/
def hashKey (key : Key) : Nat :=
  key.foldl (fun h c => ((h ^^^ c.toNat) * 16777619) % 2 ^ 32) 2166136261

/-- The type `Map` of `map.go`. -/
structure Map (V : Type) where
  root : Option (Node Key V)
  size : Int

section MapOps

variable {V : Type} [Inhabited V]

/-- The function `New`. -/
def New : Map V := { root := none, size := 0 }

/-- The method `Map.Get`. -/
def Map.Get (m : Map V) (key : Key) : Option (V × Bool) :=
  match m.root with
  | none => some (default, false)
  | some root => root.get key (hashKey key) 0

/-- The method `Map.Set`. -/
def Map.Set (m : Map V) (key : Key) (value : V) : Option (Map V) :=
  let h := hashKey key
  match m.root with
  | none =>
    some { root := some (.bitmapIndexedNode 0 (1 <<< (h &&& bitMask)) [] [key] [value]),
           size := 1 }
  | some root =>
    match root.set hashKey key value h 0 with
    | none => none
    | some (root, added) =>
      let size := m.size
      let size := if added then size + 1 else size
      some { root := some root, size := size }

/-- The method `Map.Delete`. -/
def Map.Delete (m : Map V) (key : Key) : Option (Map V) :=
  match m.root with
  | none => some m
  | some root =>
    match root.del key (hashKey key) 0 with
    | none => none
    | some (newRoot, deleted) =>
      if !deleted then some m
      else
        let newSize := m.size - 1
        match newRoot with
        | none => some New
        | some newRoot => some { root := some newRoot, size := newSize }

/-- The method `Map.Len`. -/
def Map.Len (m : Map V) : Int := m.size

/-- The method `Map.All`. -/
def Map.All (m : Map V) : Option (List (Key × V)) :=
  match m.root with
  | some root => root.all
  | none => some []

/-- The function `Equal`; `sameNode` and `valueEq` are the outcomes of `==` on the addresses
of the nodes and on the values. -/
def Equal (sameNode : List Nat → Node Key V → Node Key V → Bool) (valueEq : V → V → Bool)
    (m1 m2 : Map V) : Option Bool :=
  if m1.size ≠ m2.size then some false
  else equalNode sameNode valueEq m1.root m2.root

end MapOps

/-! ## Notions used to state the properties -/

/-- The number of set bits among the lowest `w` bits of `x`. -/
def bitCount : Nat → Nat → Nat
  | 0, _ => 0
  | w + 1, x => x % 2 + bitCount w (x / 2)

/-- The positions of the set bits of a 32-bit bitmap, in ascending order. -/
def slots (m : Nat) : List Nat := (List.range 32).filter (fun i => m.testBit i)

/-- The positions below `s` of the set bits of a bitmap. -/
def below (m s : Nat) : List Nat := (List.range s).filter (fun i => m.testBit i)

/-- The positions above `s` (and below 32) of the set bits of a bitmap. -/
def above (m s : Nat) : List Nat :=
  ((List.range (31 - s)).map (fun i => s + 1 + i)).filter (fun i => m.testBit i)

/-- The slice of a hash that selects the branch at depth `d`: the bits
`[d * bitsPerLevel, d * bitsPerLevel + bitsPerLevel)`. -/
def slice (hash d : Nat) : Nat := (hash >>> (bitsPerLevel * d)) &&& bitMask

section SpecDefs

variable {K V : Type}

mutual
/-- The pairs stored in a node, in traversal order: the inline entries, then the children. -/
def Node.entries : Node K V → List (K × V)
  | .bitmapIndexedNode _ _ nodes keys values => keys.zip values ++ Node.entriesOf nodes
  | .collisionNode keys values => keys.zip values
/-- The pairs stored in a list of nodes. -/
def Node.entriesOf : List (Node K V) → List (K × V)
  | [] => []
  | child :: rest => child.entries ++ Node.entriesOf rest
end

/-- What a child in the slot `s` of a node at depth `d` has to satisfy: it holds at least
two pairs, and the hashes of its keys have the slice `s` at depth `d`. -/
def ChildAt (hashFunc : K → Nat) (d s : Nat) (c : Node K V) : Prop :=
  2 ≤ c.entries.length ∧ ∀ kv ∈ c.entries, slice (hashFunc kv.1) d = s

/-- The shape of the nodes of a tree whose root is at depth `d`. -/
inductive WF (hashFunc : K → Nat) : Nat → Node K V → Prop
  | bitmapIndexedNode {d nodemap datamap : Nat} {nodes : List (Node K V)} {keys : List K}
      {values : List V} :
      d < maxDepth → nodemap < 2 ^ 32 → datamap < 2 ^ 32 → datamap &&& nodemap = 0 →
      keys.map (fun k => slice (hashFunc k) d) = slots datamap →
      values.length = keys.length →
      List.Forall₂ (ChildAt hashFunc d) (slots nodemap) nodes →
      (∀ c ∈ nodes, WF hashFunc (d + 1) c) →
      WF hashFunc d (.bitmapIndexedNode nodemap datamap nodes keys values)
  | collisionNode {keys : List K} {values : List V} :
      values.length = keys.length → 2 ≤ keys.length → keys.Nodup →
      WF hashFunc maxDepth (.collisionNode keys values)

/-- The value stored for a key in a list of pairs, with the flag of `Get`. -/
def lookupEntry [DecidableEq K] [Inhabited V] (key : K) : List (K × V) → V × Bool
  | [] => (default, false)
  | (k, v) :: rest => if k = key then (v, true) else lookupEntry key rest

/-- The node that `collisionNode.del` makes of a collision node with one pair left. -/
def IsSingleton (n : Node K V) : Prop :=
  ∃ k v, n = .bitmapIndexedNode 0 1 [] [k] [v]

/-- The pairs of a node that may be `nil`. -/
def entriesOpt : Option (Node K V) → List (K × V)
  | none => []
  | some n => n.entries

end SpecDefs

section MapSpec

variable {V : Type} [Inhabited V]

/-- The maps that `New`, `Set` and `Delete` produce. -/
inductive Reachable : Map V → Prop
  | new : Reachable New
  | set {m m' : Map V} (key : Key) (value : V) :
      Reachable m → m.Set key value = some m' → Reachable m'
  | delete {m m' : Map V} (key : Key) :
      Reachable m → m.Delete key = some m' → Reachable m'

/-- The invariant of reachable maps: the root is absent exactly when the map is empty,
the tree is well formed and `size` counts its pairs. -/
def MapOK (m : Map V) : Prop :=
  match m.root with
  | none => m.size = 0
  | some root => WF hashKey 0 root ∧ root.entries ≠ [] ∧ m.size = root.entries.length

end MapSpec

/-! ## Properties of all the nodes of a tree -/

section TreeSpec

variable {K V : Type}

/-- The property `P` holds of a node at depth `d` and of all the nodes below it, each at
its depth. -/
inductive AllNodes (P : Nat → Node K V → Prop) : Nat → Node K V → Prop
  | bitmapIndexedNode {d nodemap datamap : Nat} {nodes : List (Node K V)} {keys : List K}
      {values : List V} :
      P d (.bitmapIndexedNode nodemap datamap nodes keys values) →
      (∀ c ∈ nodes, AllNodes P (d + 1) c) →
      AllNodes P d (.bitmapIndexedNode nodemap datamap nodes keys values)
  | collisionNode {d : Nat} {keys : List K} {values : List V} :
      P d (.collisionNode keys values) → AllNodes P d (.collisionNode keys values)

/-- A `bitmapIndexedNode` with zero children and exactly one inline entry; "zero children"
is read off the bitmap or off the array. -/
def IsSingleEntry : Node K V → Prop
  | .bitmapIndexedNode nodemap _ nodes keys _ => (nodemap = 0 ∨ nodes = []) ∧ keys.length = 1
  | .collisionNode _ _ => False

/-- No child of the node is a `bitmapIndexedNode` with zero children and one inline entry. -/
def NoSingleEntryChild : Node K V → Prop
  | .bitmapIndexedNode _ _ nodes _ _ => ∀ c ∈ nodes, ¬ IsSingleEntry c
  | .collisionNode _ _ => True

/-- The bitmaps of a `bitmapIndexedNode` share no bit and are not both zero. -/
def BitmapsDisjoint : Node K V → Prop
  | .bitmapIndexedNode nodemap datamap _ _ _ =>
    datamap &&& nodemap = 0 ∧ ¬ (datamap = 0 ∧ nodemap = 0)
  | .collisionNode _ _ => True

/-- The arrays of a `bitmapIndexedNode` at depth `d` follow the bits of its bitmaps: the
slices of the keys are the set bits of `datamap` in ascending order, and the children
stand in the ascending order of the set bits of `nodemap`, each child holding keys of
its slice only. -/
def SlotOrdered (hashFunc : K → Nat) (d : Nat) : Node K V → Prop
  | .bitmapIndexedNode nodemap datamap nodes keys _ =>
    keys.map (fun k => slice (hashFunc k) d) = slots datamap
      ∧ (keys.map (fun k => slice (hashFunc k) d)).Sorted (· < ·)
      ∧ (slots nodemap).Sorted (· < ·)
      ∧ List.Forall₂ (fun s c => ∀ kv ∈ c.entries, slice (hashFunc kv.1) d = s)
          (slots nodemap) nodes
  | .collisionNode _ _ => True

end TreeSpec

/-! ## Indices, hash paths and collision nodes -/

/-- The expression `uint32(1 << ((hash >> shift) & bitMask))` of `node.go`: the bit of the
branch that a hash selects at a shift. -/
def branchBit (hash shift : Nat) : Nat := 1 <<< ((hash >>> shift) &&& bitMask)

/-- Two values that are one value or that `==` reports equal. -/
def sameValue {V : Type} (valueEq : V → V → Bool) (v1 v2 : V) : Prop :=
  v1 = v2 ∨ valueEq v1 v2 = true

/-- Two pairs with one key and with values that are one value or that `==` reports equal. -/
def samePair {K V : Type} (valueEq : V → V → Bool) (e1 e2 : K × V) : Prop :=
  e1.1 = e2.1 ∧ sameValue valueEq e1.2 e2.2

/-- The outcomes of `n1 == n2` that are possible: two nodes at one address have the same
fields. -/
def SoundSame {K V : Type} (sameNode : List Nat → Node K V → Node K V → Bool) : Prop :=
  ∀ path n1 n2, sameNode path n1 n2 = true → n1 = n2

section TreeSpecMore

variable {K V : Type}

/-- The arrays of a `bitmapIndexedNode` have the lengths that the bitmaps announce, and
the compacted index of every slot is in range: it is an index of the array when the bit
of the slot is set, and at most the length of the array otherwise. -/
def IndexSafe : Node K V → Prop
  | .bitmapIndexedNode nodemap datamap nodes keys values =>
    keys.length = popcount datamap ∧ values.length = popcount datamap
      ∧ nodes.length = popcount nodemap
      ∧ ∀ s, s < 32 →
          popcount (datamap &&& (2 ^ s - 1)) ≤ keys.length
          ∧ popcount (nodemap &&& (2 ^ s - 1)) ≤ nodes.length
          ∧ (datamap &&& 2 ^ s ≠ 0 → popcount (datamap &&& (2 ^ s - 1)) < keys.length)
          ∧ (nodemap &&& 2 ^ s ≠ 0 → popcount (nodemap &&& (2 ^ s - 1)) < nodes.length)
  | .collisionNode keys values => values.length = keys.length

/-- The hash path of a `bitmapIndexedNode` at depth `d`: the key at compacted index `i`
has as its slice the position of the `i`-th lowest set bit of `datamap`, and the keys
beneath the child at compacted index `j` have as their slice the position of the `j`-th
lowest set bit of `nodemap`. -/
def HashPath (hashFunc : K → Nat) (d : Nat) : Node K V → Prop
  | .bitmapIndexedNode nodemap datamap nodes keys _ =>
    (∀ (i : Nat) (k : K), keys[i]? = some k →
        (slots datamap)[i]? = some (slice (hashFunc k) d))
      ∧ ∀ (j : Nat) (c : Node K V), nodes[j]? = some c →
          ∃ s, (slots nodemap)[j]? = some s
            ∧ ∀ kv : K × V, kv ∈ c.entries → slice (hashFunc kv.1) d = s
  | .collisionNode _ _ => True

/-- What holds of a node at depth `d`: a `collisionNode` stands at depth `maxDepth`, holds
two pairs or more, with distinct keys of one hash; a `bitmapIndexedNode` stands above. -/
def CollisionInv (hashFunc : K → Nat) (d : Nat) : Node K V → Prop
  | .bitmapIndexedNode _ _ _ _ _ => d < maxDepth
  | .collisionNode keys values =>
    d = maxDepth ∧ 2 ≤ keys.length ∧ values.length = keys.length ∧ keys.Nodup
      ∧ ∀ k1 ∈ keys, ∀ k2 ∈ keys, hashFunc k1 = hashFunc k2

/-- The keys of the node have hashes with the same slices at all depths above `d`. -/
def SamePrefix (hashFunc : K → Nat) (d : Nat) (n : Node K V) : Prop :=
  ∀ kv1 ∈ n.entries, ∀ kv2 ∈ n.entries, ∀ e, e < d →
    slice (hashFunc kv1.1) e = slice (hashFunc kv2.1) e

mutual
/-- The number of nested `bitmapIndexedNode`s that hold nothing but one child, counted
from the node down. -/
def Node.chainLength : Node K V → Nat
  | .bitmapIndexedNode _ _ nodes [] [] => Node.chainLengthOf nodes
  | .bitmapIndexedNode _ _ _ (_ :: _) _ => 0
  | .bitmapIndexedNode _ _ _ [] (_ :: _) => 0
  | .collisionNode _ _ => 0
/-- The chain below a node whose only content is the list of children. -/
def Node.chainLengthOf : List (Node K V) → Nat
  | [] => 0
  | [c] => c.chainLength + 1
  | _ :: _ :: _ => 0
end

end TreeSpecMore

/-! ## Sample keys and maps -/

/-- The key `"liquid"`. -/
def keyLiquid : Key := [108, 105, 113, 117, 105, 100]

/-- The key `"costarring"`; its hash is the hash of `"liquid"`. -/
def keyCostarring : Key := [99, 111, 115, 116, 97, 114, 114, 105, 110, 103]

/-- The key `"a"`. -/
def keyA : Key := [97]

/-- The chain of single-child nodes above the collision node of `"liquid"` and
`"costarring"`, whose common hash is `1582148253`. -/
def collisionPath (leaf : Node Key Nat) : Node Key Nat :=
  .bitmapIndexedNode 536870912 0 [.bitmapIndexedNode 1048576 0 [.bitmapIndexedNode 1024 0
    [.bitmapIndexedNode 134217728 0 [.bitmapIndexedNode 16 0 [.bitmapIndexedNode 32768 0
      [.bitmapIndexedNode 2 0 [leaf] [] []] [] []] [] []] [] []] [] []] [] []] [] []

/-- The map `New().Set("liquid", 1)`. -/
def mapL : Map Nat :=
  { root := some (.bitmapIndexedNode 0 536870912 [] [keyLiquid] [1]), size := 1 }

/-- The map `New().Set("costarring", 2)`. -/
def mapC : Map Nat :=
  { root := some (.bitmapIndexedNode 0 536870912 [] [keyCostarring] [2]), size := 1 }

/-- The map `New().Set("liquid", 1).Set("costarring", 2)`. -/
def mapLC : Map Nat :=
  { root := some (collisionPath (.collisionNode [keyLiquid, keyCostarring] [1, 2])), size := 2 }

/-- The map `New().Set("costarring", 2).Set("liquid", 1)`. -/
def mapCL : Map Nat :=
  { root := some (collisionPath (.collisionNode [keyCostarring, keyLiquid] [2, 1])), size := 2 }

/-! ## The inputs of the node tests (`node_test.go`) -/

/-- The function `testHashFunc` of `node_test.go` on a string of binary digits: the
number the digits spell (`strconv.ParseUint(key, 2, 64)`). Other strings make the source
stop; they are not used here. -/
def testHashFunc (key : Key) : Nat :=
  key.foldl (fun h c => 2 * h + (c.toNat - 48)) 0

/-- The string of `n` characters `'0'`. -/
def zeros (n : Nat) : Key := List.replicate n 48

/-- The key `"00001" + strings.Repeat("00000", 11)`, of hash `1 << 55`. -/
def testKeyA : Key := [48, 48, 48, 48, 49] ++ zeros 55

/-- The key `"0000000001" + strings.Repeat("00000", 11)`, of hash `1 << 55`. -/
def testKeyB : Key := [48, 48, 48, 48, 48, 48, 48, 48, 48, 49] ++ zeros 55

/-- The key `"00001"`. -/
def testKey1 : Key := [48, 48, 48, 48, 49]

/-- The key `"00010"`. -/
def testKey2 : Key := [48, 48, 48, 49, 48]

/-- The key `"00100"`. -/
def testKey4 : Key := [48, 48, 49, 48, 48]

/-- The node of the test `collision creates child collision node`. -/
def testNodeA : Node Key Nat := .bitmapIndexedNode 0 2 [] [testKeyA] [100]

/-- The node that the test `collision creates child collision node` expects. -/
def testExpectedAB : Node Key Nat :=
  .bitmapIndexedNode 2 0
    [.bitmapIndexedNode 1 0 [.collisionNode [testKeyB, testKeyA] [200, 100]] [] []] [] []

/-- The node of the test `add new key to existing`. -/
def testCollision14 : Node Key Nat := .collisionNode [testKey1, testKey4] [100, 200]

/-- The node that the test `add new key to existing` expects. -/
def testExpected124 : Node Key Nat :=
  .collisionNode [testKey1, testKey2, testKey4] [100, 300, 200]

/-- The node of `mapLC` at depth 6, above the collision node. -/
def nodeAboveCollision : Node Key Nat :=
  .bitmapIndexedNode 2 0 [.collisionNode [keyLiquid, keyCostarring] [1, 2]] [] []


/-- The key `"0000100001"`, of hash `33`. -/
def testKey33 : Key := [48, 48, 48, 48, 49, 48, 48, 48, 48, 49]

/-- The node of the tests `update existing key` and `delete from two keys converts to
bitmap` of `TestCollisionNode`. -/
def testCollision12 : Node Key Nat := .collisionNode [testKey1, testKey2] [100, 200]

/-- The node of the test `delete from many keys`. -/
def testCollision124 : Node Key Nat :=
  .collisionNode [testKey1, testKey2, testKey4] [100, 200, 300]

/-! ## Values that `==` does not hold of: `float64` -/

/-- Sample values of the Go type `float64`: the whole numbers, the negative zero and NaN. -/
inductive SampleFloat where
  | num (n : Int)
  | negZero
  | nan

/-- Go's `==` on these values of `float64`: the negative zero is equal to zero, NaN is equal
to no value, not to itself either. -/
def SampleFloat.goEq : SampleFloat → SampleFloat → Bool
  | .num a, .num b => decide (a = b)
  | .num a, .negZero => decide (a = 0)
  | .negZero, .num b => decide (b = 0)
  | .negZero, .negZero => true
  | _, _ => false

instance : Inhabited SampleFloat := ⟨.num 0⟩

/-- Go's `==` on `int`, for the sample maps with values of type `Nat`. -/
def intEq (a b : Nat) : Bool := decide (a = b)

/-- The map `New().Set("a", NaN)`. -/
def mapNaN : Map SampleFloat :=
  { root := some (.bitmapIndexedNode 0 4096 [] [keyA] [.nan]), size := 1 }

/-- The map `New().Set("a", NaN).Set("liquid", 1)`. -/
def mapNaNL : Map SampleFloat :=
  { root := some (.bitmapIndexedNode 0 536875008 [] [keyA, keyLiquid] [.nan, .num 1]),
    size := 2 }

/-- The map `New().Set("a", 0.0)`. -/
def mapZero : Map SampleFloat :=
  { root := some (.bitmapIndexedNode 0 4096 [] [keyA] [.num 0]), size := 1 }

/-- The map `New().Set("a", -0.0)` (the negative zero). -/
def mapNegZero : Map SampleFloat :=
  { root := some (.bitmapIndexedNode 0 4096 [] [keyA] [.negZero]), size := 1 }
/-! ## Bitmaps: `popcount` and the positions of the set bits -/

theorem land_mod_two_pow (u m k : Nat) : (u &&& m) % 2 ^ k = (u % 2 ^ k) &&& (m % 2 ^ k) := by
  apply Nat.eq_of_testBit_eq
  intro i
  simp only [Nat.testBit_mod_two_pow, Nat.testBit_and]
  cases decide (i < k) <;> simp

theorem land_div_two_pow (u m k : Nat) : (u &&& m) / 2 ^ k = (u / 2 ^ k) &&& (m / 2 ^ k) := by
  apply Nat.eq_of_testBit_eq
  intro i
  simp only [← Nat.shiftRight_eq_div_pow, Nat.testBit_shiftRight, Nat.testBit_and]

theorem land_split (u m k : Nat) :
    u &&& m = ((u % 2 ^ k) &&& (m % 2 ^ k)) + 2 ^ k * ((u / 2 ^ k) &&& (m / 2 ^ k)) := by
  rw [← land_mod_two_pow, ← land_div_two_pow]
  exact (Nat.mod_add_div _ _).symm

theorem land_mod_of_lt (u m k : Nat) (h : m < 2 ^ k) : u &&& m = (u % 2 ^ k) &&& m := by
  have h1 : (u &&& m) % 2 ^ k = u &&& m := Nat.mod_eq_of_lt (Nat.and_lt_two_pow _ h)
  rw [← h1, land_mod_two_pow, Nat.mod_eq_of_lt h]

/-- One byte of a masked word: the mask byte `m0` has its top `j` bits clear. -/
theorem land_shift_byte (x j m0 M : Nat) (hj : j ≤ 8) (hm : m0 < 2 ^ (8 - j)) :
    (x / 2 ^ j) &&& (m0 + 256 * M)
      = ((x % 256 / 2 ^ j) &&& m0) + 256 * ((x / 256 / 2 ^ j) &&& M) := by
  have hm8 : m0 < 256 := lt_of_lt_of_le hm (by
    calc 2 ^ (8 - j) ≤ 2 ^ 8 := Nat.pow_le_pow_right (by norm_num) (by omega)
      _ = 256 := by norm_num)
  rw [land_split (x / 2 ^ j) (m0 + 256 * M) 8]
  have e1 : (m0 + 256 * M) % 2 ^ 8 = m0 := by omega
  have e2 : (m0 + 256 * M) / 2 ^ 8 = M := by omega
  rw [e1, e2]
  have e3 : x / 2 ^ j / 2 ^ 8 = x / 256 / 2 ^ j := by
    rw [Nat.div_div_eq_div_mul, Nat.div_div_eq_div_mul, Nat.mul_comm]; norm_num
  have e4 : (x / 2 ^ j % 2 ^ 8) &&& m0 = (x % 256 / 2 ^ j) &&& m0 := by
    rw [land_mod_of_lt _ m0 (8 - j) hm, land_mod_of_lt (x % 256 / 2 ^ j) m0 (8 - j) hm]
    congr 1
    have : (2:ℕ) ^ 8 = 2 ^ j * 2 ^ (8 - j) := by rw [← pow_add]; congr 1; omega
    rw [Nat.mod_mod_of_dvd _ (by rw [this]; exact Dvd.intro_left _ rfl)]
    have h256 : (256:ℕ) = 2 ^ j * 2 ^ (8 - j) := by rw [← this]; norm_num
    rw [h256, Nat.mod_mul_right_div_self, Nat.mod_mod]
  rw [e3, e4]
  norm_num


theorem land_shift_word (x j m0 m1 m2 m3 : Nat) (hj : j ≤ 8)
    (h0 : m0 < 2 ^ (8 - j)) (h1 : m1 < 2 ^ (8 - j)) (h2 : m2 < 2 ^ (8 - j)) :
    (x / 2 ^ j) &&& (m0 + 256 * (m1 + 256 * (m2 + 256 * m3)))
      = ((x % 256 / 2 ^ j) &&& m0) + 256 * (((x / 256 % 256 / 2 ^ j) &&& m1)
        + 256 * (((x / 256 / 256 % 256 / 2 ^ j) &&& m2)
          + 256 * ((x / 256 / 256 / 256 / 2 ^ j) &&& m3))) := by
  rw [land_shift_byte x j m0 _ hj h0, land_shift_byte (x / 256) j m1 _ hj h1,
    land_shift_byte (x / 256 / 256) j m2 _ hj h2]

theorem byte_swar : ∀ b < 256, (b / 2 &&& 85) ≤ b ∧
    (((b - (b / 2 &&& 85)) &&& 51) + ((b - (b / 2 &&& 85)) / 4 &&& 51)) % 16 ≤ 4 ∧
    (((b - (b / 2 &&& 85)) &&& 51) + ((b - (b / 2 &&& 85)) / 4 &&& 51)) / 16 ≤ 4 ∧
    ((((b - (b / 2 &&& 85)) &&& 51) + ((b - (b / 2 &&& 85)) / 4 &&& 51))
      + (((b - (b / 2 &&& 85)) &&& 51) + ((b - (b / 2 &&& 85)) / 4 &&& 51)) / 16) % 16
      = bitCount 8 b ∧ bitCount 8 b ≤ 8 := by
  decide!


theorem mask_bytes (j m0 m1 m2 m3 c0 c1 c2 c3 : Nat) (hj : j ≤ 8)
    (h0 : m0 < 2 ^ (8 - j)) (h1 : m1 < 2 ^ (8 - j)) (h2 : m2 < 2 ^ (8 - j))
    (k0 : c0 < 256) (k1 : c1 < 256) (k2 : c2 < 256) :
    ((c0 + 256 * (c1 + 256 * (c2 + 256 * c3))) / 2 ^ j) &&& (m0 + 256 * (m1 + 256 * (m2 + 256 * m3)))
      = ((c0 / 2 ^ j) &&& m0) + 256 * (((c1 / 2 ^ j) &&& m1)
        + 256 * (((c2 / 2 ^ j) &&& m2) + 256 * ((c3 / 2 ^ j) &&& m3))) := by
  rw [land_shift_word _ j m0 m1 m2 m3 hj h0 h1 h2]
  have e0 : (c0 + 256 * (c1 + 256 * (c2 + 256 * c3))) % 256 = c0 := by omega
  have e1 : (c0 + 256 * (c1 + 256 * (c2 + 256 * c3))) / 256 % 256 = c1 := by omega
  have e2 : (c0 + 256 * (c1 + 256 * (c2 + 256 * c3))) / 256 / 256 % 256 = c2 := by omega
  have e3 : (c0 + 256 * (c1 + 256 * (c2 + 256 * c3))) / 256 / 256 / 256 = c3 := by omega
  rw [e0, e1, e2, e3]

theorem mask55 (c0 c1 c2 c3 : Nat) (k0 : c0 < 256) (k1 : c1 < 256) (k2 : c2 < 256) :
    ((c0 + 256 * (c1 + 256 * (c2 + 256 * c3))) >>> 1) &&& 0x55555555
      = (c0 / 2 &&& 85) + 256 * ((c1 / 2 &&& 85) + 256 * ((c2 / 2 &&& 85) + 256 * (c3 / 2 &&& 85))) := by
  have h := mask_bytes 1 85 85 85 85 c0 c1 c2 c3 (by norm_num) (by norm_num) (by norm_num)
    (by norm_num) k0 k1 k2
  rw [Nat.shiftRight_eq_div_pow]
  exact h

theorem mask33 (c0 c1 c2 c3 : Nat) (k0 : c0 < 256) (k1 : c1 < 256) (k2 : c2 < 256) :
    (c0 + 256 * (c1 + 256 * (c2 + 256 * c3))) &&& 0x33333333
      = (c0 &&& 51) + 256 * ((c1 &&& 51) + 256 * ((c2 &&& 51) + 256 * (c3 &&& 51))) := by
  have h := mask_bytes 0 51 51 51 51 c0 c1 c2 c3 (by norm_num) (by norm_num) (by norm_num)
    (by norm_num) k0 k1 k2
  simpa using h

theorem mask33_shift (c0 c1 c2 c3 : Nat) (k0 : c0 < 256) (k1 : c1 < 256) (k2 : c2 < 256) :
    ((c0 + 256 * (c1 + 256 * (c2 + 256 * c3))) >>> 2) &&& 0x33333333
      = (c0 / 4 &&& 51) + 256 * ((c1 / 4 &&& 51) + 256 * ((c2 / 4 &&& 51) + 256 * (c3 / 4 &&& 51))) := by
  have h := mask_bytes 2 51 51 51 51 c0 c1 c2 c3 (by norm_num) (by norm_num) (by norm_num)
    (by norm_num) k0 k1 k2
  rw [Nat.shiftRight_eq_div_pow]
  exact h

theorem mask0f (x : Nat) :
    x &&& 0x0f0f0f0f
      = x % 16 + 256 * (x / 256 % 16 + 256 * (x / 256 / 256 % 16
        + 256 * (x / 256 / 256 / 256 % 16))) := by
  have h := land_shift_word x 0 15 15 15 15 (by norm_num) (by norm_num) (by norm_num)
    (by norm_num)
  have a : ∀ y : Nat, y &&& 15 = y % 16 := fun y => Nat.and_pow_two_sub_one_eq_mod y 4
  simp only [Nat.pow_zero, Nat.div_one, a] at h
  rw [show (0x0f0f0f0f : Nat) = 15 + 256 * (15 + 256 * (15 + 256 * 15)) by norm_num, h]
  omega

theorem tb (d : Nat) (a : d % 16 ≤ 4) (b : d / 16 ≤ 4) : (d + d / 16) % 16 = d % 16 + d / 16 := by
  omega

theorem dig16 (A0 A1 A2 A3 A4 A5 A6 A7 : Nat) (a0 : A0 < 16) (a1 : A1 < 16) (a2 : A2 < 16)
    (a3 : A3 < 16) (a4 : A4 < 16) (a5 : A5 < 16) (a6 : A6 < 16) (w : Nat)
    (hw : w = A0 + 16 * (A1 + 16 * (A2 + 16 * (A3 + 16 * (A4 + 16 * (A5 + 16 * (A6 + 16 * A7))))))) :
    w % 16 = A0 ∧ w / 256 % 16 = A2 ∧ w / 256 / 256 % 16 = A4 ∧ w / 256 / 256 / 256 % 16 = A6 := by
  refine ⟨by omega, by omega, by omega, by omega⟩

theorem nibble_sum (l0 h0 l1 h1 l2 h2 l3 h3 : Nat) (a0 : l0 ≤ 4) (b0 : h0 ≤ 4) (a1 : l1 ≤ 4)
    (b1 : h1 ≤ 4) (a2 : l2 ≤ 4) (b2 : h2 ≤ 4) (a3 : l3 ≤ 4) (b3 : h3 ≤ 4) (w : Nat)
    (hw : w = ((l0 + 16 * h0) + 256 * ((l1 + 16 * h1) + 256 * ((l2 + 16 * h2) + 256 * (l3 + 16 * h3)))
      + ((l0 + 16 * h0) + 256 * ((l1 + 16 * h1) + 256 * ((l2 + 16 * h2) + 256 * (l3 + 16 * h3)))) / 16)
        % 4294967296) :
    w % 16 + 256 * (w / 256 % 16 + 256 * (w / 256 / 256 % 16 + 256 * (w / 256 / 256 / 256 % 16)))
      = (l0 + h0) + 256 * ((l1 + h1) + 256 * ((l2 + h2) + 256 * (l3 + h3))) := by
  have q : ((l0 + 16 * h0) + 256 * ((l1 + 16 * h1) + 256 * ((l2 + 16 * h2) + 256 * (l3 + 16 * h3)))) / 16
      = h0 + 16 * (l1 + 16 * (h1 + 16 * (l2 + 16 * (h2 + 16 * (l3 + 16 * h3))))) := by omega
  rw [q] at hw
  have e : w = (l0 + h0) + 16 * ((h0 + l1) + 16 * ((l1 + h1)
      + 16 * ((h1 + l2) + 16 * ((l2 + h2) + 16 * ((h2 + l3)
        + 16 * ((l3 + h3) + 16 * h3)))))) := by omega
  obtain ⟨r0, r1, r2, r3⟩ := dig16 _ _ _ _ _ _ _ _ (by omega) (by omega) (by omega) (by omega)
    (by omega) (by omega) (by omega) w e
  rw [r0, r1, r2, r3]

theorem nibble_add (d0 d1 d2 d3 : Nat) (a0 : d0 % 16 ≤ 4) (b0 : d0 / 16 ≤ 4) (a1 : d1 % 16 ≤ 4)
    (b1 : d1 / 16 ≤ 4) (a2 : d2 % 16 ≤ 4) (b2 : d2 / 16 ≤ 4) (a3 : d3 % 16 ≤ 4) (b3 : d3 / 16 ≤ 4)
    (w : Nat)
    (hw : w = (d0 + 256 * (d1 + 256 * (d2 + 256 * d3))
      + (d0 + 256 * (d1 + 256 * (d2 + 256 * d3))) / 16) % 4294967296) :
    w % 16 + 256 * (w / 256 % 16 + 256 * (w / 256 / 256 % 16 + 256 * (w / 256 / 256 / 256 % 16)))
      = (d0 + d0 / 16) % 16 + 256 * ((d1 + d1 / 16) % 16
        + 256 * ((d2 + d2 / 16) % 16 + 256 * ((d3 + d3 / 16) % 16))) := by
  rw [tb d0 a0 b0, tb d1 a1 b1, tb d2 a2 b2, tb d3 a3 b3]
  have c0 : d0 = d0 % 16 + 16 * (d0 / 16) := (Nat.mod_add_div d0 16).symm
  have c1 : d1 = d1 % 16 + 16 * (d1 / 16) := (Nat.mod_add_div d1 16).symm
  have c2 : d2 = d2 % 16 + 16 * (d2 / 16) := (Nat.mod_add_div d2 16).symm
  have c3 : d3 = d3 % 16 + 16 * (d3 / 16) := (Nat.mod_add_div d3 16).symm
  refine nibble_sum _ _ _ _ _ _ _ _ a0 b0 a1 b1 a2 b2 a3 b3 w ?_
  rw [← c0, ← c1, ← c2, ← c3]
  exact hw

theorem dig256 (B0 B1 B2 B3 : Nat) (a0 : B0 < 256) (a1 : B1 < 256) (a2 : B2 < 256) (a3 : B3 < 256) :
    (B0 + 256 * (B1 + 256 * (B2 + 256 * B3))) / 256 = B1 + 256 * (B2 + 256 * B3) ∧
    (B0 + 256 * (B1 + 256 * (B2 + 256 * B3))) / 65536 = B2 + 256 * B3 ∧
    (B0 + 256 * (B1 + 256 * (B2 + 256 * B3))) % 4294967296 = B0 + 256 * (B1 + 256 * (B2 + 256 * B3)) := by
  refine ⟨by omega, by omega, by omega⟩

theorem fold_add (e0 e1 e2 e3 : Nat) (a0 : e0 ≤ 8) (a1 : e1 ≤ 8) (a2 : e2 ≤ 8) (a3 : e3 ≤ 8) :
    (((e0 + 256 * (e1 + 256 * (e2 + 256 * e3)) + (e0 + 256 * (e1 + 256 * (e2 + 256 * e3))) / 256) % 4294967296
      + ((e0 + 256 * (e1 + 256 * (e2 + 256 * e3)) + (e0 + 256 * (e1 + 256 * (e2 + 256 * e3))) / 256) % 4294967296) / 65536)
        % 4294967296) % 64 = e0 + e1 + e2 + e3 := by
  obtain ⟨p1, -, -⟩ := dig256 e0 e1 e2 e3 (by omega) (by omega) (by omega) (by omega)
  rw [p1]
  have s : e0 + 256 * (e1 + 256 * (e2 + 256 * e3)) + (e1 + 256 * (e2 + 256 * e3))
      = (e0 + e1) + 256 * ((e1 + e2) + 256 * ((e2 + e3) + 256 * e3)) := by omega
  rw [s]
  obtain ⟨-, p2, p3⟩ := dig256 (e0 + e1) (e1 + e2) (e2 + e3) e3 (by omega) (by omega) (by omega)
    (by omega)
  rw [p3, p2]
  omega

theorem popcount_bytes (b0 b1 b2 b3 : Nat) (h0 : b0 < 256) (h1 : b1 < 256) (h2 : b2 < 256)
    (h3 : b3 < 256) :
    popcount (b0 + 256 * (b1 + 256 * (b2 + 256 * b3)))
      = bitCount 8 b0 + bitCount 8 b1 + bitCount 8 b2 + bitCount 8 b3 := by
  obtain ⟨p0, q0, q0', r0, u0⟩ := byte_swar b0 h0
  obtain ⟨p1, q1, q1', r1, u1⟩ := byte_swar b1 h1
  obtain ⟨p2, q2, q2', r2, u2⟩ := byte_swar b2 h2
  obtain ⟨p3, q3, q3', r3, u3⟩ := byte_swar b3 h3
  have s1 : (b0 + 256 * (b1 + 256 * (b2 + 256 * b3)) + 2 ^ 32
      - ((b0 + 256 * (b1 + 256 * (b2 + 256 * b3))) >>> 1 &&& 0x55555555)) % 2 ^ 32
      = (b0 - (b0 / 2 &&& 85)) + 256 * ((b1 - (b1 / 2 &&& 85))
        + 256 * ((b2 - (b2 / 2 &&& 85)) + 256 * (b3 - (b3 / 2 &&& 85)))) := by
    rw [mask55 b0 b1 b2 b3 h0 h1 h2]
    omega
  simp only [popcount]
  rw [s1]
  have k0 : b0 - (b0 / 2 &&& 85) < 256 := by omega
  have k1 : b1 - (b1 / 2 &&& 85) < 256 := by omega
  have k2 : b2 - (b2 / 2 &&& 85) < 256 := by omega
  generalize b0 - (b0 / 2 &&& 85) = c0 at *
  generalize b1 - (b1 / 2 &&& 85) = c1 at *
  generalize b2 - (b2 / 2 &&& 85) = c2 at *
  generalize b3 - (b3 / 2 &&& 85) = c3 at *
  have s2 : ((c0 + 256 * (c1 + 256 * (c2 + 256 * c3)) &&& 0x33333333)
      + ((c0 + 256 * (c1 + 256 * (c2 + 256 * c3))) >>> 2 &&& 0x33333333)) % 2 ^ 32
      = ((c0 &&& 51) + (c0 / 4 &&& 51)) + 256 * (((c1 &&& 51) + (c1 / 4 &&& 51))
        + 256 * (((c2 &&& 51) + (c2 / 4 &&& 51)) + 256 * ((c3 &&& 51) + (c3 / 4 &&& 51)))) := by
    rw [mask33 c0 c1 c2 c3 k0 k1 k2, mask33_shift c0 c1 c2 c3 k0 k1 k2]
    omega
  rw [s2]
  generalize (c0 &&& 51) + (c0 / 4 &&& 51) = d0 at *
  generalize (c1 &&& 51) + (c1 / 4 &&& 51) = d1 at *
  generalize (c2 &&& 51) + (c2 / 4 &&& 51) = d2 at *
  generalize (c3 &&& 51) + (c3 / 4 &&& 51) = d3 at *
  have s3 : ((d0 + 256 * (d1 + 256 * (d2 + 256 * d3))
      + (d0 + 256 * (d1 + 256 * (d2 + 256 * d3))) >>> 4) % 2 ^ 32) &&& 0x0f0f0f0f
      = (d0 + d0 / 16) % 16 + 256 * ((d1 + d1 / 16) % 16
        + 256 * ((d2 + d2 / 16) % 16 + 256 * ((d3 + d3 / 16) % 16))) := by
    rw [mask0f]
    exact nibble_add d0 d1 d2 d3 q0 q0' q1 q1' q2 q2' q3 q3' _
      (by rw [Nat.shiftRight_eq_div_pow]; norm_num)
  rw [s3, r0, r1, r2, r3]
  generalize bitCount 8 b0 = e0 at *
  generalize bitCount 8 b1 = e1 at *
  generalize bitCount 8 b2 = e2 at *
  generalize bitCount 8 b3 = e3 at *
  rw [show (0x3f : Nat) = 2 ^ 6 - 1 by norm_num, Nat.and_pow_two_sub_one_eq_mod]
  simp only [Nat.shiftRight_eq_div_pow, Nat.reducePow]
  exact fold_add e0 e1 e2 e3 u0 u1 u2 u3

theorem bitCount_split (a b x : Nat) :
    bitCount (a + b) x = bitCount a x + bitCount b (x / 2 ^ a) := by
  induction a generalizing x with
  | zero => simp [bitCount]
  | succ a ih =>
    rw [show a + 1 + b = (a + b) + 1 by omega]
    simp only [bitCount]
    rw [ih, Nat.div_div_eq_div_mul, pow_succ', Nat.add_assoc]

theorem bitCount_mod (w x : Nat) : bitCount w (x % 2 ^ w) = bitCount w x := by
  induction w generalizing x with
  | zero => simp [bitCount]
  | succ w ih =>
    simp only [bitCount]
    have h1 : x % 2 ^ (w + 1) % 2 = x % 2 := by
      rw [pow_succ']; exact Nat.mod_mul_right_mod x 2 (2 ^ w)
    have h2 : x % 2 ^ (w + 1) / 2 = (x / 2) % 2 ^ w := by
      rw [pow_succ']; exact Nat.mod_mul_right_div_self x 2 (2 ^ w)
    rw [h1, h2, ih]

theorem popcount_eq_bitCount (x : Nat) (hx : x < 2 ^ 32) : popcount x = bitCount 32 x := by
  have h := popcount_bytes (x % 256) (x / 256 % 256) (x / 256 / 256 % 256) (x / 256 / 256 / 256)
    (by omega) (by omega) (by omega) (by omega)
  have e : x % 256 + 256 * (x / 256 % 256 + 256 * (x / 256 / 256 % 256
      + 256 * (x / 256 / 256 / 256))) = x := by omega
  rw [e] at h
  rw [h, show (32 : Nat) = 8 + (8 + (8 + 8)) by norm_num, bitCount_split, bitCount_split,
    bitCount_split]
  have m8 : ∀ y, bitCount 8 (y % 256) = bitCount 8 y := fun y => bitCount_mod 8 y
  rw [m8, m8, m8]
  simp only [Nat.div_div_eq_div_mul]
  norm_num
  omega


theorem bitCount_eq_filter (w x : Nat) :
    bitCount w x = ((List.range w).filter (fun i => x.testBit i)).length := by
  induction w generalizing x with
  | zero => simp [bitCount]
  | succ w ih =>
    rw [List.range_succ_eq_map, List.filter_cons, List.filter_map, bitCount, ih]
    have e : ((fun i => x.testBit i) ∘ Nat.succ) = fun i => (x / 2).testBit i := by
      funext i; simp [Nat.testBit_succ]
    rw [e]
    rcases Nat.mod_two_eq_zero_or_one x with h | h <;> simp [h]; omega

theorem popcount_eq_slots (m : Nat) (h : m < 2 ^ 32) : popcount m = (slots m).length := by
  rw [popcount_eq_bitCount m h, bitCount_eq_filter, slots]

theorem range_split (s : Nat) (hs : s < 32) :
    List.range 32 = List.range s ++ s :: (List.range (31 - s)).map (fun i => s + 1 + i) := by
  have e : 32 = (s + 1) + (31 - s) := by omega
  rw [e, List.range_add, List.range_succ, List.append_assoc]
  have e' : s + 1 + (31 - s) - (s + 1) = 31 - s := by omega
  simp [e']

theorem slots_split (m s : Nat) (hs : s < 32) :
    slots m = below m s ++ (if m.testBit s then [s] else []) ++ above m s := by
  rw [slots, range_split s hs, List.filter_append, List.filter_cons, below, above]
  split <;> simp

theorem mem_below {m s i : Nat} : i ∈ below m s ↔ i < s ∧ m.testBit i = true := by
  simp [below]

theorem mem_above {m s i : Nat} : i ∈ above m s ↔ (s < i ∧ i < 32) ∧ m.testBit i = true := by
  simp only [above, List.mem_filter, List.mem_map, List.mem_range]
  constructor
  · rintro ⟨⟨a, ha, rfl⟩, h⟩
    exact ⟨⟨by omega, by omega⟩, h⟩
  · rintro ⟨⟨h1, h2⟩, h⟩
    exact ⟨⟨i - (s + 1), by omega, by omega⟩, h⟩

theorem mem_slots {m i : Nat} : i ∈ slots m ↔ i < 32 ∧ m.testBit i = true := by
  simp [slots]

theorem below_congr {m m' s : Nat} (h : ∀ i, i ≠ s → m'.testBit i = m.testBit i) :
    below m' s = below m s := by
  unfold below
  apply List.filter_congr
  intro i hi
  exact h i (by have := List.mem_range.1 hi; omega)

theorem above_congr {m m' s : Nat} (h : ∀ i, i ≠ s → m'.testBit i = m.testBit i) :
    above m' s = above m s := by
  unfold above
  apply List.filter_congr
  intro i hi
  obtain ⟨a, -, rfl⟩ := List.mem_map.1 hi
  exact h _ (by omega)

theorem testBit_lor_bit (m s i : Nat) :
    (m ||| 2 ^ s).testBit i = (m.testBit i || decide (s = i)) := by
  rw [Nat.testBit_or, Nat.testBit_two_pow]

theorem testBit_andNot_bit (m s i : Nat) (hi : i < 32) :
    (andNot m (2 ^ s)).testBit i = (m.testBit i && !decide (s = i)) := by
  have h : (4294967295 : Nat).testBit i = true := by
    rw [show (4294967295 : Nat) = 2 ^ 32 - 1 by norm_num, Nat.testBit_two_pow_sub_one]
    simpa using hi
  rw [andNot, Nat.testBit_and, Nat.testBit_xor, Nat.testBit_two_pow, h]
  cases decide (s = i) <;> simp

theorem slots_of_set {m s : Nat} (hs : s < 32) (h : m.testBit s = true) :
    slots m = below m s ++ s :: above m s := by
  rw [slots_split m s hs, h]; simp

theorem slots_of_unset {m s : Nat} (hs : s < 32) (h : m.testBit s = false) :
    slots m = below m s ++ above m s := by
  rw [slots_split m s hs, h]; simp

theorem slots_lor {m s : Nat} (hs : s < 32) :
    slots (m ||| 2 ^ s) = below m s ++ s :: above m s := by
  have hc : ∀ i, i ≠ s → (m ||| 2 ^ s).testBit i = m.testBit i := by
    intro i hi
    rw [testBit_lor_bit]
    have : decide (s = i) = false := by simpa using fun h => hi h.symm
    simp [this]
  rw [slots_of_set hs (by rw [testBit_lor_bit]; simp), below_congr hc, above_congr hc]

theorem slots_filter_lt (m : Nat) : ∀ i ∈ slots m, i < 32 := fun _ hi => (mem_slots.1 hi).1

theorem slots_andNot {m s : Nat} (hs : s < 32) :
    slots (andNot m (2 ^ s)) = below m s ++ above m s := by
  have ht : (andNot m (2 ^ s)).testBit s = false := by
    rw [testBit_andNot_bit _ _ _ hs]; simp
  rw [slots_of_unset hs ht]
  congr 1
  · unfold below
    apply List.filter_congr
    intro i hi
    have := List.mem_range.1 hi
    rw [testBit_andNot_bit _ _ _ (by omega)]
    have : decide (s = i) = false := by simpa using (by omega : s ≠ i)
    simp [this]
  · unfold above
    apply List.filter_congr
    intro i hi
    obtain ⟨a, ha, rfl⟩ := List.mem_map.1 hi
    have := List.mem_range.1 ha
    rw [testBit_andNot_bit _ _ _ (by omega)]
    have : decide (s = s + 1 + a) = false := by simpa using (by omega : s ≠ s + 1 + a)
    simp [this]

theorem testBit_land_low (m s i : Nat) :
    (m &&& (2 ^ s - 1)).testBit i = (m.testBit i && decide (i < s)) := by
  rw [Nat.testBit_and, Nat.testBit_two_pow_sub_one]

theorem popcount_low (m s : Nat) (hs : s < 32) :
    popcount (m &&& (2 ^ s - 1)) = (below m s).length := by
  have hlt : m &&& (2 ^ s - 1) < 2 ^ 32 := by
    have h1 : 2 ^ s - 1 < 2 ^ s := Nat.sub_lt (Nat.two_pow_pos s) (by norm_num)
    have h2 : 2 ^ s < 2 ^ 32 := Nat.pow_lt_pow_right (by norm_num) hs
    exact lt_of_le_of_lt Nat.and_le_right (lt_trans h1 h2)
  have ht : (m &&& (2 ^ s - 1)).testBit s = false := by
    rw [testBit_land_low]; simp
  rw [popcount_eq_slots _ hlt, slots_of_unset hs ht]
  have ha : above (m &&& (2 ^ s - 1)) s = [] := by
    unfold above
    rw [List.filter_eq_nil_iff]
    intro i hi
    obtain ⟨a, -, rfl⟩ := List.mem_map.1 hi
    rw [testBit_land_low]
    have : decide (s + 1 + a < s) = false := by simpa using (by omega : s ≤ s + 1 + a)
    simp [this]
  have hb : below (m &&& (2 ^ s - 1)) s = below m s := by
    unfold below
    apply List.filter_congr
    intro i hi
    have := List.mem_range.1 hi
    rw [testBit_land_low]
    simp [this]
  rw [ha, hb, List.append_nil]

theorem land_bit_ne_zero (m s : Nat) : m &&& 2 ^ s ≠ 0 ↔ m.testBit s = true := by
  constructor
  · intro h
    by_contra hc
    apply h
    apply Nat.eq_of_testBit_eq
    intro i
    rw [Nat.testBit_and, Nat.testBit_two_pow, Nat.zero_testBit]
    by_cases e : s = i
    · subst e; simp [hc]
    · simp [e]
  · intro h hc
    have : (m &&& 2 ^ s).testBit s = true := by
      rw [Nat.testBit_and, Nat.testBit_two_pow, h]; simp
    rw [hc, Nat.zero_testBit] at this
    exact Bool.noConfusion this

theorem slots_eq_nil {m : Nat} (h : m < 2 ^ 32) (hs : slots m = []) : m = 0 := by
  apply Nat.eq_of_testBit_eq
  intro i
  rw [Nat.zero_testBit]
  by_cases hi : i < 32
  · by_contra hc
    have : i ∈ slots m := mem_slots.2 ⟨hi, by simpa using hc⟩
    rw [hs] at this
    exact List.not_mem_nil _ this
  · exact Nat.testBit_lt_two_pow (lt_of_lt_of_le h (Nat.pow_le_pow_right (by norm_num) (by omega)))

/-! ## Lists: inserting, removing and replacing at an index -/

section ListLemmas

variable {T U : Type}

theorem insertAt_append (A C : List T) (x : T) :
    insertAt (A ++ C) A.length x = some (A ++ x :: C) := by
  simp [insertAt]

theorem removeAt_append (A C : List T) (x : T) :
    removeAt (A ++ x :: C) A.length = some (A ++ C) := by
  simp [removeAt]

theorem getElem?_append_cons (A C : List T) (x : T) : (A ++ x :: C)[A.length]? = some x := by
  rw [List.getElem?_append_right (le_refl _)]; simp

theorem set_append_cons (A C : List T) (x y : T) : (A ++ x :: C).set A.length y = A ++ y :: C := by
  simp

theorem zip_append_cons (KA KC : List T) (VA VC : List U) (k : T) (v : U)
    (h : KA.length = VA.length) :
    (KA ++ k :: KC).zip (VA ++ v :: VC) = KA.zip VA ++ (k, v) :: KC.zip VC := by
  rw [List.zip_append h, List.zip_cons_cons]

theorem zip_append_append (KA KC : List T) (VA VC : List U) (h : KA.length = VA.length) :
    (KA ++ KC).zip (VA ++ VC) = KA.zip VA ++ KC.zip VC :=
  List.zip_append h

/-- A list mapped onto `A ++ s :: C` splits accordingly. -/
theorem map_eq_append_cons {f : T → U} {l : List T} {A C : List U} {s : U}
    (h : l.map f = A ++ s :: C) :
    ∃ LA x LC, l = LA ++ x :: LC ∧ LA.map f = A ∧ f x = s ∧ LC.map f = C := by
  obtain ⟨LA, r, rfl, hA, hr⟩ := List.map_eq_append_iff.1 h
  obtain ⟨x, LC, rfl, hx, hC⟩ := List.map_eq_cons_iff.1 hr
  exact ⟨LA, x, LC, rfl, hA, hx, hC⟩

theorem map_eq_append_split {f : T → U} {l : List T} {A C : List U}
    (h : l.map f = A ++ C) :
    ∃ LA LC, l = LA ++ LC ∧ LA.map f = A ∧ LC.map f = C := by
  obtain ⟨LA, r, rfl, hA, hr⟩ := List.map_eq_append_iff.1 h
  exact ⟨LA, r, rfl, hA, hr⟩

/-- A list as long as `KA ++ k :: KC` splits accordingly. -/
theorem split_of_length_cons {vs : List U} {KA KC : List T} {k : T}
    (h : vs.length = (KA ++ k :: KC).length) :
    ∃ VA v VC, vs = VA ++ v :: VC ∧ VA.length = KA.length ∧ VC.length = KC.length := by
  have hlen : KA.length < vs.length := by rw [h]; simp
  refine ⟨vs.take KA.length, vs[KA.length], vs.drop (KA.length + 1), ?_, ?_, ?_⟩
  · rw [← List.drop_eq_getElem_cons, List.take_append_drop]
  · simp; omega
  · simp at h ⊢; omega

theorem split_of_length {vs : List U} {KA KC : List T}
    (h : vs.length = (KA ++ KC).length) :
    ∃ VA VC, vs = VA ++ VC ∧ VA.length = KA.length ∧ VC.length = KC.length := by
  refine ⟨vs.take KA.length, vs.drop KA.length, (List.take_append_drop _ _).symm, ?_, ?_⟩
  · simp at h ⊢; omega
  · simp at h ⊢; omega

theorem forall₂_append_cons {R : T → U → Prop} {A C : List T} {s : T} {l : List U}
    (h : List.Forall₂ R (A ++ s :: C) l) :
    ∃ LA x LC, l = LA ++ x :: LC ∧ List.Forall₂ R A LA ∧ R s x ∧ List.Forall₂ R C LC
      ∧ LA.length = A.length := by
  have hlen := h.length_eq
  have h1 := List.forall₂_take A.length h
  have h2 := List.forall₂_drop A.length h
  rw [List.take_left] at h1
  rw [List.drop_left] at h2
  obtain ⟨x, LC, hx, hC, e⟩ := List.forall₂_cons_left_iff.1 h2
  refine ⟨l.take A.length, x, LC, ?_, h1, hx, hC, ?_⟩
  · rw [← e, List.take_append_drop]
  · simp at hlen ⊢; omega

theorem forall₂_append_split {R : T → U → Prop} {A C : List T} {l : List U}
    (h : List.Forall₂ R (A ++ C) l) :
    ∃ LA LC, l = LA ++ LC ∧ List.Forall₂ R A LA ∧ List.Forall₂ R C LC
      ∧ LA.length = A.length := by
  have hlen := h.length_eq
  have h1 := List.forall₂_take A.length h
  have h2 := List.forall₂_drop A.length h
  rw [List.take_left] at h1
  rw [List.drop_left] at h2
  refine ⟨l.take A.length, l.drop A.length, (List.take_append_drop _ _).symm, h1, h2, ?_⟩
  simp at hlen ⊢; omega

theorem forall₂_join {R : T → U → Prop} {A C : List T} {LA LC : List U} {s : T} {x : U}
    (h1 : List.Forall₂ R A LA) (hx : R s x) (h2 : List.Forall₂ R C LC) :
    List.Forall₂ R (A ++ s :: C) (LA ++ x :: LC) :=
  List.rel_append h1 (List.Forall₂.cons hx h2)

end ListLemmas

/-! ## The pairs of a node -/

section Entries

variable {K V : Type}

theorem entriesOf_append (A B : List (Node K V)) :
    Node.entriesOf (A ++ B) = Node.entriesOf A ++ Node.entriesOf B := by
  induction A with
  | nil => simp [Node.entriesOf]
  | cons a A ih => simp [Node.entriesOf, ih]

theorem entriesOf_cons (c : Node K V) (B : List (Node K V)) :
    Node.entriesOf (c :: B) = c.entries ++ Node.entriesOf B := by
  simp [Node.entriesOf]

theorem entriesOf_nil : Node.entriesOf ([] : List (Node K V)) = [] := by
  simp [Node.entriesOf]

theorem entries_bitmapIndexedNode (nm dm : Nat) (nodes : List (Node K V)) (keys : List K)
    (values : List V) :
    (Node.bitmapIndexedNode nm dm nodes keys values).entries
      = keys.zip values ++ Node.entriesOf nodes := by
  simp [Node.entries]

theorem entries_collisionNode (keys : List K) (values : List V) :
    (Node.collisionNode keys values).entries = keys.zip values := by
  simp [Node.entries]

theorem mem_entriesOf {nodes : List (Node K V)} {kv : K × V} :
    kv ∈ Node.entriesOf nodes ↔ ∃ c ∈ nodes, kv ∈ c.entries := by
  induction nodes with
  | nil => simp [Node.entriesOf]
  | cons a A ih => simp [Node.entriesOf, ih]

theorem yieldEntries_eq : ∀ (keys : List K) (values : List V),
    values.length = keys.length → yieldEntries keys values = some (keys.zip values)
  | [], _, _ => by simp [yieldEntries]
  | _ :: _, [], h => by simp at h
  | k :: ks, v :: vs, h => by
    have h' : vs.length = ks.length := by simpa using h
    simp [yieldEntries, yieldEntries_eq ks vs h']

theorem allOf_eq {nodes : List (Node K V)} (h : ∀ c ∈ nodes, c.all = some c.entries) :
    Node.allOf nodes = some (Node.entriesOf nodes) := by
  induction nodes with
  | nil => simp [Node.allOf, Node.entriesOf]
  | cons a A ih =>
    have h1 := h a (List.mem_cons_self _ _)
    have h2 := ih (fun c hc => h c (List.mem_cons_of_mem _ hc))
    simp [Node.allOf, Node.entriesOf, h1, h2]

/-- On a well-formed node `all` produces the pairs of the node. -/
theorem all_eq_entries {hashFunc : K → Nat} {d : Nat} {n : Node K V} (h : WF hashFunc d n) :
    n.all = some n.entries := by
  induction h with
  | bitmapIndexedNode _ _ _ _ _ hv _ _ ih =>
    simp [Node.all, Node.entries, yieldEntries_eq _ _ hv, allOf_eq ih]
  | collisionNode hv _ _ =>
    simp [Node.all, Node.entries, yieldEntries_eq _ _ hv]

theorem map_fst_zip_eq {keys : List K} {values : List V} (h : values.length = keys.length) :
    (keys.zip values).map Prod.fst = keys :=
  List.map_fst_zip _ _ (le_of_eq h.symm)

theorem mem_zip_fst {keys : List K} {values : List V} {kv : K × V} (h : kv ∈ keys.zip values) :
    kv.1 ∈ keys :=
  (List.of_mem_zip h).1

end Entries

/-! ## Bitmaps and slices -/

theorem slice_lt (hash d : Nat) : slice hash d < 32 := by
  unfold slice bitMask branchFactor bitsPerLevel
  exact Nat.and_lt_two_pow _ (by decide : (1 <<< 5 - 1 : Nat) < 2 ^ 5)

theorem slots_nodup (m : Nat) : (slots m).Nodup :=
  (List.nodup_range 32).filter _

theorem not_mem_below (m s : Nat) : s ∉ below m s := fun h => by
  have := (mem_below.1 h).1; omega

theorem not_mem_above (m s : Nat) : s ∉ above m s := fun h => by
  have := (mem_above.1 h).1.1; omega

theorem below_subset_slots {m s : Nat} (hs : s < 32) : ∀ i ∈ below m s, i ∈ slots m := by
  intro i hi
  have := mem_below.1 hi
  exact mem_slots.2 ⟨by omega, this.2⟩

theorem above_subset_slots {m s : Nat} : ∀ i ∈ above m s, i ∈ slots m := by
  intro i hi
  have := mem_above.1 hi
  exact mem_slots.2 ⟨this.1.2, this.2⟩

theorem disjoint_testBit {dm nm : Nat} (h : dm &&& nm = 0) (i : Nat)
    (h1 : dm.testBit i = true) (h2 : nm.testBit i = true) : False := by
  have : (dm &&& nm).testBit i = true := by rw [Nat.testBit_and, h1, h2]; rfl
  rw [h, Nat.zero_testBit] at this
  exact Bool.noConfusion this

theorem land_eq_zero_of_testBit {dm nm : Nat}
    (h : ∀ i, ¬ (dm.testBit i = true ∧ nm.testBit i = true)) : dm &&& nm = 0 := by
  apply Nat.eq_of_testBit_eq
  intro i
  rw [Nat.testBit_and, Nat.zero_testBit]
  have := h i
  cases h1 : dm.testBit i <;> cases h2 : nm.testBit i <;> simp_all

/-! ## Looking a key up in a list of pairs -/

section Lookup

variable {K V : Type} [DecidableEq K] [Inhabited V]

theorem lookupEntry_of_not_mem {key : K} {l : List (K × V)} (h : key ∉ l.map Prod.fst) :
    lookupEntry key l = (default, false) := by
  induction l with
  | nil => rfl
  | cons a l ih =>
    obtain ⟨k, v⟩ := a
    simp only [List.map_cons, List.mem_cons, not_or] at h
    simp only [lookupEntry]
    rw [if_neg (fun e => h.1 e.symm), ih h.2]

theorem lookupEntry_append_right {key : K} {l₁ l₂ : List (K × V)} (h : key ∉ l₁.map Prod.fst) :
    lookupEntry key (l₁ ++ l₂) = lookupEntry key l₂ := by
  induction l₁ with
  | nil => rfl
  | cons a l ih =>
    obtain ⟨k, v⟩ := a
    simp only [List.map_cons, List.mem_cons, not_or] at h
    rw [List.cons_append, lookupEntry, if_neg (fun e => h.1 e.symm), ih h.2]

theorem lookupEntry_append_left {key : K} {l₁ l₂ : List (K × V)} (h : key ∈ l₁.map Prod.fst) :
    lookupEntry key (l₁ ++ l₂) = lookupEntry key l₁ := by
  induction l₁ with
  | nil => simp at h
  | cons a l ih =>
    obtain ⟨k, v⟩ := a
    rw [List.cons_append, lookupEntry, lookupEntry]
    by_cases e : k = key
    · simp [e]
    · rw [if_neg e, if_neg e]
      apply ih
      simp only [List.map_cons, List.mem_cons] at h
      rcases h with h | h
      · exact absurd h.symm e
      · exact h

theorem lookupEntry_cons_self (key : K) (v : V) (l : List (K × V)) :
    lookupEntry key ((key, v) :: l) = (v, true) := by
  simp [lookupEntry]

theorem lookupEntry_snd {key : K} {l : List (K × V)} :
    (lookupEntry key l).2 = true ↔ key ∈ l.map Prod.fst := by
  induction l with
  | nil => simp [lookupEntry]
  | cons a l ih =>
    obtain ⟨k, v⟩ := a
    simp only [lookupEntry, List.map_cons, List.mem_cons]
    by_cases e : k = key
    · simp [e]
    · rw [if_neg e, ih]
      constructor
      · exact Or.inr
      · rintro (h | h)
        · exact absurd h.symm e
        · exact h

/-- In a list without repeated keys, looking a key up finds the pair that holds it. -/
theorem lookupEntry_of_mem {key : K} {v : V} {l : List (K × V)} (hn : (l.map Prod.fst).Nodup)
    (h : (key, v) ∈ l) : lookupEntry key l = (v, true) := by
  induction l with
  | nil => simp at h
  | cons a l ih =>
    obtain ⟨k, w⟩ := a
    simp only [List.map_cons, List.nodup_cons] at hn
    simp only [lookupEntry]
    rcases List.mem_cons.1 h with e | e
    · have e1 : key = k := congrArg Prod.fst e
      have e2 : v = w := congrArg Prod.snd e
      simp [e1, e2]
    · have : k ≠ key := by
        intro ek
        apply hn.1
        rw [ek]
        exact List.mem_map_of_mem Prod.fst e
      rw [if_neg this]
      exact ih hn.2 e

theorem mem_of_lookupEntry {key : K} {v : V} {l : List (K × V)}
    (h : lookupEntry key l = (v, true)) : (key, v) ∈ l := by
  induction l with
  | nil => simp [lookupEntry] at h
  | cons a l ih =>
    obtain ⟨k, w⟩ := a
    simp only [lookupEntry] at h
    by_cases e : k = key
    · rw [if_pos e] at h
      have : w = v := congrArg Prod.fst h
      simp [e, this]
    · rw [if_neg e] at h
      exact List.mem_cons_of_mem _ (ih h)

/-- Two lists without repeated keys that hold the same pairs for a key give the same
result for that key. -/
theorem lookupEntry_congr {key : K} {l₁ l₂ : List (K × V)} (h1 : (l₁.map Prod.fst).Nodup)
    (h2 : (l₂.map Prod.fst).Nodup) (h : ∀ v, (key, v) ∈ l₁ ↔ (key, v) ∈ l₂) :
    lookupEntry key l₁ = lookupEntry key l₂ := by
  by_cases hk : key ∈ l₁.map Prod.fst
  · obtain ⟨⟨k, v⟩, hm, rfl⟩ := List.mem_map.1 hk
    rw [lookupEntry_of_mem h1 hm, lookupEntry_of_mem h2 ((h v).1 hm)]
  · have hk2 : key ∉ l₂.map Prod.fst := by
      intro hc
      obtain ⟨⟨k, v⟩, hm, rfl⟩ := List.mem_map.1 hc
      exact hk (List.mem_map_of_mem Prod.fst ((h v).2 hm))
    rw [lookupEntry_of_not_mem hk, lookupEntry_of_not_mem hk2]

end Lookup

/-! ## Reading a well-formed node -/

section GetSpec

variable {K V : Type}

theorem bit_eq (hash d : Nat) :
    1 <<< ((hash >>> (bitsPerLevel * d)) &&& bitMask) = 2 ^ slice hash d := by
  rw [Nat.one_shiftLeft]; rfl

theorem shift_succ (d : Nat) : bitsPerLevel * d + bitsPerLevel = bitsPerLevel * (d + 1) := by
  rw [Nat.mul_succ]

section
variable [DecidableEq K]

theorem findKey_some {keys : List K} {key : K} {i : Nat} (h : findKey keys key = some i) :
    ∃ KA KC, keys = KA ++ key :: KC ∧ KA.length = i ∧ key ∉ KA := by
  induction keys generalizing i with
  | nil => simp [findKey] at h
  | cons k ks ih =>
    simp only [findKey] at h
    by_cases e : k = key
    · rw [if_pos e] at h
      refine ⟨[], ks, by simp [e], ?_, by simp⟩
      simpa using h
    · rw [if_neg e] at h
      obtain ⟨j, hj, rfl⟩ := Option.map_eq_some'.1 h
      obtain ⟨KA, KC, rfl, hl, hn⟩ := ih hj
      refine ⟨k :: KA, KC, by simp, by simp [hl], ?_⟩
      simp only [List.mem_cons, not_or]
      exact ⟨fun e' => e e'.symm, hn⟩

theorem findKey_none {keys : List K} {key : K} (h : findKey keys key = none) : key ∉ keys := by
  induction keys with
  | nil => simp
  | cons k ks ih =>
    simp only [findKey] at h
    by_cases e : k = key
    · rw [if_pos e] at h; exact Option.noConfusion h
    · rw [if_neg e] at h
      simp only [List.mem_cons, not_or]
      exact ⟨fun e' => e e'.symm, ih (by simpa using h)⟩

theorem findKey_append_cons {KA KC : List K} {key : K} (h : key ∉ KA) :
    findKey (KA ++ key :: KC) key = some KA.length := by
  induction KA with
  | nil => simp [findKey]
  | cons a A ih =>
    simp only [List.mem_cons, not_or] at h
    have hne : ¬ a = key := fun e => h.1 e.symm
    simp [findKey, hne, ih h.2]

theorem findKey_of_not_mem {keys : List K} {key : K} (h : key ∉ keys) :
    findKey keys key = none := by
  induction keys with
  | nil => simp [findKey]
  | cons a A ih =>
    simp only [List.mem_cons, not_or] at h
    have hne : ¬ a = key := fun e => h.1 e.symm
    simp [findKey, hne, ih h.2]

end

theorem children_slices {hashFunc : K → Nat} {d : Nat} {S : List Nat} {nodes : List (Node K V)}
    (h : List.Forall₂ (ChildAt hashFunc d) S nodes) :
    ∀ kv ∈ Node.entriesOf nodes, slice (hashFunc kv.1) d ∈ S := by
  induction h with
  | nil => simp [Node.entriesOf]
  | cons hc _ ih =>
    intro kv hkv
    rw [entriesOf_cons, List.mem_append] at hkv
    rcases hkv with hkv | hkv
    · rw [hc.2 kv hkv]; exact List.mem_cons_self _ _
    · exact List.mem_cons_of_mem _ (ih kv hkv)

theorem not_mem_keys_of_slice {f : K → Nat} {keys : List K} {S : List Nat} {key : K}
    (h : keys.map f = S) (hs : f key ∉ S) : key ∉ keys := by
  intro hk
  apply hs
  rw [← h]
  exact List.mem_map_of_mem f hk

theorem not_mem_zip_of_slice {f : K → Nat} {keys : List K} {values : List V} {S : List Nat}
    {key : K} (h : keys.map f = S) (hs : f key ∉ S) :
    key ∉ (keys.zip values).map Prod.fst := by
  intro hk
  obtain ⟨kv, hm, rfl⟩ := List.mem_map.1 hk
  exact not_mem_keys_of_slice h hs (mem_zip_fst hm)

theorem not_mem_children_of_slice {hashFunc : K → Nat} {d : Nat} {S : List Nat}
    {nodes : List (Node K V)} {key : K}
    (h : List.Forall₂ (ChildAt hashFunc d) S nodes) (hs : slice (hashFunc key) d ∉ S) :
    key ∉ (Node.entriesOf nodes).map Prod.fst := by
  intro hk
  obtain ⟨kv, hm, rfl⟩ := List.mem_map.1 hk
  exact hs (children_slices h kv hm)

variable [DecidableEq K] [Inhabited V]

theorem getAt_append_cons (NA NC : List (Node K V)) (c : Node K V) (key : K) (hash shift : Nat) :
    Node.getAt (NA ++ c :: NC) NA.length key hash shift = c.get key hash shift := by
  induction NA with
  | nil => simp [Node.getAt]
  | cons a A ih => simpa [Node.getAt] using ih

theorem collisionNode_get {keys : List K} {values : List V} (hv : values.length = keys.length)
    (key : K) (hash shift : Nat) :
    (Node.collisionNode keys values).get key hash shift
      = some (lookupEntry key (keys.zip values)) := by
  rw [Node.get]
  cases hf : findKey keys key with
  | none =>
    have hn := findKey_none hf
    rw [lookupEntry_of_not_mem (fun hk => hn (by
      obtain ⟨kv, hm, rfl⟩ := List.mem_map.1 hk
      exact mem_zip_fst hm))]
  | some i =>
    obtain ⟨KA, KC, rfl, hl, hn⟩ := findKey_some hf
    obtain ⟨VA, v, VC, rfl, hla, -⟩ := split_of_length_cons hv
    subst hl
    dsimp only
    rw [← hla, getElem?_append_cons, zip_append_cons _ _ _ _ _ _ hla.symm]
    rw [lookupEntry_append_right (fun hk => hn (by
      obtain ⟨kv, hm, rfl⟩ := List.mem_map.1 hk
      exact mem_zip_fst hm)), lookupEntry_cons_self]

/-- Reading a key in a well-formed node gives the pair the node holds for the key. -/
theorem get_eq_lookup {hashFunc : K → Nat} {d : Nat} {n : Node K V} (h : WF hashFunc d n)
    (key : K) :
    n.get key (hashFunc key) (bitsPerLevel * d) = some (lookupEntry key n.entries) := by
  induction h with
  | @bitmapIndexedNode d nm dm nodes keys values hd hnm hdm hdisj hk hv hch hwf ih =>
    have hs := slice_lt (hashFunc key) d
    rw [Node.get, entries_bitmapIndexedNode]
    simp only [bit_eq, land_bit_ne_zero, shift_succ]
    generalize hsdef : slice (hashFunc key) d = s at *
    by_cases h1 : dm.testBit s = true
    · rw [if_pos h1, popcount_low _ _ hs]
      rw [slots_of_set hs h1] at hk
      obtain ⟨KA, k, KC, rfl, hKA, hks, hKC⟩ := map_eq_append_cons hk
      obtain ⟨VA, v, VC, rfl, hla, -⟩ := split_of_length_cons hv
      have hlen : (below dm s).length = KA.length := by rw [← hKA, List.length_map]
      have hnA : key ∉ (KA.zip VA).map Prod.fst :=
        not_mem_zip_of_slice hKA (by rw [hsdef]; exact not_mem_below dm s)
      rw [hlen, getElem?_append_cons, zip_append_cons _ _ _ _ _ _ hla.symm]
      by_cases e : k = key
      · subst e
        simp only [if_true]
        rw [← hla, getElem?_append_cons, List.append_assoc, lookupEntry_append_right hnA]
        simp [lookupEntry]
      · simp only [if_neg e]
        rw [lookupEntry_of_not_mem]
        rw [List.map_append, List.map_append, List.map_cons]
        simp only [List.mem_append, List.mem_cons, not_or]
        refine ⟨⟨hnA, fun e' => e e'.symm, ?_⟩, ?_⟩
        · exact not_mem_zip_of_slice hKC (by rw [hsdef]; exact not_mem_above dm s)
        · apply not_mem_children_of_slice hch
          rw [hsdef]
          intro hm
          exact disjoint_testBit hdisj s h1 (mem_slots.1 hm).2
    · rw [if_neg h1]
      have hnK : key ∉ (keys.zip values).map Prod.fst :=
        not_mem_zip_of_slice hk (by rw [hsdef]; exact fun hm => h1 (mem_slots.1 hm).2)
      rw [lookupEntry_append_right hnK]
      by_cases h2 : nm.testBit s = true
      · rw [if_pos h2, popcount_low _ _ hs]
        rw [slots_of_set hs h2] at hch
        obtain ⟨NA, c, NC, rfl, hNA, hc, hNC, hlen⟩ := forall₂_append_cons hch
        rw [← hlen, getAt_append_cons, ih c (by simp)]
        rw [entriesOf_append, entriesOf_cons]
        have hnA : key ∉ (Node.entriesOf NA).map Prod.fst :=
          not_mem_children_of_slice hNA (by rw [hsdef]; exact not_mem_below nm s)
        rw [lookupEntry_append_right hnA]
        by_cases hm : key ∈ c.entries.map Prod.fst
        · rw [lookupEntry_append_left hm]
        · rw [lookupEntry_append_right hm, lookupEntry_of_not_mem hm, lookupEntry_of_not_mem]
          exact not_mem_children_of_slice hNC (by rw [hsdef]; exact not_mem_above nm s)
      · rw [if_neg h2, lookupEntry_of_not_mem]
        exact not_mem_children_of_slice hch
          (by rw [hsdef]; exact fun hm => h2 (mem_slots.1 hm).2)
  | collisionNode hv _ _ =>
    rw [collisionNode_get hv, entries_collisionNode]

end GetSpec

/-! ## No key is stored twice -/

section Nodup

variable {K V : Type}

theorem children_nodup {hashFunc : K → Nat} {d : Nat} {S : List Nat} {nodes : List (Node K V)}
    (h : List.Forall₂ (ChildAt hashFunc d) S nodes) (hS : S.Nodup)
    (hn : ∀ c ∈ nodes, (c.entries.map Prod.fst).Nodup) :
    ((Node.entriesOf nodes).map Prod.fst).Nodup := by
  induction h with
  | nil => simp [Node.entriesOf]
  | @cons s c S' nodes' hc hrest ih =>
    rw [entriesOf_cons, List.map_append, List.nodup_append]
    rw [List.nodup_cons] at hS
    refine ⟨hn c (List.mem_cons_self _ _),
      ih hS.2 (fun c' hc' => hn c' (List.mem_cons_of_mem _ hc')), ?_⟩
    intro k hk1 hk2
    obtain ⟨kv1, hm1, rfl⟩ := List.mem_map.1 hk1
    obtain ⟨kv2, hm2, e⟩ := List.mem_map.1 hk2
    have h1 := hc.2 kv1 hm1
    have h2 := children_slices hrest kv2 hm2
    rw [e, h1] at h2
    exact hS.1 h2

/-- A well-formed node holds no key twice. -/
theorem nodup_keys {hashFunc : K → Nat} {d : Nat} {n : Node K V} (h : WF hashFunc d n) :
    (n.entries.map Prod.fst).Nodup := by
  induction h with
  | @bitmapIndexedNode d nm dm nodes keys values hd hnm hdm hdisj hk hv hch hwf ih =>
    rw [entries_bitmapIndexedNode, List.map_append, List.nodup_append, map_fst_zip_eq hv]
    refine ⟨List.Nodup.of_map _ (hk ▸ slots_nodup dm), children_nodup hch (slots_nodup nm) ih, ?_⟩
    intro k hk1 hk2
    obtain ⟨kv2, hm2, rfl⟩ := List.mem_map.1 hk2
    have h1 : slice (hashFunc kv2.1) d ∈ slots dm := by
      rw [← hk]; exact List.mem_map_of_mem _ hk1
    have h2 := children_slices hch kv2 hm2
    exact disjoint_testBit hdisj _ (mem_slots.1 h1).2 (mem_slots.1 h2).2
  | collisionNode hv _ hn =>
    rw [entries_collisionNode, map_fst_zip_eq hv]
    exact hn

end Nodup

/-! ## Bitmaps with one or two bits -/

theorem slots_sorted (m : Nat) : (slots m).Sorted (· < ·) :=
  (List.sorted_lt_range 32).filter _

theorem slots_eq_of_sorted {m : Nat} {L : List Nat} (hs : L.Sorted (· < ·))
    (hm : ∀ i, i ∈ L ↔ i < 32 ∧ m.testBit i = true) : slots m = L := by
  apply List.eq_of_perm_of_sorted _ (slots_sorted m) hs
  apply (List.perm_ext_iff_of_nodup (slots_nodup m) hs.nodup).2
  intro i
  rw [hm i, mem_slots]

theorem slots_zero : slots 0 = [] := by
  apply slots_eq_of_sorted List.sorted_nil
  intro i
  simp

theorem slots_two_pow {s : Nat} (hs : s < 32) : slots (2 ^ s) = [s] := by
  apply slots_eq_of_sorted (List.sorted_singleton s)
  intro i
  rw [Nat.testBit_two_pow]
  constructor
  · intro h
    have e : i = s := by simpa using h
    subst e
    exact ⟨hs, by simp⟩
  · rintro ⟨-, h⟩
    have e : s = i := by simpa using h
    simp [e]

theorem slots_two_bits {s t : Nat} (hs : s < 32) (ht : t < 32) (hlt : s < t) :
    slots (2 ^ s ||| 2 ^ t) = [s, t] := by
  apply slots_eq_of_sorted (by simp [hlt])
  intro i
  rw [Nat.testBit_or, Nat.testBit_two_pow, Nat.testBit_two_pow]
  constructor
  · intro h
    simp only [List.mem_cons, List.mem_singleton, List.not_mem_nil, or_false] at h
    rcases h with e | e
    · subst e; exact ⟨hs, by simp⟩
    · subst e; exact ⟨ht, by simp⟩
  · rintro ⟨-, h⟩
    simp only [Bool.or_eq_true, decide_eq_true_eq] at h
    rcases h with e | e
    · simp [e]
    · simp [e]

theorem two_pow_lt {s : Nat} (hs : s < 32) : 2 ^ s < 2 ^ 32 :=
  Nat.pow_lt_pow_right (by norm_num) hs

/-! ## `createSubNode` -/

section CreateSubNode

variable {K V : Type}

theorem createSubNodeFuel_spec (hashFunc : K → Nat) (key1 : K) (val1 : V) (key2 : K) (val2 : V)
    (hne : key1 ≠ key2) :
    ∀ (fuel d : Nat), d ≤ maxDepth → maxDepth - d < fuel →
      ∃ sub, createSubNodeFuel fuel key1 val1 (hashFunc key1) key2 val2 (hashFunc key2)
          (bitsPerLevel * d) = some sub
        ∧ WF hashFunc d sub ∧ sub.entries.Perm [(key1, val1), (key2, val2)] := by
  intro fuel
  induction fuel with
  | zero => intro d _ h; omega
  | succ fuel ih =>
    intro d hd hfuel
    rw [createSubNodeFuel]
    by_cases hge : bitsPerLevel * d ≥ maxDepth * bitsPerLevel
    · rw [if_pos hge]
      have hd' : d = maxDepth := by
        unfold bitsPerLevel maxDepth at *; omega
      subst hd'
      refine ⟨_, rfl, WF.collisionNode rfl (by simp) (by simp [hne]), ?_⟩
      rw [entries_collisionNode]; simp
    · rw [if_neg hge]
      have hd' : d < maxDepth := by
        unfold bitsPerLevel maxDepth at *; omega
      simp only [bit_eq, shift_succ]
      have hs1 := slice_lt (hashFunc key1) d
      have hs2 := slice_lt (hashFunc key2) d
      generalize e1 : slice (hashFunc key1) d = s1 at *
      generalize e2 : slice (hashFunc key2) d = s2 at *
      by_cases heq : (2:Nat) ^ s1 = 2 ^ s2
      · rw [if_pos heq]
        have hss : s1 = s2 := Nat.pow_right_injective (le_refl 2) heq
        obtain ⟨sub, hsub, hwf, hperm⟩ := ih (d + 1) (by omega) (by omega)
        rw [hsub]
        refine ⟨_, rfl, ?_, ?_⟩
        · refine WF.bitmapIndexedNode hd' (two_pow_lt hs1) (by norm_num) (by simp) ?_ rfl ?_ ?_
          · simp [slots_zero]
          · rw [slots_two_pow hs1]
            refine List.Forall₂.cons ⟨?_, ?_⟩ List.Forall₂.nil
            · rw [hperm.length_eq]; simp
            · intro kv hkv
              have := hperm.mem_iff.1 hkv
              simp only [List.mem_cons, List.mem_singleton, List.not_mem_nil, or_false] at this
              rcases this with e | e
              · rw [e]; exact e1
              · rw [e, hss]; exact e2
          · intro c hc
            simp only [List.mem_singleton] at hc
            rw [hc]; exact hwf
        · rw [entries_bitmapIndexedNode, entriesOf_cons, entriesOf_nil]
          simpa using hperm
      · rw [if_neg heq]
        have hss : s1 ≠ s2 := fun e => heq (by rw [e])
        by_cases hlt : (2:Nat) ^ s1 < 2 ^ s2
        · rw [if_pos hlt]
          have hlt' : s1 < s2 := (Nat.pow_lt_pow_iff_right (by norm_num)).1 hlt
          refine ⟨_, rfl, ?_, ?_⟩
          · refine WF.bitmapIndexedNode hd' (by norm_num)
              (Nat.or_lt_two_pow (two_pow_lt hs1) (two_pow_lt hs2)) (by simp) ?_ rfl ?_ ?_
            · rw [slots_two_bits hs1 hs2 hlt']; simp [e1, e2]
            · rw [slots_zero]; exact List.Forall₂.nil
            · intro c hc; simp at hc
          · rw [entries_bitmapIndexedNode, entriesOf_nil]; simp
        · rw [if_neg hlt]
          have hlt' : s2 < s1 := by
            have := (Nat.pow_lt_pow_iff_right (a := 2) (n := s1) (m := s2) (by norm_num))
            omega
          refine ⟨_, rfl, ?_, ?_⟩
          · refine WF.bitmapIndexedNode hd' (by norm_num)
              (Nat.or_lt_two_pow (two_pow_lt hs1) (two_pow_lt hs2)) (by simp) ?_ rfl ?_ ?_
            · rw [Nat.lor_comm, slots_two_bits hs2 hs1 hlt']; simp [e1, e2]
            · rw [slots_zero]; exact List.Forall₂.nil
            · intro c hc; simp at hc
          · rw [entries_bitmapIndexedNode, entriesOf_nil]
            simpa using List.Perm.swap _ _ _

/-- The node that `createSubNode` builds for two distinct keys is well formed and holds
exactly the two pairs; the nested calls never exceed the bound. -/
theorem createSubNode_spec (hashFunc : K → Nat) (key1 : K) (val1 : V) (key2 : K) (val2 : V)
    (hne : key1 ≠ key2) (d : Nat) (hd : d ≤ maxDepth) :
    ∃ sub, createSubNode key1 val1 (hashFunc key1) key2 val2 (hashFunc key2)
        (bitsPerLevel * d) = some sub
      ∧ WF hashFunc d sub ∧ sub.entries.Perm [(key1, val1), (key2, val2)] :=
  createSubNodeFuel_spec hashFunc key1 val1 key2 val2 hne (maxDepth + 1) d hd (by omega)

end CreateSubNode

/-! ## Writing into a well-formed node -/

section SetSpec

variable {K V : Type}

theorem andNot_lt {m b : Nat} (h : m < 2 ^ 32) : andNot m b < 2 ^ 32 :=
  lt_of_le_of_lt Nat.and_le_left h

theorem testBit_of_lt {m i : Nat} (h : m < 2 ^ 32) (ht : m.testBit i = true) : i < 32 := by
  by_contra hc
  have : m.testBit i = false :=
    Nat.testBit_lt_two_pow (lt_of_lt_of_le h (Nat.pow_le_pow_right (by norm_num) (by omega)))
  rw [this] at ht
  exact Bool.noConfusion ht

/-- Moving the slot `s` from one bitmap to the other keeps the bitmaps disjoint. -/
theorem disjoint_move {a b s : Nat} (ha : a < 2 ^ 32) (h : a &&& b = 0) :
    andNot a (2 ^ s) &&& (b ||| 2 ^ s) = 0 := by
  apply land_eq_zero_of_testBit
  rintro i ⟨h1, h2⟩
  have hi : i < 32 := testBit_of_lt (andNot_lt ha) h1
  rw [testBit_andNot_bit _ _ _ hi] at h1
  rw [testBit_lor_bit] at h2
  simp only [Bool.and_eq_true, Bool.not_eq_true', decide_eq_false_iff_not] at h1
  simp only [Bool.or_eq_true, decide_eq_true_eq] at h2
  rcases h2 with h2 | h2
  · exact disjoint_testBit h i h1.1 h2
  · exact h1.2 h2

theorem disjoint_move' {a b s : Nat} (hb : b < 2 ^ 32) (h : a &&& b = 0) :
    (a ||| 2 ^ s) &&& andNot b (2 ^ s) = 0 := by
  rw [Nat.land_comm]
  rw [Nat.land_comm] at h
  exact disjoint_move hb h

theorem disjoint_lor_left {a b s : Nat} (h : a &&& b = 0) (hb : b.testBit s = false) :
    (a ||| 2 ^ s) &&& b = 0 := by
  apply land_eq_zero_of_testBit
  rintro i ⟨h1, h2⟩
  rw [testBit_lor_bit] at h1
  simp only [Bool.or_eq_true, decide_eq_true_eq] at h1
  rcases h1 with h1 | h1
  · exact disjoint_testBit h i h1 h2
  · subst h1; rw [hb] at h2; exact Bool.noConfusion h2

theorem disjoint_andNot_left {a b s : Nat} (ha : a < 2 ^ 32) (h : a &&& b = 0) :
    andNot a (2 ^ s) &&& b = 0 := by
  apply land_eq_zero_of_testBit
  rintro i ⟨h1, h2⟩
  have hi : i < 32 := testBit_of_lt (andNot_lt ha) h1
  rw [testBit_andNot_bit _ _ _ hi] at h1
  simp only [Bool.and_eq_true] at h1
  exact disjoint_testBit h i h1.1 h2

theorem disjoint_andNot_right {a b s : Nat} (hb : b < 2 ^ 32) (h : a &&& b = 0) :
    a &&& andNot b (2 ^ s) = 0 := by
  rw [Nat.land_comm]
  rw [Nat.land_comm] at h
  exact disjoint_andNot_left hb h

theorem lor_bit_lt {m s : Nat} (h : m < 2 ^ 32) (hs : s < 32) : m ||| 2 ^ s < 2 ^ 32 :=
  Nat.or_lt_two_pow h (two_pow_lt hs)

theorem not_mem_entries_of_slice {hashFunc : K → Nat} {d dm nm : Nat}
    {nodes : List (Node K V)} {keys : List K} {values : List V} {key : K}
    (hk : keys.map (fun k => slice (hashFunc k) d) = slots dm)
    (hch : List.Forall₂ (ChildAt hashFunc d) (slots nm) nodes)
    (h1 : dm.testBit (slice (hashFunc key) d) = false)
    (h2 : nm.testBit (slice (hashFunc key) d) = false) :
    key ∉ (keys.zip values ++ Node.entriesOf nodes).map Prod.fst := by
  rw [List.map_append, List.mem_append, not_or]
  constructor
  · apply not_mem_zip_of_slice hk
    intro hm; rw [(mem_slots.1 hm).2] at h1; exact Bool.noConfusion h1
  · apply not_mem_children_of_slice hch
    intro hm; rw [(mem_slots.1 hm).2] at h2; exact Bool.noConfusion h2

variable [DecidableEq K]

theorem setAt_append_cons (hashFunc : K → Nat) (NA NC : List (Node K V)) (c : Node K V)
    (key : K) (value : V) (hash shift : Nat) :
    Node.setAt hashFunc (NA ++ c :: NC) NA.length key value hash shift
      = c.set hashFunc key value hash shift := by
  induction NA with
  | nil => simp [Node.setAt]
  | cons a A ih => simpa [Node.setAt] using ih

/-- The effect of `set` on a well-formed node: the result is well formed; it holds the
new pair in addition to the pairs of the node when the key was absent (`added`), and in
place of the pair of the key otherwise. -/
theorem set_spec {hashFunc : K → Nat} {d : Nat} {n : Node K V} (h : WF hashFunc d n)
    (key : K) (value : V) :
    ∃ n' added, n.set hashFunc key value (hashFunc key) (bitsPerLevel * d) = some (n', added)
      ∧ WF hashFunc d n'
      ∧ ((added = true ∧ key ∉ n.entries.map Prod.fst
            ∧ n'.entries.Perm ((key, value) :: n.entries))
          ∨ (added = false ∧ ∃ vOld R, n.entries.Perm ((key, vOld) :: R)
            ∧ n'.entries.Perm ((key, value) :: R))) := by
  induction h with
  | @bitmapIndexedNode d nm dm nodes keys values hd hnm hdm hdisj hk hv hch hwf ih =>
    have hs := slice_lt (hashFunc key) d
    rw [Node.set]
    simp only [bit_eq, land_bit_ne_zero, shift_succ, entries_bitmapIndexedNode]
    generalize hsdef : slice (hashFunc key) d = s at *
    by_cases h1 : dm.testBit s = true
    · -- the slot holds an inline entry
      have h2 : nm.testBit s = false := by
        cases h2 : nm.testBit s
        · rfl
        · exact (disjoint_testBit hdisj s h1 h2).elim
      rw [if_pos h1, popcount_low _ _ hs, popcount_low _ _ hs]
      have hk0 := hk
      rw [slots_of_set hs h1] at hk
      obtain ⟨KA, k, KC, rfl, hKA, hks, hKC⟩ := map_eq_append_cons hk
      obtain ⟨VA, v, VC, rfl, hla, hlc⟩ := split_of_length_cons hv
      have hlen : (below dm s).length = KA.length := by rw [← hKA, List.length_map]
      rw [hlen, getElem?_append_cons, zip_append_cons _ _ _ _ _ _ hla.symm]
      dsimp only
      by_cases e : k = key
      · subst e
        rw [if_pos rfl, if_pos (by simp; omega)]
        refine ⟨_, false, rfl, ?_, Or.inr ⟨rfl, v, KA.zip VA ++ KC.zip VC ++ Node.entriesOf nodes,
          ?_, ?_⟩⟩
        · refine WF.bitmapIndexedNode hd hnm hdm hdisj hk0 ?_ hch hwf
          simp at hv ⊢; omega
        · apply Multiset.coe_eq_coe.1
          simp only [← Multiset.coe_add, ← Multiset.cons_coe, ← Multiset.singleton_add]
          abel
        · rw [entries_bitmapIndexedNode, ← hla, set_append_cons,
            zip_append_cons _ _ _ _ _ _ hla.symm]
          apply Multiset.coe_eq_coe.1
          simp only [← Multiset.coe_add, ← Multiset.cons_coe, ← Multiset.singleton_add]
          abel
      · rw [if_neg e, ← hla, getElem?_append_cons]
        dsimp only
        obtain ⟨sub, hsub, hsubwf, hsubperm⟩ :=
          createSubNode_spec hashFunc k v key value e (d + 1) (by omega)
        rw [hsub]
        dsimp only
        rw [slots_of_unset hs h2] at hch
        obtain ⟨NA, NC, rfl, hNA, hNC, hnl⟩ := forall₂_append_split hch
        rw [← hnl, insertAt_append, hla, removeAt_append, ← hla, removeAt_append]
        dsimp only
        refine ⟨_, true, rfl, ?_, Or.inl ⟨rfl, ?_, ?_⟩⟩
        · refine WF.bitmapIndexedNode hd (lor_bit_lt hnm hs) (andNot_lt hdm)
            (disjoint_move hdm hdisj) ?_ ?_ ?_ ?_
          · rw [slots_andNot hs, List.map_append, hKA, hKC]
          · simp; omega
          · rw [slots_lor hs]
            refine forall₂_join hNA ⟨?_, ?_⟩ hNC
            · rw [hsubperm.length_eq]; simp
            · intro kv hkv
              have := hsubperm.mem_iff.1 hkv
              simp only [List.mem_cons, List.mem_singleton, List.not_mem_nil, or_false] at this
              rcases this with e' | e'
              · rw [e']; exact hks
              · rw [e']; exact hsdef
          · intro c hc
            rw [List.mem_append, List.mem_cons] at hc
            rcases hc with hc | hc | hc
            · exact hwf c (by simp [hc])
            · rw [hc]; exact hsubwf
            · exact hwf c (by simp [hc])
        · rw [List.map_append, List.map_append, List.map_cons]
          simp only [List.mem_append, List.mem_cons, not_or]
          refine ⟨⟨?_, fun e' => e e'.symm, ?_⟩, ?_⟩
          · exact not_mem_zip_of_slice hKA (by rw [hsdef]; exact not_mem_below dm s)
          · exact not_mem_zip_of_slice hKC (by rw [hsdef]; exact not_mem_above dm s)
          · rw [entriesOf_append, List.map_append, List.mem_append, not_or]
            exact ⟨not_mem_children_of_slice hNA (by rw [hsdef]; exact not_mem_below nm s),
              not_mem_children_of_slice hNC (by rw [hsdef]; exact not_mem_above nm s)⟩
        · rw [entries_bitmapIndexedNode, zip_append_append _ _ _ _ hla.symm,
            entriesOf_append, entriesOf_append, entriesOf_cons]
          have h' := Multiset.coe_eq_coe.2 hsubperm
          apply Multiset.coe_eq_coe.1
          simp only [← Multiset.coe_add, ← Multiset.cons_coe, ← Multiset.singleton_add] at h' ⊢
          rw [h']
          abel
    · have h1' : dm.testBit s = false := by simpa using h1
      rw [if_neg h1]
      by_cases h2 : nm.testBit s = true
      · -- the slot holds a child
        rw [if_pos h2, popcount_low _ _ hs]
        have hch0 := hch
        rw [slots_of_set hs h2] at hch
        obtain ⟨NA, c, NC, rfl, hNA, hc, hNC, hnl⟩ := forall₂_append_cons hch
        rw [← hnl, setAt_append_cons]
        obtain ⟨c', added, hset, hcwf, hrel⟩ := ih c (by simp)
        rw [hset]
        dsimp only
        rw [set_append_cons]
        have hnZ : key ∉ (keys.zip values).map Prod.fst :=
          not_mem_zip_of_slice hk (by
            rw [hsdef]; intro hm; rw [(mem_slots.1 hm).2] at h1'; exact Bool.noConfusion h1')
        have hnA : key ∉ (Node.entriesOf NA).map Prod.fst :=
          not_mem_children_of_slice hNA (by rw [hsdef]; exact not_mem_below nm s)
        have hnC : key ∉ (Node.entriesOf NC).map Prod.fst :=
          not_mem_children_of_slice hNC (by rw [hsdef]; exact not_mem_above nm s)
        have hc' : ChildAt hashFunc d s c' := by
          rcases hrel with ⟨-, -, hp⟩ | ⟨-, vOld, R, hp1, hp2⟩
          · refine ⟨?_, ?_⟩
            · rw [hp.length_eq]; have := hc.1; simp; omega
            · intro kv hkv
              rcases List.mem_cons.1 (hp.mem_iff.1 hkv) with e | e
              · rw [e]; exact hsdef
              · exact hc.2 kv e
          · refine ⟨?_, ?_⟩
            · have := hc.1
              rw [hp1.length_eq] at this
              rw [hp2.length_eq]
              simpa using this
            · intro kv hkv
              rcases List.mem_cons.1 (hp2.mem_iff.1 hkv) with e | e
              · rw [e]; exact hsdef
              · exact hc.2 kv (hp1.mem_iff.2 (List.mem_cons_of_mem _ e))
        refine ⟨_, added, rfl, ?_, ?_⟩
        · refine WF.bitmapIndexedNode hd hnm hdm hdisj hk hv ?_ ?_
          · rw [slots_of_set hs h2]
            exact forall₂_join hNA hc' hNC
          · intro x hx
            rw [List.mem_append, List.mem_cons] at hx
            rcases hx with hx | hx | hx
            · exact hwf x (by simp [hx])
            · rw [hx]; exact hcwf
            · exact hwf x (by simp [hx])
        · rw [entries_bitmapIndexedNode, entriesOf_append, entriesOf_append, entriesOf_cons,
            entriesOf_cons]
          rcases hrel with ⟨ha, hn, hp⟩ | ⟨ha, vOld, R, hp1, hp2⟩
          · refine Or.inl ⟨ha, ?_, ?_⟩
            · simp only [List.map_append, List.mem_append, not_or]
              exact ⟨hnZ, hnA, hn, hnC⟩
            · have h' := Multiset.coe_eq_coe.2 hp
              apply Multiset.coe_eq_coe.1
              simp only [← Multiset.coe_add, ← Multiset.cons_coe,
                ← Multiset.singleton_add] at h' ⊢
              rw [h']
              abel
          · refine Or.inr ⟨ha, vOld,
              keys.zip values ++ (Node.entriesOf NA ++ (R ++ Node.entriesOf NC)), ?_, ?_⟩
            · have h' := Multiset.coe_eq_coe.2 hp1
              apply Multiset.coe_eq_coe.1
              simp only [← Multiset.coe_add, ← Multiset.cons_coe,
                ← Multiset.singleton_add] at h' ⊢
              rw [h']
              abel
            · have h' := Multiset.coe_eq_coe.2 hp2
              apply Multiset.coe_eq_coe.1
              simp only [← Multiset.coe_add, ← Multiset.cons_coe,
                ← Multiset.singleton_add] at h' ⊢
              rw [h']
              abel
      · -- the slot is unused
        have h2' : nm.testBit s = false := by simpa using h2
        rw [if_neg h2, popcount_low _ _ hs]
        have hk0 := hk
        rw [slots_of_unset hs h1'] at hk
        obtain ⟨KA, KC, rfl, hKA, hKC⟩ := map_eq_append_split hk
        obtain ⟨VA, VC, rfl, hla, hlc⟩ := split_of_length hv
        have hlen : (below dm s).length = KA.length := by rw [← hKA, List.length_map]
        rw [hlen, insertAt_append, ← hla, insertAt_append]
        dsimp only
        refine ⟨_, true, rfl, ?_, Or.inl ⟨rfl, ?_, ?_⟩⟩
        · refine WF.bitmapIndexedNode hd hnm (lor_bit_lt hdm hs)
            (disjoint_lor_left hdisj h2') ?_ ?_ hch hwf
          · rw [slots_lor hs, List.map_append, List.map_cons, hKA, hKC, hsdef]
          · simp; omega
        · exact not_mem_entries_of_slice hk0 hch (by rw [hsdef]; exact h1')
            (by rw [hsdef]; exact h2')
        · rw [entries_bitmapIndexedNode, zip_append_cons _ _ _ _ _ _ hla.symm,
            zip_append_append _ _ _ _ hla.symm]
          apply Multiset.coe_eq_coe.1
          simp only [← Multiset.coe_add, ← Multiset.cons_coe, ← Multiset.singleton_add]
          abel
  | @collisionNode keys values hv h2 hn =>
    rw [Node.set, entries_collisionNode]
    cases hf : findKey keys key with
    | some i =>
      obtain ⟨KA, KC, rfl, hl, hnA⟩ := findKey_some hf
      obtain ⟨VA, v, VC, rfl, hla, hlc⟩ := split_of_length_cons hv
      subst hl
      dsimp only
      rw [if_pos (by simp; omega), ← hla, set_append_cons]
      refine ⟨_, false, rfl, WF.collisionNode (by simp at hv ⊢; omega) h2 hn,
        Or.inr ⟨rfl, v, KA.zip VA ++ KC.zip VC, ?_, ?_⟩⟩
      · rw [zip_append_cons _ _ _ _ _ _ hla.symm]
        exact List.perm_middle
      · rw [entries_collisionNode, zip_append_cons _ _ _ _ _ _ hla.symm]
        exact List.perm_middle
    | none =>
      have hnk := findKey_none hf
      dsimp only
      refine ⟨_, true, rfl, WF.collisionNode (by simp; omega) (by simp; omega) ?_,
        Or.inl ⟨rfl, ?_, ?_⟩⟩
      · rw [List.nodup_append]
        refine ⟨hn, List.nodup_singleton _, ?_⟩
        intro x hx hx'
        rw [List.mem_singleton] at hx'
        exact hnk (hx' ▸ hx)
      · rw [map_fst_zip_eq hv]; exact hnk
      · rw [entries_collisionNode, List.zip_append hv.symm]
        simp
end SetSpec

/-! ## Deleting from a well-formed node -/

section DelSpec

variable {K V : Type}

/-- A well-formed node with a single pair has no children and one inline entry. -/
theorem wf_one_entry {hashFunc : K → Nat} {d : Nat} {m : Node K V} (h : WF hashFunc d m)
    (h1 : m.entries.length = 1) :
    ∃ dm k v, m = .bitmapIndexedNode 0 dm [] [k] [v] := by
  cases h with
  | @bitmapIndexedNode _ nm dm nodes keys values hd hnm hdm hdisj hk hv hch hwf =>
    rw [entries_bitmapIndexedNode, List.length_append] at h1
    have hnodes : nodes = [] := by
      cases nodes with
      | nil => rfl
      | cons c rest =>
        obtain ⟨s, S, hc, -, -⟩ := List.forall₂_cons_right_iff.1 hch
        have := hc.1
        rw [entriesOf_cons, List.length_append] at h1
        omega
    subst hnodes
    have hnm0 : nm = 0 := slots_eq_nil hnm (List.forall₂_nil_right_iff.1 hch)
    subst hnm0
    rw [entriesOf_nil, List.length_zip, hv] at h1
    simp only [List.length_nil, Nat.add_zero, Nat.min_self] at h1
    obtain ⟨k, rfl⟩ := List.length_eq_one.1 h1
    obtain ⟨v, rfl⟩ := List.length_eq_one.1 (hv.trans h1)
    exact ⟨dm, k, v, rfl⟩
  | collisionNode hv h2 hn =>
    rw [entries_collisionNode, List.length_zip, hv] at h1
    simp only [Nat.min_self] at h1
    omega

theorem entries_ne_nil_of_child {hashFunc : K → Nat} {d : Nat} {S : List Nat}
    {nodes : List (Node K V)} (h : List.Forall₂ (ChildAt hashFunc d) S nodes)
    (hn : nodes ≠ []) : Node.entriesOf nodes ≠ [] := by
  cases h with
  | nil => exact (hn rfl).elim
  | cons hc _ =>
    rw [entriesOf_cons]
    intro e
    have := hc.1
    rw [List.append_eq_nil] at e
    rw [e.1] at this
    simp at this

variable [DecidableEq K]

theorem delAt_append_cons (NA NC : List (Node K V)) (c : Node K V)
    (key : K) (hash shift : Nat) :
    Node.delAt (NA ++ c :: NC) NA.length key hash shift = c.del key hash shift := by
  induction NA with
  | nil => simp [Node.delAt]
  | cons a A ih => simpa [Node.delAt] using ih

/-- The effect of `del` on a well-formed node. When the key is absent the node comes back
unchanged. Otherwise the result holds the other pairs; it is `nil` when there are none,
and else a well-formed node, or the one-pair node that a collision node turns into. -/
theorem del_spec {hashFunc : K → Nat} {d : Nat} {n : Node K V} (h : WF hashFunc d n)
    (key : K) :
    ∃ res, n.del key (hashFunc key) (bitsPerLevel * d) = some res
      ∧ ((key ∉ n.entries.map Prod.fst ∧ res = (some n, false))
        ∨ (res.2 = true ∧ ∃ v, n.entries.Perm ((key, v) :: entriesOpt res.1)
            ∧ ∀ m, res.1 = some m → m.entries ≠ []
              ∧ (WF hashFunc d m ∨ (d = maxDepth ∧ IsSingleton m)))) := by
  induction h with
  | @bitmapIndexedNode d nm dm nodes keys values hd hnm hdm hdisj hk hv hch hwf ih =>
    have hs := slice_lt (hashFunc key) d
    rw [Node.del]
    simp only [bit_eq, land_bit_ne_zero, shift_succ, entries_bitmapIndexedNode]
    generalize hsdef : slice (hashFunc key) d = s at *
    by_cases h1 : dm.testBit s = true
    · -- the slot holds an inline entry
      have h2 : nm.testBit s = false := by
        cases h2 : nm.testBit s
        · rfl
        · exact (disjoint_testBit hdisj s h1 h2).elim
      rw [if_pos h1, popcount_low _ _ hs]
      have hk0 := hk
      have hv0 := hv
      rw [slots_of_set hs h1] at hk
      obtain ⟨KA, k, KC, rfl, hKA, hks, hKC⟩ := map_eq_append_cons hk
      obtain ⟨VA, v, VC, rfl, hla, hlc⟩ := split_of_length_cons hv
      have hlen : (below dm s).length = KA.length := by rw [← hKA, List.length_map]
      rw [hlen, getElem?_append_cons]
      dsimp only
      by_cases e : k = key
      · subst e
        rw [if_neg (by simp)]
        by_cases hone : (KA ++ k :: KC).length = 1 ∧ nodes.length = 0
        · rw [if_pos hone]
          have hKA0 : KA = [] := by
            have := hone.1; simp at this; exact List.length_eq_zero.1 (by omega)
          have hKC0 : KC = [] := by
            have := hone.1; simp at this; exact List.length_eq_zero.1 (by omega)
          have hN0 : nodes = [] := List.length_eq_zero.1 hone.2
          subst hKA0 hKC0 hN0
          have hVA0 : VA = [] := List.length_eq_zero.1 (by simpa using hla)
          have hVC0 : VC = [] := List.length_eq_zero.1 (by simpa using hlc)
          subst hVA0 hVC0
          refine ⟨_, rfl, Or.inr ⟨rfl, v, ?_, ?_⟩⟩
          · simp [entriesOpt, Node.entriesOf]
          · intro m hm; exact Option.noConfusion hm
        · rw [if_neg hone, removeAt_append, ← hla, removeAt_append]
          dsimp only
          refine ⟨_, rfl, Or.inr ⟨rfl, v, ?_, ?_⟩⟩
          · rw [entriesOpt, entries_bitmapIndexedNode, zip_append_cons _ _ _ _ _ _ hla.symm,
              zip_append_append _ _ _ _ hla.symm]
            apply Multiset.coe_eq_coe.1
            simp only [← Multiset.coe_add, ← Multiset.cons_coe, ← Multiset.singleton_add]
            abel
          · intro m hm
            cases hm
            refine ⟨?_, Or.inl ?_⟩
            · rw [entries_bitmapIndexedNode]
              intro hnil
              rw [List.append_eq_nil] at hnil
              apply hone
              have hnodes : nodes = [] := by
                by_contra hne
                exact entries_ne_nil_of_child hch hne hnil.2
              have hz := congrArg List.length hnil.1
              rw [List.length_zip] at hz
              simp only [List.length_append, List.length_nil] at hz
              refine ⟨?_, by rw [hnodes]; rfl⟩
              simp only [List.length_append, List.length_cons]
              omega
            · refine WF.bitmapIndexedNode hd hnm (andNot_lt hdm)
                (disjoint_andNot_left hdm hdisj) ?_ ?_ hch hwf
              · rw [slots_andNot hs, List.map_append, hKA, hKC]
              · simp; omega
      · rw [if_pos e]
        refine ⟨_, rfl, Or.inl ⟨?_, rfl⟩⟩
        rw [zip_append_cons _ _ _ _ _ _ hla.symm, List.map_append, List.map_append,
          List.map_cons]
        simp only [List.mem_append, List.mem_cons, not_or]
        refine ⟨⟨?_, fun e' => e e'.symm, ?_⟩, ?_⟩
        · exact not_mem_zip_of_slice hKA (by rw [hsdef]; exact not_mem_below dm s)
        · exact not_mem_zip_of_slice hKC (by rw [hsdef]; exact not_mem_above dm s)
        · apply not_mem_children_of_slice hch
          rw [hsdef]
          intro hm
          exact disjoint_testBit hdisj s h1 (mem_slots.1 hm).2
    · have h1' : dm.testBit s = false := by simpa using h1
      rw [if_neg h1]
      by_cases h2 : nm.testBit s = true
      · -- the slot holds a child
        rw [if_pos h2, popcount_low _ _ hs, popcount_low _ _ hs]
        have hch0 := hch
        rw [slots_of_set hs h2] at hch
        obtain ⟨NA, c, NC, rfl, hNA, hc, hNC, hnl⟩ := forall₂_append_cons hch
        rw [← hnl, delAt_append_cons]
        obtain ⟨res, hdel, hrel⟩ := ih c (by simp)
        rw [hdel]
        have hnZ : key ∉ (keys.zip values).map Prod.fst :=
          not_mem_zip_of_slice hk (by
            rw [hsdef]; intro hm; rw [(mem_slots.1 hm).2] at h1'; exact Bool.noConfusion h1')
        have hnA : key ∉ (Node.entriesOf NA).map Prod.fst :=
          not_mem_children_of_slice hNA (by rw [hsdef]; exact not_mem_below nm s)
        have hnC : key ∉ (Node.entriesOf NC).map Prod.fst :=
          not_mem_children_of_slice hNC (by rw [hsdef]; exact not_mem_above nm s)
        rcases hrel with ⟨hn, rfl⟩ | ⟨htrue, v, hperm, hshape⟩
        · dsimp only
          refine ⟨_, rfl, Or.inl ⟨?_, rfl⟩⟩
          rw [entriesOf_append, entriesOf_cons]
          simp only [List.map_append, List.mem_append, not_or]
          exact ⟨hnZ, hnA, hn, hnC⟩
        · obtain ⟨r1, r2⟩ := res
          dsimp only at htrue hperm hshape
          subst htrue
          cases r1 with
          | none =>
            exfalso
            have := hc.1
            rw [hperm.length_eq] at this
            simp [entriesOpt] at this
          | some m =>
            obtain ⟨hmne, hmshape⟩ := hshape m rfl
            rw [entriesOpt] at hperm
            have hk0 := hk
            rw [slots_of_unset hs h1'] at hk
            obtain ⟨KA, KC, rfl, hKA, hKC⟩ := map_eq_append_split hk
            obtain ⟨VA, VC, rfl, hla, hlc⟩ := split_of_length hv
            have hlen : (below dm s).length = KA.length := by rw [← hKA, List.length_map]
            have hmsub : ∀ kv ∈ m.entries, slice (hashFunc kv.1) d = s := fun kv hkv =>
              hc.2 kv (hperm.mem_iff.2 (List.mem_cons_of_mem _ hkv))
            have hrebuild : 2 ≤ m.entries.length → WF hashFunc (d + 1) m →
                ∃ res, some (some (Node.bitmapIndexedNode nm dm ((NA ++ c :: NC).set NA.length m)
                    (KA ++ KC) (VA ++ VC)), true) = some res
                  ∧ ((key ∉ ((KA ++ KC).zip (VA ++ VC)
                        ++ Node.entriesOf (NA ++ c :: NC)).map Prod.fst
                      ∧ res = (some (Node.bitmapIndexedNode nm dm (NA ++ c :: NC)
                          (KA ++ KC) (VA ++ VC)), false))
                    ∨ (res.2 = true ∧ ∃ v, ((KA ++ KC).zip (VA ++ VC)
                          ++ Node.entriesOf (NA ++ c :: NC)).Perm ((key, v) :: entriesOpt res.1)
                        ∧ ∀ m', res.1 = some m' → m'.entries ≠ []
                          ∧ (WF hashFunc d m' ∨ (d = maxDepth ∧ IsSingleton m')))) := by
              intro hm2 hmwf
              rw [set_append_cons]
              refine ⟨_, rfl, Or.inr ⟨rfl, v, ?_, ?_⟩⟩
              · rw [entriesOpt, entries_bitmapIndexedNode, entriesOf_append, entriesOf_append,
                  entriesOf_cons, entriesOf_cons]
                have h' := Multiset.coe_eq_coe.2 hperm
                apply Multiset.coe_eq_coe.1
                simp only [← Multiset.coe_add, ← Multiset.cons_coe,
                  ← Multiset.singleton_add] at h' ⊢
                rw [h']
                abel
              · intro m' hm'
                cases hm'
                refine ⟨?_, Or.inl ?_⟩
                · rw [entries_bitmapIndexedNode, entriesOf_append, entriesOf_cons]
                  intro hnil
                  simp only [List.append_eq_nil] at hnil
                  exact hmne hnil.2.2.1
                · refine WF.bitmapIndexedNode hd hnm hdm hdisj hk0 hv ?_ ?_
                  · rw [slots_of_set hs h2]
                    exact forall₂_join hNA ⟨hm2, hmsub⟩ hNC
                  · intro x hx
                    rw [List.mem_append, List.mem_cons] at hx
                    rcases hx with hx | hx | hx
                    · exact hwf x (by simp [hx])
                    · rw [hx]; exact hmwf
                    · exact hwf x (by simp [hx])
            have hcollapse : ∀ mDm k' v', m = Node.bitmapIndexedNode 0 mDm [] [k'] [v'] →
                ∃ res, (match insertAt (KA ++ KC) KA.length k',
                      insertAt (VA ++ VC) KA.length v' with
                    | some newKeys, some newValues =>
                      some (some (Node.bitmapIndexedNode (andNot nm (2 ^ s)) (dm ||| 2 ^ s)
                        (NA ++ NC) newKeys newValues), true)
                    | _, _ => none) = some res
                  ∧ ((key ∉ ((KA ++ KC).zip (VA ++ VC)
                        ++ Node.entriesOf (NA ++ c :: NC)).map Prod.fst
                      ∧ res = (some (Node.bitmapIndexedNode nm dm (NA ++ c :: NC)
                          (KA ++ KC) (VA ++ VC)), false))
                    ∨ (res.2 = true ∧ ∃ v, ((KA ++ KC).zip (VA ++ VC)
                          ++ Node.entriesOf (NA ++ c :: NC)).Perm ((key, v) :: entriesOpt res.1)
                        ∧ ∀ m', res.1 = some m' → m'.entries ≠ []
                          ∧ (WF hashFunc d m' ∨ (d = maxDepth ∧ IsSingleton m')))) := by
              intro mDm k' v' hm
              subst hm
              rw [insertAt_append, ← hla, insertAt_append]
              dsimp only
              rw [entries_bitmapIndexedNode, entriesOf_nil] at hperm hmsub
              simp only [List.zip_cons_cons, List.zip_nil_right, List.append_nil] at hperm hmsub
              refine ⟨_, rfl, Or.inr ⟨rfl, v, ?_, ?_⟩⟩
              · rw [entriesOpt, entries_bitmapIndexedNode, entriesOf_append, entriesOf_append,
                  entriesOf_cons, zip_append_cons _ _ _ _ _ _ hla.symm,
                  zip_append_append _ _ _ _ hla.symm]
                have h' := Multiset.coe_eq_coe.2 hperm
                apply Multiset.coe_eq_coe.1
                simp only [← Multiset.coe_add, ← Multiset.cons_coe,
                  ← Multiset.singleton_add] at h' ⊢
                rw [h']
                abel
              · intro m' hm'
                cases hm'
                refine ⟨?_, Or.inl ?_⟩
                · rw [entries_bitmapIndexedNode, zip_append_cons _ _ _ _ _ _ hla.symm]
                  simp
                · refine WF.bitmapIndexedNode hd (andNot_lt hnm) (lor_bit_lt hdm hs)
                    (disjoint_move' hnm hdisj) ?_ ?_ ?_ ?_
                  · rw [slots_lor hs, List.map_append, List.map_cons, hKA, hKC]
                    rw [hmsub (k', v') (by simp)]
                  · simp; omega
                  · rw [slots_andNot hs]
                    exact List.rel_append hNA hNC
                  · intro x hx
                    rw [List.mem_append] at hx
                    rcases hx with hx | hx
                    · exact hwf x (by simp [hx])
                    · exact hwf x (by simp [hx])
            cases m with
            | bitmapIndexedNode mNm mDm mNodes mKeys mValues =>
              dsimp only
              by_cases hchk : mNm = 0 ∧ mKeys.length = 1
              · rw [if_pos hchk]
                obtain ⟨rfl, hk1⟩ := hchk
                have hform : ∃ k' v', mNodes = [] ∧ mKeys = [k'] ∧ mValues = [v'] := by
                  rcases hmshape with hmwf | ⟨-, k', v', hsing⟩
                  · cases hmwf with
                    | bitmapIndexedNode _ _ _ _ _ hv' hch' _ =>
                      rw [slots_zero] at hch'
                      obtain ⟨k', rfl⟩ := List.length_eq_one.1 hk1
                      obtain ⟨v', rfl⟩ := List.length_eq_one.1 (hv'.trans hk1)
                      exact ⟨k', v', List.forall₂_nil_left_iff.1 hch', rfl, rfl⟩
                  · cases hsing
                    exact ⟨k', v', rfl, rfl, rfl⟩
                obtain ⟨k', v', rfl, rfl, rfl⟩ := hform
                rw [removeAt_append]
                simp only [List.getElem?_cons_zero]
                rw [hlen]
                exact hcollapse mDm k' v' rfl
              · rw [if_neg hchk]
                rcases hmshape with hmwf | ⟨-, k', v', hsing⟩
                · apply hrebuild _ hmwf
                  by_contra hlt
                  have h1e : (Node.bitmapIndexedNode mNm mDm mNodes mKeys mValues).entries.length
                      = 1 := by
                    have : (Node.bitmapIndexedNode mNm mDm mNodes mKeys mValues).entries.length
                        ≠ 0 := fun e0 => hmne (List.length_eq_zero.1 e0)
                    omega
                  obtain ⟨dm', k', v', hm⟩ := wf_one_entry hmwf h1e
                  cases hm
                  exact hchk ⟨rfl, rfl⟩
                · cases hsing
                  exact (hchk ⟨rfl, rfl⟩).elim
            | collisionNode mKeys mValues =>
              dsimp only
              rcases hmshape with hmwf | ⟨-, k', v', hsing⟩
              · apply hrebuild _ hmwf
                cases hmwf with
                | collisionNode hv' h2' _ =>
                  rw [entries_collisionNode, List.length_zip, hv']
                  simpa using h2'
              · cases hsing
      · -- the slot is unused
        have h2' : nm.testBit s = false := by simpa using h2
        rw [if_neg h2]
        refine ⟨_, rfl, Or.inl ⟨?_, rfl⟩⟩
        exact not_mem_entries_of_slice hk hch (by rw [hsdef]; exact h1')
          (by rw [hsdef]; exact h2')
  | @collisionNode keys values hv h2 hn =>
    rw [Node.del, entries_collisionNode]
    cases hf : findKey keys key with
    | none =>
      dsimp only
      refine ⟨_, rfl, Or.inl ⟨?_, rfl⟩⟩
      rw [map_fst_zip_eq hv]
      exact findKey_none hf
    | some i =>
      obtain ⟨KA, KC, rfl, hl, hnA⟩ := findKey_some hf
      obtain ⟨VA, v, VC, rfl, hla, hlc⟩ := split_of_length_cons hv
      subst hl
      dsimp only
      by_cases htwo : (KA ++ key :: KC).length = 2
      · rw [if_pos htwo]
        have hlen2 : KA.length + KC.length = 1 := by
          simp only [List.length_append, List.length_cons] at htwo; omega
        have hother : ∃ k' v', (KA ++ key :: KC)[1 - KA.length]? = some k'
            ∧ (VA ++ v :: VC)[1 - KA.length]? = some v'
            ∧ ((KA ++ key :: KC).zip (VA ++ v :: VC)).Perm [(key, v), (k', v')] := by
          cases KA with
          | nil =>
            have hKC : KC.length = 1 := by simpa using hlen2
            obtain ⟨k', rfl⟩ := List.length_eq_one.1 hKC
            have hVA : VA = [] := List.length_eq_zero.1 (by simpa using hla)
            subst hVA
            obtain ⟨v', rfl⟩ := List.length_eq_one.1 (hlc.trans hKC)
            exact ⟨k', v', by simp, by simp, by simp⟩
          | cons a A =>
            have hA : A = [] := List.length_eq_zero.1 (by simp at hlen2; omega)
            have hKC : KC = [] := List.length_eq_zero.1 (by simp at hlen2; omega)
            subst hA hKC
            have hVC : VC = [] := List.length_eq_zero.1 (by simpa using hlc)
            subst hVC
            obtain ⟨v', rfl⟩ := List.length_eq_one.1 hla
            exact ⟨a, v', by simp, by simp, by simpa using List.Perm.swap _ _ _⟩
        obtain ⟨k', v', e1, e2, hperm⟩ := hother
        rw [e1, e2]
        dsimp only
        refine ⟨_, rfl, Or.inr ⟨rfl, v, ?_, ?_⟩⟩
        · simpa [entriesOpt, Node.entries, Node.entriesOf] using hperm
        · intro m hm
          cases hm
          exact ⟨by simp [Node.entries], Or.inr ⟨rfl, k', v', rfl⟩⟩
      · rw [if_neg htwo, removeAt_append, ← hla, removeAt_append]
        dsimp only
        refine ⟨_, rfl, Or.inr ⟨rfl, v, ?_, ?_⟩⟩
        · rw [entriesOpt, entries_collisionNode, zip_append_cons _ _ _ _ _ _ hla.symm,
            zip_append_append _ _ _ _ hla.symm]
          exact List.perm_middle
        · intro m hm
          cases hm
          have hlen3 : 2 ≤ (KA ++ KC).length := by
            simp only [List.length_append, List.length_cons] at htwo h2 ⊢; omega
          refine ⟨?_, Or.inl (WF.collisionNode (by simp; omega) hlen3 ?_)⟩
          · rw [entries_collisionNode]
            intro hnil
            have hz := congrArg List.length hnil
            rw [List.length_zip] at hz
            simp only [List.length_append, List.length_nil] at hz hlen3
            omega
          · exact hn.sublist (List.Sublist.append_left (List.sublist_cons_self _ _) _)

end DelSpec

/-! ## Lists of pairs that differ by one pair -/

section PermLookup

variable {K V : Type} [DecidableEq K] [Inhabited V]

/-- Taking the pair of `k` out of a list without repeated keys. -/
theorem lookup_perm_cons {k : K} {v : V} {L R : List (K × V)} (hn : (L.map Prod.fst).Nodup)
    (hp : L.Perm ((k, v) :: R)) :
    lookupEntry k L = (v, true) ∧ k ∉ R.map Prod.fst ∧ (R.map Prod.fst).Nodup
      ∧ ∀ k', k' ≠ k → lookupEntry k' L = lookupEntry k' R := by
  have hn' : (((k, v) :: R).map Prod.fst).Nodup := (hp.map Prod.fst).nodup_iff.1 hn
  rw [List.map_cons, List.nodup_cons] at hn'
  refine ⟨lookupEntry_of_mem hn (hp.mem_iff.2 (List.mem_cons_self _ _)), hn'.1, hn'.2, ?_⟩
  intro k' hk'
  apply lookupEntry_congr hn hn'.2
  intro w
  rw [hp.mem_iff, List.mem_cons]
  constructor
  · rintro (e | e)
    · exact absurd (congrArg Prod.fst e) hk'
    · exact e
  · exact Or.inr

theorem nodup_of_perm_cons {k : K} {v : V} {L R : List (K × V)} (hR : (R.map Prod.fst).Nodup)
    (hk : k ∉ R.map Prod.fst) (hp : L.Perm ((k, v) :: R)) : (L.map Prod.fst).Nodup := by
  apply (hp.map Prod.fst).nodup_iff.2
  rw [List.map_cons, List.nodup_cons]
  exact ⟨hk, hR⟩

end PermLookup

/-! ## The invariant of reachable maps -/

section MapInvariant

variable {V : Type} [Inhabited V]

theorem maxDepth_pos : 0 < maxDepth := by unfold maxDepth; omega

theorem mapOK_new : MapOK (New : Map V) := by
  simp [MapOK, New]

theorem MapOK.get {m : Map V} (h : MapOK m) (k : Key) :
    m.Get k = some (lookupEntry k (entriesOpt m.root)) := by
  unfold MapOK at h
  unfold Map.Get
  cases hr : m.root with
  | none => simp [entriesOpt, lookupEntry]
  | some root =>
    rw [hr] at h
    have := get_eq_lookup h.1 k
    rw [Nat.mul_zero] at this
    simpa [entriesOpt] using this

theorem MapOK.all {m : Map V} (h : MapOK m) : m.All = some (entriesOpt m.root) := by
  unfold MapOK at h
  unfold Map.All
  cases hr : m.root with
  | none => simp [entriesOpt]
  | some root =>
    rw [hr] at h
    simpa [entriesOpt] using all_eq_entries h.1

theorem MapOK.size_eq {m : Map V} (h : MapOK m) : m.size = (entriesOpt m.root).length := by
  unfold MapOK at h
  cases hr : m.root with
  | none => rw [hr] at h; simpa [entriesOpt] using h
  | some root => rw [hr] at h; simpa [entriesOpt] using h.2.2

theorem MapOK.nodup {m : Map V} (h : MapOK m) :
    ((entriesOpt m.root).map Prod.fst).Nodup := by
  unfold MapOK at h
  cases hr : m.root with
  | none => simp [entriesOpt]
  | some root => rw [hr] at h; simpa [entriesOpt] using nodup_keys h.1

/-- The effect of `Set` on a map that satisfies the invariant. -/
theorem MapOK.set_effect {m : Map V} (h : MapOK m) (k : Key) (v : V) :
    ∃ m', m.Set k v = some m' ∧ MapOK m'
      ∧ ((k ∉ (entriesOpt m.root).map Prod.fst
            ∧ (entriesOpt m'.root).Perm ((k, v) :: entriesOpt m.root)
            ∧ m'.size = m.size + 1)
          ∨ (∃ vOld R, (entriesOpt m.root).Perm ((k, vOld) :: R)
            ∧ (entriesOpt m'.root).Perm ((k, v) :: R) ∧ m'.size = m.size)) := by
  unfold MapOK at h
  unfold Map.Set
  cases hr : m.root with
  | none =>
    rw [hr] at h
    dsimp only
    have hs := slice_lt (hashKey k) 0
    have hb : 1 <<< (hashKey k &&& bitMask) = 2 ^ slice (hashKey k) 0 := by
      rw [Nat.one_shiftLeft]; simp [slice]
    rw [hb]
    refine ⟨_, rfl, ?_, Or.inl ⟨by simp [entriesOpt], ?_, ?_⟩⟩
    · unfold MapOK
      dsimp only
      refine ⟨WF.bitmapIndexedNode maxDepth_pos (by norm_num) (two_pow_lt hs) (by simp) ?_ rfl
        ?_ ?_, ?_, ?_⟩
      · rw [slots_two_pow hs]; simp
      · rw [slots_zero]; exact List.Forall₂.nil
      · intro c hc; simp at hc
      · simp [Node.entries]
      · simp [Node.entries, Node.entriesOf]
    · simp [entriesOpt, Node.entries, Node.entriesOf]
    · simp [h]
  | some root =>
    rw [hr] at h
    dsimp only
    obtain ⟨hwf, hne, hsize⟩ := h
    obtain ⟨n', added, hset, hwf', hrel⟩ := Champ.set_spec hwf k v
    rw [Nat.mul_zero] at hset
    rw [hset]
    dsimp only
    refine ⟨_, rfl, ?_, ?_⟩
    · unfold MapOK
      dsimp only
      refine ⟨hwf', ?_, ?_⟩
      · rcases hrel with ⟨-, -, hp⟩ | ⟨-, vOld, R, -, hp⟩
        · intro e; rw [e] at hp; simpa using hp.length_eq
        · intro e; rw [e] at hp; simpa using hp.length_eq
      · rcases hrel with ⟨ha, -, hp⟩ | ⟨ha, vOld, R, hp1, hp2⟩
        · rw [ha, hp.length_eq, hsize]; simp
        · rw [ha, hp2.length_eq, hsize, hp1.length_eq]; simp
    · simp only [entriesOpt]
      rcases hrel with ⟨ha, hn, hp⟩ | ⟨ha, vOld, R, hp1, hp2⟩
      · exact Or.inl ⟨hn, hp, by rw [ha]; simp⟩
      · exact Or.inr ⟨vOld, R, hp1, hp2, by rw [ha]; simp⟩

/-- The effect of `Delete` on a map that satisfies the invariant. -/
theorem MapOK.delete_effect {m : Map V} (h : MapOK m) (k : Key) :
    ∃ m', m.Delete k = some m' ∧ MapOK m'
      ∧ ((k ∉ (entriesOpt m.root).map Prod.fst ∧ m' = m)
          ∨ (∃ v, (entriesOpt m.root).Perm ((k, v) :: entriesOpt m'.root)
            ∧ m'.size = m.size - 1)) := by
  have h0 := h
  unfold MapOK at h
  unfold Map.Delete
  cases hr : m.root with
  | none =>
    dsimp only
    exact ⟨m, rfl, h0, Or.inl ⟨by simp [entriesOpt], rfl⟩⟩
  | some root =>
    rw [hr] at h
    dsimp only
    obtain ⟨hwf, hne, hsize⟩ := h
    obtain ⟨res, hdel, hrel⟩ := Champ.del_spec hwf k
    rw [Nat.mul_zero] at hdel
    rw [hdel]
    dsimp only
    rcases hrel with ⟨hn, rfl⟩ | ⟨htrue, v, hperm, hshape⟩
    · dsimp only
      exact ⟨m, rfl, h0, Or.inl ⟨by simpa [entriesOpt] using hn, rfl⟩⟩
    · obtain ⟨r1, r2⟩ := res
      dsimp only at htrue hperm hshape
      subst htrue
      cases r1 with
      | none =>
        dsimp only
        refine ⟨_, rfl, mapOK_new, Or.inr ⟨v, ?_, ?_⟩⟩
        · simpa [entriesOpt, New] using hperm
        · have := hperm.length_eq
          simp only [entriesOpt, List.length_cons, List.length_nil] at this
          rw [hsize, this]; simp [New]
      | some newRoot =>
        dsimp only
        obtain ⟨hne', hshape'⟩ := hshape newRoot rfl
        have hwf' : WF hashKey 0 newRoot := by
          rcases hshape' with hw | ⟨e, -⟩
          · exact hw
          · have := maxDepth_pos; omega
        refine ⟨_, rfl, ?_, Or.inr ⟨v, ?_, rfl⟩⟩
        · unfold MapOK
          dsimp only
          refine ⟨hwf', hne', ?_⟩
          have := hperm.length_eq
          simp only [entriesOpt, List.length_cons] at this
          rw [hsize, this]; simp
        · simpa [entriesOpt] using hperm

/-- Every reachable map satisfies the invariant. -/
theorem reachable_ok {m : Map V} (h : Reachable m) : MapOK m := by
  induction h with
  | new => exact mapOK_new
  | set key value _ hset ih =>
    obtain ⟨m', hm', hok, -⟩ := ih.set_effect key value
    rw [hset] at hm'
    cases hm'
    exact hok
  | delete key _ hdel ih =>
    obtain ⟨m', hm', hok, -⟩ := ih.delete_effect key
    rw [hdel] at hm'
    cases hm'
    exact hok

end MapInvariant

/-! ## The sample maps are reachable -/

theorem hash_liquid_costarring : hashKey keyLiquid = hashKey keyCostarring := by decide

theorem liquid_ne_costarring : keyLiquid ≠ keyCostarring := by decide

theorem mapL_eq : (New : Map Nat).Set keyLiquid 1 = some mapL := by rfl

theorem mapC_eq : (New : Map Nat).Set keyCostarring 2 = some mapC := by rfl

theorem mapLC_eq : mapL.Set keyCostarring 2 = some mapLC := by rfl

theorem mapCL_eq : mapC.Set keyLiquid 1 = some mapCL := by rfl

theorem reachable_mapL : Reachable mapL := Reachable.set keyLiquid 1 Reachable.new mapL_eq

theorem reachable_mapC : Reachable mapC := Reachable.set keyCostarring 2 Reachable.new mapC_eq

theorem reachable_mapLC : Reachable mapLC := Reachable.set keyCostarring 2 reachable_mapL mapLC_eq

theorem reachable_mapCL : Reachable mapCL := Reachable.set keyLiquid 1 reachable_mapC mapCL_eq

/-! ## Reading after writing and after deleting -/

section MapReadWrite

variable {V : Type} [Inhabited V]

/-- After `Set` the key has the new value and every other key reads as before; the size
grows by one exactly when the key was not found. -/
theorem MapOK.set_get {m : Map V} (h : MapOK m) (k : Key) (v : V) :
    ∃ m', m.Set k v = some m' ∧ MapOK m' ∧ m'.Get k = some (v, true)
      ∧ (∀ k', k' ≠ k → m'.Get k' = m.Get k')
      ∧ ∃ r, m.Get k = some r ∧ m'.size = if r.2 = true then m.size else m.size + 1 := by
  obtain ⟨m', hset, hok, hrel⟩ := h.set_effect k v
  refine ⟨m', hset, hok, ?_⟩
  rw [hok.get k, h.get k]
  rcases hrel with ⟨hn, hp, hsz⟩ | ⟨vOld, R, hp1, hp2, hsz⟩
  · obtain ⟨e1, -, -, e4⟩ := lookup_perm_cons hok.nodup hp
    refine ⟨by rw [e1], ?_, _, rfl, ?_⟩
    · intro k' hk'
      rw [hok.get k', h.get k', e4 k' hk']
    · rw [lookupEntry_of_not_mem hn, hsz]; simp
  · obtain ⟨e1, -, -, e4⟩ := lookup_perm_cons hok.nodup hp2
    obtain ⟨f1, -, -, f4⟩ := lookup_perm_cons h.nodup hp1
    refine ⟨by rw [e1], ?_, _, rfl, ?_⟩
    · intro k' hk'
      rw [hok.get k', h.get k', e4 k' hk', f4 k' hk']
    · rw [f1, hsz]; simp

/-- After `Delete` the key is not found and every other key reads as before; the size
drops by one exactly when the key was found, and a key that was not found leaves the map
as it is. -/
theorem MapOK.delete_get {m : Map V} (h : MapOK m) (k : Key) :
    ∃ m', m.Delete k = some m' ∧ MapOK m' ∧ m'.Get k = some (default, false)
      ∧ (∀ k', k' ≠ k → m'.Get k' = m.Get k')
      ∧ ∃ r, m.Get k = some r ∧ (r.2 = false → m' = m)
        ∧ m'.size = if r.2 = true then m.size - 1 else m.size := by
  obtain ⟨m', hdel, hok, hrel⟩ := h.delete_effect k
  refine ⟨m', hdel, hok, ?_⟩
  rw [hok.get k, h.get k]
  rcases hrel with ⟨hn, rfl⟩ | ⟨v, hp, hsz⟩
  · refine ⟨by rw [lookupEntry_of_not_mem hn], fun k' _ => rfl, _, rfl, fun _ => rfl, ?_⟩
    rw [lookupEntry_of_not_mem hn]; simp
  · obtain ⟨e1, e2, -, e4⟩ := lookup_perm_cons h.nodup hp
    refine ⟨by rw [lookupEntry_of_not_mem e2], ?_, _, rfl, ?_, ?_⟩
    · intro k' hk'
      rw [hok.get k', h.get k', e4 k' hk']
    · rw [e1]; intro hc; exact Bool.noConfusion hc
    · rw [e1, hsz]; simp

theorem MapOK.size_nonneg {m : Map V} (h : MapOK m) : 0 ≤ m.size := by
  rw [h.size_eq]; exact Int.natCast_nonneg _

end MapReadWrite

/-! ## `equalNode` on well-formed nodes -/

section EqualSpec

variable {K V : Type} [DecidableEq K]

theorem equalEntries_total (valueEq : V → V → Bool) : ∀ (keys1 : List K) (values1 : List V)
    (keys2 : List K) (values2 : List V), values1.length = keys1.length →
    keys2.length = keys1.length → values2.length = keys1.length →
    ∃ b, equalEntries valueEq keys1 values1 keys2 values2 = some b
      ∧ (b = true ↔ keys1 = keys2
          ∧ List.Forall₂ (fun a b => valueEq a b = true) values1 values2)
  | [], [], [], [], _, _, _ => ⟨true, by simp [equalEntries]⟩
  | [], _ :: _, _, _, h, _, _ => by simp at h
  | [], [], _ :: _, _, _, h, _ => by simp at h
  | [], [], [], _ :: _, _, _, h => by simp at h
  | _ :: _, [], _, _, h, _, _ => by simp at h
  | _ :: _, _ :: _, [], _, _, h, _ => by simp at h
  | _ :: _, _ :: _, _ :: _, [], _, _, h => by simp at h
  | k1 :: ks1, v1 :: vs1, k2 :: ks2, v2 :: vs2, h1, h2, h3 => by
    rw [equalEntries]
    by_cases ek : k1 = k2
    · cases ev : valueEq v1 v2 with
      | true =>
        obtain ⟨b, hb, hiff⟩ := equalEntries_total valueEq ks1 vs1 ks2 vs2 (by simpa using h1)
          (by simpa using h2) (by simpa using h3)
        refine ⟨b, by simp [ek, ev, hb], ?_⟩
        rw [hiff]
        simp [ek, ev]
      | false => exact ⟨false, by simp [ek, ev], by simp [ev]⟩
    · exact ⟨false, by simp [ek], by simp [ek]⟩

theorem forall₂_valueEq_iff {valueEq : V → V → Bool}
    (hlaw : ∀ a b, valueEq a b = true ↔ a = b) (l1 l2 : List V) :
    List.Forall₂ (fun a b => valueEq a b = true) l1 l2 ↔ l1 = l2 := by
  have e : (fun a b => valueEq a b = true) = (fun a b : V => a = b) := by
    funext a b
    exact propext (hlaw a b)
  rw [e, List.forall₂_eq_eq_eq]

theorem forall₂_samePair_refl (valueEq : V → V → Bool) (l : List (K × V)) :
    List.Forall₂ (samePair valueEq) l l :=
  List.forall₂_same.2 (fun _ _ => ⟨rfl, Or.inl rfl⟩)

theorem forall₂_samePair_zip (valueEq : V → V → Bool) (keys : List K) :
    ∀ (values1 values2 : List V),
      List.Forall₂ (fun a b => valueEq a b = true) values1 values2 →
      List.Forall₂ (samePair valueEq) (keys.zip values1) (keys.zip values2) := by
  induction keys with
  | nil => intro _ _ _; simp
  | cons k ks ih =>
    intro values1 values2 h
    cases h with
    | nil => simp
    | cons hv hrest =>
      rw [List.zip_cons_cons, List.zip_cons_cons]
      exact List.Forall₂.cons ⟨rfl, Or.inr hv⟩ (ih _ _ hrest)

theorem lookup_samePair [Inhabited V] {valueEq : V → V → Bool} (k : K) {l1 l2 : List (K × V)}
    (h : List.Forall₂ (samePair valueEq) l1 l2) :
    (lookupEntry k l1).2 = (lookupEntry k l2).2
      ∧ sameValue valueEq (lookupEntry k l1).1 (lookupEntry k l2).1 := by
  induction h with
  | nil => exact ⟨rfl, Or.inl rfl⟩
  | @cons e1 e2 r1 r2 he _ ih =>
    obtain ⟨k1, v1⟩ := e1
    obtain ⟨k2, v2⟩ := e2
    obtain ⟨hk, hv⟩ := he
    dsimp only at hk hv
    subst hk
    rw [lookupEntry, lookupEntry]
    by_cases e : k1 = k
    · rw [if_pos e, if_pos e]
      exact ⟨rfl, hv⟩
    · rw [if_neg e, if_neg e]
      exact ih

variable (sameNode : List Nat → Node K V → Node K V → Bool) (valueEq : V → V → Bool)

theorem equalAll_total {nodes1 nodes2 : List (Node K V)} (hlen : nodes2.length = nodes1.length)
    (h : ∀ c ∈ nodes1, ∀ path, ∀ c' ∈ nodes2,
      ∃ b, Node.equal sameNode valueEq path c c' = some b ∧ (b = true ↔ c = c')) :
    ∀ path i, ∃ b, Node.equalAll sameNode valueEq path i nodes1 nodes2 = some b
      ∧ (b = true ↔ nodes1 = nodes2) := by
  induction nodes1 generalizing nodes2 with
  | nil =>
    intro path i
    have : nodes2 = [] := List.length_eq_zero.1 (by simpa using hlen)
    subst this
    exact ⟨true, by simp [Node.equalAll]⟩
  | cons a A ih =>
    intro path i
    cases nodes2 with
    | nil => simp at hlen
    | cons b B =>
      obtain ⟨r, hr, hiff⟩ := h a (List.mem_cons_self _ _) (path ++ [i]) b
        (List.mem_cons_self _ _)
      obtain ⟨r', hr', hiff'⟩ := @ih B (by simpa using hlen)
        (fun c hc p c' hc' => h c (List.mem_cons_of_mem _ hc) p c' (List.mem_cons_of_mem _ hc'))
        path (i + 1)
      rw [Node.equalAll, hr]
      cases r with
      | false =>
        refine ⟨false, rfl, ?_⟩
        have : ¬ a = b := fun e => by simpa using hiff.2 e
        simp [this]
      | true =>
        have e : a = b := hiff.1 rfl
        refine ⟨r', hr', ?_⟩
        rw [hiff']
        simp [e]

theorem equalAll_rel {nodes1 nodes2 : List (Node K V)} (hlen : nodes2.length = nodes1.length)
    (h : ∀ c ∈ nodes1, ∀ path, ∀ c' ∈ nodes2,
      ∃ b, Node.equal sameNode valueEq path c c' = some b
        ∧ (b = true → List.Forall₂ (samePair valueEq) c.entries c'.entries)) :
    ∀ path i, ∃ b, Node.equalAll sameNode valueEq path i nodes1 nodes2 = some b
      ∧ (b = true → List.Forall₂ (samePair valueEq) (Node.entriesOf nodes1)
          (Node.entriesOf nodes2)) := by
  induction nodes1 generalizing nodes2 with
  | nil =>
    intro path i
    have : nodes2 = [] := List.length_eq_zero.1 (by simpa using hlen)
    subst this
    exact ⟨true, by simp [Node.equalAll], fun _ => by rw [entriesOf_nil]; exact List.Forall₂.nil⟩
  | cons a A ih =>
    intro path i
    cases nodes2 with
    | nil => simp at hlen
    | cons b B =>
      obtain ⟨r, hr, himp⟩ := h a (List.mem_cons_self _ _) (path ++ [i]) b
        (List.mem_cons_self _ _)
      obtain ⟨r', hr', himp'⟩ := @ih B (by simpa using hlen)
        (fun c hc p c' hc' => h c (List.mem_cons_of_mem _ hc) p c' (List.mem_cons_of_mem _ hc'))
        path (i + 1)
      rw [Node.equalAll, hr]
      cases r with
      | false => exact ⟨false, rfl, fun e => Bool.noConfusion e⟩
      | true =>
        refine ⟨r', hr', ?_⟩
        intro e
        rw [entriesOf_cons, entriesOf_cons]
        exact List.rel_append (himp rfl) (himp' e)

theorem equalAll_self {nodes : List (Node K V)}
    (h : ∀ c ∈ nodes, ∀ path, Node.equal sameNode valueEq path c c = some true) :
    ∀ path i, Node.equalAll sameNode valueEq path i nodes nodes = some true := by
  induction nodes with
  | nil => intro path i; simp [Node.equalAll]
  | cons a A ih =>
    intro path i
    rw [Node.equalAll, h a (List.mem_cons_self _ _)]
    exact ih (fun c hc p => h c (List.mem_cons_of_mem _ hc) p) path (i + 1)

/-- On two well-formed nodes of the same depth `equalNode` does not fail; when `==` on the
values holds exactly of a value and itself, it answers `true` exactly when the nodes have
the same fields throughout. -/
theorem equal_iff_eq (hs : SoundSame sameNode) (hlaw : ∀ a b, valueEq a b = true ↔ a = b)
    {hashFunc : K → Nat} {d : Nat} {n1 : Node K V} (h1 : WF hashFunc d n1) :
    ∀ path n2, WF hashFunc d n2 →
      ∃ b, Node.equal sameNode valueEq path n1 n2 = some b ∧ (b = true ↔ n1 = n2) := by
  induction h1 with
  | @bitmapIndexedNode d nm1 dm1 nodes1 keys1 values1 hd hnm hdm hdisj hk hv hch hwf ih =>
    intro path n2 h2
    cases h2 with
    | @bitmapIndexedNode _ nm2 dm2 nodes2 keys2 values2 hd' hnm' hdm' hdisj' hk' hv' hch' hwf' =>
      rw [Node.equal]
      by_cases hsame : sameNode path (.bitmapIndexedNode nm1 dm1 nodes1 keys1 values1)
          (.bitmapIndexedNode nm2 dm2 nodes2 keys2 values2) = true
      · rw [if_pos hsame]
        exact ⟨true, rfl, fun _ => hs _ _ _ hsame, fun _ => rfl⟩
      rw [if_neg hsame]
      by_cases hmaps : dm1 ≠ dm2 ∨ nm1 ≠ nm2
      · rw [if_pos hmaps]
        refine ⟨false, rfl, ?_⟩
        constructor
        · intro e; exact Bool.noConfusion e
        · intro e
          injection e with e1 e2
          rcases hmaps with hm | hm
          · exact (hm e2).elim
          · exact (hm e1).elim
      · rw [if_neg hmaps]
        have hdm12 : dm1 = dm2 := by
          by_contra hc; exact hmaps (Or.inl hc)
        have hnm12 : nm1 = nm2 := by
          by_contra hc; exact hmaps (Or.inr hc)
        subst hdm12 hnm12
        have hklen : keys2.length = keys1.length := by
          have e1 := congrArg List.length hk
          have e2 := congrArg List.length hk'
          rw [List.length_map] at e1 e2
          omega
        have hnlen : nodes2.length = nodes1.length := by
          rw [← hch.length_eq, ← hch'.length_eq]
        obtain ⟨b, hb, hiff⟩ := equalEntries_total valueEq keys1 values1 keys2 values2 hv hklen
          (hv'.trans hklen)
        rw [forall₂_valueEq_iff hlaw] at hiff
        rw [hb]
        cases b with
        | false =>
          refine ⟨false, rfl, ?_⟩
          constructor
          · intro e; exact Bool.noConfusion e
          · intro e
            injection e with _ _ _ e4 e5
            have := hiff.2 ⟨e4, e5⟩
            exact this
        | true =>
          obtain ⟨ek, ev⟩ := hiff.1 rfl
          subst ek ev
          obtain ⟨b', hb', hiff'⟩ := equalAll_total sameNode valueEq hnlen
            (fun c hc p c' hc' => ih c hc p c' (hwf' c' hc')) path 0
          refine ⟨b', hb', ?_⟩
          rw [hiff']
          constructor
          · intro e; rw [e]
          · intro e; injection e
    | collisionNode hv' h2' hn' =>
      exfalso
      unfold maxDepth at hd; omega
  | @collisionNode keys1 values1 hv h2 hn =>
    intro path n2 h2'
    cases h2' with
    | bitmapIndexedNode hd' _ _ _ _ _ _ _ =>
      exfalso
      unfold maxDepth at hd'; omega
    | @collisionNode keys2 values2 hv' h2'' hn' =>
      rw [Node.equal]
      by_cases hsame : sameNode path (.collisionNode keys1 values1)
          (.collisionNode keys2 values2) = true
      · rw [if_pos hsame]
        exact ⟨true, rfl, fun _ => hs _ _ _ hsame, fun _ => rfl⟩
      rw [if_neg hsame]
      by_cases hlen : keys1.length ≠ keys2.length
      · rw [if_pos hlen]
        refine ⟨false, rfl, ?_⟩
        constructor
        · intro e; exact Bool.noConfusion e
        · intro e
          injection e with e1 e2
          exact (hlen (by rw [e1])).elim
      · rw [if_neg hlen]
        have hlen' : keys2.length = keys1.length := by
          by_contra hc; exact hlen (fun e => hc e.symm)
        obtain ⟨b, hb, hiff⟩ := equalEntries_total valueEq keys1 values1 keys2 values2 hv hlen'
          (hv'.trans hlen')
        rw [forall₂_valueEq_iff hlaw] at hiff
        refine ⟨b, hb, ?_⟩
        rw [hiff]
        constructor
        · rintro ⟨e1, e2⟩; rw [e1, e2]
        · intro e; injection e with e1 e2; exact ⟨e1, e2⟩

/-- On two well-formed nodes of the same depth `equalNode` does not fail, whatever `==` on
the values is; when it answers `true` the two nodes hold, in the order of the traversal,
pairs with the same keys and with values that are one value or that `==` reports equal. -/
theorem equal_rel (hs : SoundSame sameNode) {hashFunc : K → Nat} {d : Nat} {n1 : Node K V}
    (h1 : WF hashFunc d n1) :
    ∀ path n2, WF hashFunc d n2 →
      ∃ b, Node.equal sameNode valueEq path n1 n2 = some b
        ∧ (b = true → List.Forall₂ (samePair valueEq) n1.entries n2.entries) := by
  induction h1 with
  | @bitmapIndexedNode d nm1 dm1 nodes1 keys1 values1 hd hnm hdm hdisj hk hv hch hwf ih =>
    intro path n2 h2
    cases h2 with
    | @bitmapIndexedNode _ nm2 dm2 nodes2 keys2 values2 hd' hnm' hdm' hdisj' hk' hv' hch' hwf' =>
      rw [Node.equal]
      by_cases hsame : sameNode path (.bitmapIndexedNode nm1 dm1 nodes1 keys1 values1)
          (.bitmapIndexedNode nm2 dm2 nodes2 keys2 values2) = true
      · rw [if_pos hsame]
        refine ⟨true, rfl, fun _ => ?_⟩
        rw [← hs _ _ _ hsame]
        exact forall₂_samePair_refl valueEq _
      rw [if_neg hsame]
      by_cases hmaps : dm1 ≠ dm2 ∨ nm1 ≠ nm2
      · rw [if_pos hmaps]
        exact ⟨false, rfl, fun e => Bool.noConfusion e⟩
      · rw [if_neg hmaps]
        have hdm12 : dm1 = dm2 := by
          by_contra hc; exact hmaps (Or.inl hc)
        have hnm12 : nm1 = nm2 := by
          by_contra hc; exact hmaps (Or.inr hc)
        subst hdm12 hnm12
        have hklen : keys2.length = keys1.length := by
          have e1 := congrArg List.length hk
          have e2 := congrArg List.length hk'
          rw [List.length_map] at e1 e2
          omega
        have hnlen : nodes2.length = nodes1.length := by
          rw [← hch.length_eq, ← hch'.length_eq]
        obtain ⟨b, hb, hiff⟩ := equalEntries_total valueEq keys1 values1 keys2 values2 hv hklen
          (hv'.trans hklen)
        rw [hb]
        cases b with
        | false => exact ⟨false, rfl, fun e => Bool.noConfusion e⟩
        | true =>
          obtain ⟨ek, ev⟩ := hiff.1 rfl
          subst ek
          obtain ⟨b', hb', himp'⟩ := equalAll_rel sameNode valueEq hnlen
            (fun c hc p c' hc' => ih c hc p c' (hwf' c' hc')) path 0
          refine ⟨b', hb', ?_⟩
          intro e
          rw [entries_bitmapIndexedNode, entries_bitmapIndexedNode]
          exact List.rel_append (forall₂_samePair_zip valueEq keys1 _ _ ev) (himp' e)
    | collisionNode hv' h2' hn' =>
      exfalso
      unfold maxDepth at hd; omega
  | @collisionNode keys1 values1 hv h2 hn =>
    intro path n2 h2'
    cases h2' with
    | bitmapIndexedNode hd' _ _ _ _ _ _ _ =>
      exfalso
      unfold maxDepth at hd'; omega
    | @collisionNode keys2 values2 hv' h2'' hn' =>
      rw [Node.equal]
      by_cases hsame : sameNode path (.collisionNode keys1 values1)
          (.collisionNode keys2 values2) = true
      · rw [if_pos hsame]
        refine ⟨true, rfl, fun _ => ?_⟩
        rw [← hs _ _ _ hsame]
        exact forall₂_samePair_refl valueEq _
      rw [if_neg hsame]
      by_cases hlen : keys1.length ≠ keys2.length
      · rw [if_pos hlen]
        exact ⟨false, rfl, fun e => Bool.noConfusion e⟩
      · rw [if_neg hlen]
        have hlen' : keys2.length = keys1.length := by
          by_contra hc; exact hlen (fun e => hc e.symm)
        obtain ⟨b, hb, hiff⟩ := equalEntries_total valueEq keys1 values1 keys2 values2 hv hlen'
          (hv'.trans hlen')
        refine ⟨b, hb, ?_⟩
        intro e
        obtain ⟨ek, ev⟩ := hiff.1 e
        subst ek
        rw [entries_collisionNode, entries_collisionNode]
        exact forall₂_samePair_zip valueEq keys1 _ _ ev

/-- A well-formed node whose values `==` holds of is reported equal to itself, whatever
the comparison of the addresses gives. -/
theorem equal_self {hashFunc : K → Nat} {d : Nat} {n : Node K V} (h : WF hashFunc d n)
    (hv : ∀ kv ∈ n.entries, valueEq kv.2 kv.2 = true) :
    ∀ path, Node.equal sameNode valueEq path n n = some true := by
  induction h with
  | @bitmapIndexedNode d nm dm nodes keys values hd hnm hdm hdisj hk hlen hch hwf ih =>
    intro path
    rw [entries_bitmapIndexedNode] at hv
    rw [Node.equal]
    by_cases hsame : sameNode path (.bitmapIndexedNode nm dm nodes keys values)
        (.bitmapIndexedNode nm dm nodes keys values) = true
    · rw [if_pos hsame]
    rw [if_neg hsame, if_neg (by simp)]
    obtain ⟨b, hb, hiff⟩ := equalEntries_total valueEq keys values keys values hlen rfl hlen
    have hb' : b = true := by
      apply hiff.2
      refine ⟨rfl, List.forall₂_same.2 ?_⟩
      intro v hvm
      obtain ⟨i, hi, rfl⟩ := List.getElem_of_mem hvm
      have hik : i < keys.length := by omega
      have hmem : (keys[i], values[i]) ∈ keys.zip values := by
        have hz : i < (keys.zip values).length := by simp; omega
        have := List.getElem_mem hz
        rwa [List.getElem_zip] at this
      exact hv _ (List.mem_append_left _ hmem)
    subst hb'
    rw [hb]
    exact equalAll_self sameNode valueEq
      (fun c hc p => ih c hc
        (fun kv hkv => hv kv (List.mem_append_right _ (mem_entriesOf.2 ⟨c, hc, hkv⟩))) p)
      path 0
  | @collisionNode keys values hlen h2 hn =>
    intro path
    rw [entries_collisionNode] at hv
    rw [Node.equal]
    by_cases hsame : sameNode path (.collisionNode keys values) (.collisionNode keys values)
        = true
    · rw [if_pos hsame]
    rw [if_neg hsame, if_neg (by simp)]
    obtain ⟨b, hb, hiff⟩ := equalEntries_total valueEq keys values keys values hlen rfl hlen
    have hb' : b = true := by
      apply hiff.2
      refine ⟨rfl, List.forall₂_same.2 ?_⟩
      intro v hvm
      obtain ⟨i, hi, rfl⟩ := List.getElem_of_mem hvm
      have hik : i < keys.length := by omega
      have hmem : (keys[i], values[i]) ∈ keys.zip values := by
        have hz : i < (keys.zip values).length := by simp; omega
        have := List.getElem_mem hz
        rwa [List.getElem_zip] at this
      exact hv _ hmem
    rw [hb, hb']

end EqualSpec

section EqualMaps

variable {V : Type} [Inhabited V] (sameNode : List Nat → Node Key V → Node Key V → Bool)
  (valueEq : V → V → Bool)

/-- On maps that satisfy the invariant `Equal` does not fail; when `==` on the values holds
exactly of a value and itself, it answers `true` exactly when the maps have the same size
and the same tree. -/
theorem MapOK.equal_iff (hs : SoundSame sameNode) (hlaw : ∀ a b, valueEq a b = true ↔ a = b)
    {m1 m2 : Map V} (h1 : MapOK m1) (h2 : MapOK m2) :
    ∃ b, Equal sameNode valueEq m1 m2 = some b ∧ (b = true ↔ m1 = m2) := by
  unfold Equal
  by_cases hsz : m1.size ≠ m2.size
  · rw [if_pos hsz]
    refine ⟨false, rfl, ?_⟩
    constructor
    · intro e; exact Bool.noConfusion e
    · intro e; exact (hsz (by rw [e])).elim
  · rw [if_neg hsz]
    have hs' : m1.size = m2.size := by
      by_contra hc; exact hsz hc
    obtain ⟨r1, s1⟩ := m1
    obtain ⟨r2, s2⟩ := m2
    dsimp only at hs' ⊢
    subst hs'
    unfold MapOK at h1 h2
    dsimp only at h1 h2
    cases r1 with
    | none =>
      cases r2 with
      | none => exact ⟨true, rfl, by simp⟩
      | some b => exact ⟨false, rfl, by simp⟩
    | some a =>
      cases r2 with
      | none => exact ⟨false, rfl, by simp⟩
      | some b =>
        obtain ⟨r, hr, hiff⟩ := equal_iff_eq sameNode valueEq hs hlaw h1.1 [] b h2.1
        refine ⟨r, hr, ?_⟩
        rw [hiff]
        simp

/-- On maps that satisfy the invariant `Equal` does not fail, whatever `==` on the values
is; when it answers `true` the maps have the same size and hold, in the order of the
traversal, pairs with the same keys and with values that are one value or that `==`
reports equal. -/
theorem MapOK.equal_pairs (hs : SoundSame sameNode) {m1 m2 : Map V} (h1 : MapOK m1)
    (h2 : MapOK m2) :
    ∃ b, Equal sameNode valueEq m1 m2 = some b
      ∧ (b = true → m1.size = m2.size
          ∧ List.Forall₂ (samePair valueEq) (entriesOpt m1.root) (entriesOpt m2.root)) := by
  unfold Equal
  by_cases hsz : m1.size ≠ m2.size
  · rw [if_pos hsz]
    exact ⟨false, rfl, fun e => Bool.noConfusion e⟩
  · rw [if_neg hsz]
    have hs' : m1.size = m2.size := by
      by_contra hc; exact hsz hc
    obtain ⟨r1, s1⟩ := m1
    obtain ⟨r2, s2⟩ := m2
    dsimp only at hs' ⊢
    subst hs'
    unfold MapOK at h1 h2
    dsimp only at h1 h2
    cases r1 with
    | none =>
      cases r2 with
      | none => exact ⟨true, rfl, fun _ => ⟨rfl, List.Forall₂.nil⟩⟩
      | some b => exact ⟨false, rfl, fun e => Bool.noConfusion e⟩
    | some a =>
      cases r2 with
      | none => exact ⟨false, rfl, fun e => Bool.noConfusion e⟩
      | some b =>
        obtain ⟨r, hr, himp⟩ := Champ.equal_rel sameNode valueEq hs h1.1 [] b h2.1
        exact ⟨r, hr, fun e => ⟨rfl, himp e⟩⟩

/-- A map that satisfies the invariant and whose values `==` holds of is reported equal to
itself, whatever the comparison of the addresses gives. -/
theorem MapOK.equal_same_map {m : Map V} (h : MapOK m)
    (hv : ∀ kv ∈ entriesOpt m.root, valueEq kv.2 kv.2 = true) :
    Equal sameNode valueEq m m = some true := by
  unfold Equal
  rw [if_neg (by simp)]
  obtain ⟨r, s⟩ := m
  unfold MapOK at h
  dsimp only at h hv ⊢
  cases r with
  | none => rfl
  | some a => exact Champ.equal_self sameNode valueEq h.1 hv []

end EqualMaps

/-! ## Sample maps with values of type `float64` -/

theorem soundSame_distinctNodes {K V : Type} :
    SoundSame (distinctNodes : List Nat → Node K V → Node K V → Bool) :=
  fun _ _ _ h => Bool.noConfusion h

theorem intEq_iff (a b : Nat) : intEq a b = true ↔ a = b := by
  unfold intEq
  exact decide_eq_true_iff

theorem reachable_mapNaN : Reachable mapNaN :=
  Reachable.set keyA SampleFloat.nan Reachable.new (by rfl)

theorem reachable_mapZero : Reachable mapZero :=
  Reachable.set keyA (SampleFloat.num 0) Reachable.new (by rfl)

theorem reachable_mapNegZero : Reachable mapNegZero :=
  Reachable.set keyA SampleFloat.negZero Reachable.new (by rfl)

/-! ## The contract of the map -/

section Contract

variable {V : Type} [Inhabited V]

/-- C1, round trip: on every reachable map `Set` succeeds, and reading the key in the
result gives the value that was set, with the flag `true`. -/
theorem set_then_get (m : Map V) (h : Reachable m) (k : Key) (v : V) :
    ∃ m', m.Set k v = some m' ∧ m'.Get k = some (v, true) := by
  obtain ⟨m', hset, -, hget, -⟩ := (reachable_ok h).set_get k v
  exact ⟨m', hset, hget⟩

/-- C2, frame of `Set`: on every reachable map, reading any other key after `Set` gives
the value and the flag that the map gave before, also for a key with the same hash. -/
theorem set_keeps_other_keys (m : Map V) (h : Reachable m) (k k' : Key) (hne : k' ≠ k) (v : V) :
    ∃ m', m.Set k v = some m' ∧ m'.Get k' = m.Get k' := by
  obtain ⟨m', hset, -, -, hother, -⟩ := (reachable_ok h).set_get k v
  exact ⟨m', hset, hother k' hne⟩

/-- C3: on every reachable map `Delete` succeeds, and reading the deleted key in the
result gives the zero value with the flag `false`. -/
theorem delete_then_get (m : Map V) (h : Reachable m) (k : Key) :
    ∃ m', m.Delete k = some m' ∧ m'.Get k = some (default, false) := by
  obtain ⟨m', hdel, -, hget, -⟩ := (reachable_ok h).delete_get k
  exact ⟨m', hdel, hget⟩

/-- C4, frame of `Delete`: on every reachable map, reading any other key after `Delete`
gives the value and the flag that the map gave before, whatever the deletion does to
the tree. -/
theorem delete_keeps_other_keys (m : Map V) (h : Reachable m) (k k' : Key) (hne : k' ≠ k) :
    ∃ m', m.Delete k = some m' ∧ m'.Get k' = m.Get k' := by
  obtain ⟨m', hdel, -, -, hother, -⟩ := (reachable_ok h).delete_get k
  exact ⟨m', hdel, hother k' hne⟩

/-- C5, collision correctness: for two distinct keys with the same hash, set one after the
other in a reachable map, both are read back with their values; deleting the first leaves
it not found and the second readable with its value. -/
theorem collision_correct (m : Map V) (h : Reachable m) (k1 k2 : Key) (hne : k1 ≠ k2)
    (_hhash : hashKey k1 = hashKey k2) (v1 v2 : V) :
    ∃ m1 m2 m3, m.Set k1 v1 = some m1 ∧ m1.Set k2 v2 = some m2
      ∧ m2.Get k1 = some (v1, true) ∧ m2.Get k2 = some (v2, true)
      ∧ m2.Delete k1 = some m3
      ∧ m3.Get k1 = some (default, false) ∧ m3.Get k2 = some (v2, true) := by
  obtain ⟨m1, hset1, hok1, hget1, -⟩ := (reachable_ok h).set_get k1 v1
  obtain ⟨m2, hset2, hok2, hget2, hother2, -⟩ := hok1.set_get k2 v2
  obtain ⟨m3, hdel, -, hget3, hother3, -⟩ := hok2.delete_get k1
  refine ⟨m1, m2, m3, hset1, hset2, ?_, hget2, hdel, hget3, ?_⟩
  · rw [hother2 k1 hne, hget1]
  · rw [hother3 k2 (fun e => hne e.symm), hget2]

/-- C6, `Len` after `Set`: on every reachable map the size grows by one when the key was
not found and stays when it was found; the `set` of the root node reports `added` exactly
when the key was not found. -/
theorem len_after_set (m : Map V) (h : Reachable m) (k : Key) (v : V) :
    ∃ m' r, m.Set k v = some m' ∧ m.Get k = some r
      ∧ m'.Len = (if r.2 = true then m.Len else m.Len + 1)
      ∧ ∀ root, m.root = some root →
          ∃ n' added, root.set hashKey k v (hashKey k) 0 = some (n', added)
            ∧ (added = true ↔ r.2 = false) := by
  have hok := reachable_ok h
  obtain ⟨m', hset, -, -, -, r, hr, hsz⟩ := hok.set_get k v
  refine ⟨m', r, hset, hr, hsz, ?_⟩
  intro root hroot
  have hok' := hok
  unfold MapOK at hok'
  rw [hroot] at hok'
  obtain ⟨n', added, hnset, -, hrel⟩ := set_spec hok'.1 k v
  rw [Nat.mul_zero] at hnset
  refine ⟨n', added, hnset, ?_⟩
  rw [hok.get k, hroot] at hr
  cases hr
  simp only [entriesOpt]
  rcases hrel with ⟨ha, hn, -⟩ | ⟨ha, vOld, R, hp, -⟩
  · rw [ha, lookupEntry_of_not_mem hn]; simp
  · rw [ha, (lookup_perm_cons (nodup_keys hok'.1) hp).1]; simp

/-- C7, `Len` after `Delete`: on every reachable map the size drops by one when the key
was found and stays when it was not; the size is never negative. -/
theorem len_after_delete (m : Map V) (h : Reachable m) (k : Key) :
    ∃ m' r, m.Delete k = some m' ∧ m.Get k = some r
      ∧ m'.Len = (if r.2 = true then m.Len - 1 else m.Len)
      ∧ 0 ≤ m.Len ∧ 0 ≤ m'.Len := by
  have hok := reachable_ok h
  obtain ⟨m', hdel, hok', -, -, r, hr, -, hsz⟩ := hok.delete_get k
  exact ⟨m', r, hdel, hr, hsz, hok.size_nonneg, hok'.size_nonneg⟩

/-- C8, size consistency: on every reachable map `Len` is the number of pairs that `All`
produces. -/
theorem len_eq_all_length (m : Map V) (h : Reachable m) :
    ∃ l, m.All = some l ∧ m.Len = l.length := by
  have hok := reachable_ok h
  exact ⟨_, hok.all, hok.size_eq⟩

/-- C9: on every reachable map `All` produces the pair `(k, v)` exactly when `Get k` gives
`(v, true)`, and it produces no key twice. -/
theorem all_iff_get (m : Map V) (h : Reachable m) :
    ∃ l, m.All = some l ∧ (∀ k v, (k, v) ∈ l ↔ m.Get k = some (v, true))
      ∧ (l.map Prod.fst).Nodup := by
  have hok := reachable_ok h
  refine ⟨_, hok.all, ?_, hok.nodup⟩
  intro k v
  rw [hok.get k]
  constructor
  · intro hm
    rw [lookupEntry_of_mem hok.nodup hm]
  · intro hl
    exact mem_of_lookupEntry (Option.some.inj hl)

end Contract

theorem set_then_get_witness :
    Reachable mapLC ∧ ∃ m', mapLC.Set keyA 7 = some m' ∧ m'.Get keyA = some (7, true) :=
  ⟨reachable_mapLC, set_then_get mapLC reachable_mapLC keyA 7⟩

theorem set_keeps_other_keys_witness :
    Reachable mapL ∧ keyLiquid ≠ keyCostarring
      ∧ ∃ m', mapL.Set keyCostarring 2 = some m' ∧ m'.Get keyLiquid = mapL.Get keyLiquid :=
  ⟨reachable_mapL, liquid_ne_costarring,
    set_keeps_other_keys mapL reachable_mapL keyCostarring keyLiquid liquid_ne_costarring 2⟩

theorem delete_then_get_witness :
    Reachable mapLC
      ∧ ∃ m', mapLC.Delete keyLiquid = some m' ∧ m'.Get keyLiquid = some (default, false) :=
  ⟨reachable_mapLC, delete_then_get mapLC reachable_mapLC keyLiquid⟩

theorem delete_keeps_other_keys_witness :
    Reachable mapLC ∧ keyCostarring ≠ keyLiquid
      ∧ ∃ m', mapLC.Delete keyLiquid = some m'
        ∧ m'.Get keyCostarring = mapLC.Get keyCostarring :=
  ⟨reachable_mapLC, fun e => liquid_ne_costarring e.symm,
    delete_keeps_other_keys mapLC reachable_mapLC keyLiquid keyCostarring
      (fun e => liquid_ne_costarring e.symm)⟩

theorem collision_correct_witness :
    Reachable (New : Map Nat) ∧ keyLiquid ≠ keyCostarring
      ∧ hashKey keyLiquid = hashKey keyCostarring
      ∧ ∃ m1 m2 m3, (New : Map Nat).Set keyLiquid 1 = some m1
        ∧ m1.Set keyCostarring 2 = some m2
        ∧ m2.Get keyLiquid = some (1, true) ∧ m2.Get keyCostarring = some (2, true)
        ∧ m2.Delete keyLiquid = some m3
        ∧ m3.Get keyLiquid = some (default, false) ∧ m3.Get keyCostarring = some (2, true) :=
  ⟨Reachable.new, liquid_ne_costarring, hash_liquid_costarring,
    collision_correct New Reachable.new keyLiquid keyCostarring liquid_ne_costarring
      hash_liquid_costarring 1 2⟩

theorem len_after_set_witness :
    Reachable mapL ∧ ∃ m' r, mapL.Set keyCostarring 2 = some m' ∧ mapL.Get keyCostarring = some r
      ∧ m'.Len = (if r.2 = true then mapL.Len else mapL.Len + 1)
      ∧ ∀ root, mapL.root = some root →
          ∃ n' added, root.set hashKey keyCostarring 2 (hashKey keyCostarring) 0
              = some (n', added)
            ∧ (added = true ↔ r.2 = false) :=
  ⟨reachable_mapL, len_after_set mapL reachable_mapL keyCostarring 2⟩

theorem len_after_delete_witness :
    Reachable mapLC ∧ ∃ m' r, mapLC.Delete keyLiquid = some m' ∧ mapLC.Get keyLiquid = some r
      ∧ m'.Len = (if r.2 = true then mapLC.Len - 1 else mapLC.Len)
      ∧ 0 ≤ mapLC.Len ∧ 0 ≤ m'.Len :=
  ⟨reachable_mapLC, len_after_delete mapLC reachable_mapLC keyLiquid⟩

theorem len_eq_all_length_witness :
    Reachable mapLC ∧ ∃ l, mapLC.All = some l ∧ mapLC.Len = l.length :=
  ⟨reachable_mapLC, len_eq_all_length mapLC reachable_mapLC⟩

theorem all_iff_get_witness :
    Reachable mapLC ∧ ∃ l, mapLC.All = some l
      ∧ (∀ k v, (k, v) ∈ l ↔ mapLC.Get k = some (v, true)) ∧ (l.map Prod.fst).Nodup :=
  ⟨reachable_mapLC, all_iff_get mapLC reachable_mapLC⟩

/-- C10, canonical form, evaluated on two keys with the same hash: the maps built by
setting `"liquid"` and `"costarring"` in the two orders are both reachable and read the
same for every key, but `Equal` reports them unequal, with no two nodes at one address and
with every other possible outcome of the comparison of addresses, and their trees differ
(the collision node lists the pairs in the order of arrival). -/
theorem canonical_form_breaks_on_collision :
    Reachable mapLC ∧ Reachable mapCL ∧ (∀ k, mapLC.Get k = mapCL.Get k)
      ∧ Equal distinctNodes intEq mapLC mapCL = some false
      ∧ (∀ sameNode, SoundSame sameNode → Equal sameNode intEq mapLC mapCL = some false)
      ∧ mapLC.root ≠ mapCL.root
      ∧ mapLC.All = some [(keyLiquid, 1), (keyCostarring, 2)]
      ∧ mapCL.All = some [(keyCostarring, 2), (keyLiquid, 1)] := by
  have hroot : mapLC.root ≠ mapCL.root := by
    intro e
    have hall := congrArg (fun r => Option.bind r Node.all) e
    revert hall
    decide
  refine ⟨reachable_mapLC, reachable_mapCL, ?_, by decide, ?_, hroot, by decide, by decide⟩
  · intro k
    rw [(reachable_ok reachable_mapLC).get k, (reachable_ok reachable_mapCL).get k]
    have e1 : entriesOpt mapLC.root = [(keyLiquid, 1), (keyCostarring, 2)] := by decide
    have e2 : entriesOpt mapCL.root = [(keyCostarring, 2), (keyLiquid, 1)] := by decide
    rw [e1, e2]
    simp only [lookupEntry]
    by_cases h1 : keyLiquid = k
    · have h2 : ¬ keyCostarring = k := fun e => liquid_ne_costarring (h1.trans e.symm)
      rw [if_pos h1, if_neg h2, if_pos h1]
    · rw [if_neg h1, if_neg h1]
  · intro sameNode hs
    obtain ⟨b, hb, hiff⟩ := MapOK.equal_iff sameNode intEq hs
      (fun a b => by unfold intEq; exact decide_eq_true_iff)
      (reachable_ok reachable_mapLC) (reachable_ok reachable_mapCL)
    cases b with
    | false => exact hb
    | true => exact absurd (congrArg Map.root (hiff.1 rfl)) hroot
/-! ## Deleting the key that was just inserted -/

section SetDelete

theorem testBit_of_ge {m i : Nat} (h : m < 2 ^ 32) (hi : 32 ≤ i) : m.testBit i = false :=
  Nat.testBit_lt_two_pow (lt_of_lt_of_le h (Nat.pow_le_pow_right (by norm_num) hi))

theorem testBit_andNot_of_lt {m s i : Nat} (h : m < 2 ^ 32) :
    (andNot m (2 ^ s)).testBit i = (m.testBit i && !decide (s = i)) := by
  by_cases hi : i < 32
  · exact testBit_andNot_bit m s i hi
  · rw [testBit_of_ge (andNot_lt h) (by omega), testBit_of_ge h (by omega)]
    rfl

/-- Clearing a bit that was just set gives the bitmap back. -/
theorem andNot_lor_cancel {m s : Nat} (h : m < 2 ^ 32) (hs : s < 32)
    (hb : m.testBit s = false) : andNot (m ||| 2 ^ s) (2 ^ s) = m := by
  apply Nat.eq_of_testBit_eq
  intro i
  rw [testBit_andNot_of_lt (lor_bit_lt h hs), testBit_lor_bit]
  by_cases e : s = i
  · subst e; simp [hb]
  · simp [e]

/-- Setting a bit that was just cleared gives the bitmap back. -/
theorem lor_andNot_cancel {m s : Nat} (h : m < 2 ^ 32) (hb : m.testBit s = true) :
    andNot m (2 ^ s) ||| 2 ^ s = m := by
  apply Nat.eq_of_testBit_eq
  intro i
  rw [testBit_lor_bit, testBit_andNot_of_lt h]
  by_cases e : s = i
  · subst e; simp [hb]
  · simp [e]

theorem below_lor (m s : Nat) : below (m ||| 2 ^ s) s = below m s := by
  apply below_congr
  intro i hi
  rw [testBit_lor_bit]
  have : decide (s = i) = false := by simpa using fun e => hi e.symm
  simp [this]

theorem below_andNot {m s : Nat} (h : m < 2 ^ 32) : below (andNot m (2 ^ s)) s = below m s := by
  apply below_congr
  intro i hi
  rw [testBit_andNot_of_lt h]
  have : decide (s = i) = false := by simpa using fun e => hi e.symm
  simp [this]

theorem testBit_lor_self (m s : Nat) : (m ||| 2 ^ s).testBit s = true := by
  rw [testBit_lor_bit]; simp

theorem testBit_andNot_self {m s : Nat} (h : m < 2 ^ 32) :
    (andNot m (2 ^ s)).testBit s = false := by
  rw [testBit_andNot_of_lt h]; simp

variable {K V : Type} [DecidableEq K]

/-- Deleting one key of the node that `createSubNode` built for two keys leaves a node
with no children and the other pair inline. -/
theorem createSubNode_del (hashFunc : K → Nat) (k : K) (v : V) (key : K) (value : V)
    (hne : k ≠ key) (d : Nat) (hd : d ≤ maxDepth) {sub : Node K V}
    (hsub : createSubNode k v (hashFunc k) key value (hashFunc key) (bitsPerLevel * d)
      = some sub) :
    ∃ X, sub.del key (hashFunc key) (bitsPerLevel * d)
      = some (some (.bitmapIndexedNode 0 X [] [k] [v]), true) := by
  obtain ⟨sub', hsub', hwf, hperm⟩ := createSubNode_spec hashFunc k v key value hne d hd
  rw [hsub] at hsub'
  cases hsub'
  obtain ⟨res, hdel, hrel⟩ := del_spec hwf key
  rcases hrel with ⟨hn, -⟩ | ⟨htrue, w, hp, hshape⟩
  · exfalso
    apply hn
    exact List.mem_map_of_mem Prod.fst (a := (key, value)) (hperm.mem_iff.2 (by simp))
  · obtain ⟨r1, r2⟩ := res
    dsimp only at htrue hp hshape
    subst htrue
    have hlen := hp.length_eq
    rw [hperm.length_eq] at hlen
    cases r1 with
    | none => simp [entriesOpt] at hlen
    | some m =>
      obtain ⟨-, hshape'⟩ := hshape m rfl
      simp only [entriesOpt, List.length_cons, List.length_nil] at hlen
      have hform : ∃ X k' v', m = .bitmapIndexedNode 0 X [] [k'] [v'] := by
        rcases hshape' with hw | ⟨-, k', v', hs⟩
        · exact wf_one_entry hw (by omega)
        · exact ⟨1, k', v', hs⟩
      obtain ⟨X, k', v', rfl⟩ := hform
      have hmem : (k, v) ∈ (key, w) :: entriesOpt (some (Node.bitmapIndexedNode 0 X [] [k'] [v'])) :=
        hp.mem_iff.1 ((hperm.mem_iff (a := (k, v))).2 (by simp))
      simp only [entriesOpt, entries_bitmapIndexedNode, entriesOf_nil, List.zip_cons_cons,
        List.zip_nil_right, List.append_nil, List.mem_cons, List.mem_singleton,
        List.not_mem_nil, or_false, Prod.mk.injEq] at hmem
      rcases hmem with ⟨e, -⟩ | ⟨e1, e2⟩
      · exact (hne e).elim
      · subst e1 e2
        exact ⟨X, hdel⟩

/-- Inserting an absent key into a non-empty well-formed node and deleting it again
gives the node back. -/
theorem set_del_cancel {hashFunc : K → Nat} {d : Nat} {n : Node K V} (h : WF hashFunc d n)
    (key : K) (value : V) (hk : key ∉ n.entries.map Prod.fst) (hne : n.entries ≠ []) :
    ∃ n', n.set hashFunc key value (hashFunc key) (bitsPerLevel * d) = some (n', true)
      ∧ n'.del key (hashFunc key) (bitsPerLevel * d) = some (some n, true) := by
  induction h with
  | @bitmapIndexedNode d nm dm nodes keys values hd hnm hdm hdisj hk0 hv hch hwf ih =>
    have hs := slice_lt (hashFunc key) d
    rw [Node.set]
    simp only [bit_eq, land_bit_ne_zero, shift_succ]
    rw [entries_bitmapIndexedNode] at hk hne
    generalize hsdef : slice (hashFunc key) d = s at *
    by_cases h1 : dm.testBit s = true
    · -- the slot holds an inline entry of another key
      have h2 : nm.testBit s = false := by
        cases h2 : nm.testBit s
        · rfl
        · exact (disjoint_testBit hdisj s h1 h2).elim
      rw [if_pos h1, popcount_low _ _ hs, popcount_low _ _ hs]
      have hk1 := hk0
      rw [slots_of_set hs h1] at hk1
      obtain ⟨KA, k, KC, rfl, hKA, hks, hKC⟩ := map_eq_append_cons hk1
      obtain ⟨VA, v, VC, rfl, hla, hlc⟩ := split_of_length_cons hv
      have hlen : (below dm s).length = KA.length := by rw [← hKA, List.length_map]
      have e : k ≠ key := by
        intro e
        apply hk
        rw [zip_append_cons _ _ _ _ _ _ hla.symm, e]
        simp
      rw [hlen, getElem?_append_cons]
      dsimp only
      rw [if_neg e, ← hla, getElem?_append_cons]
      dsimp only
      obtain ⟨sub, hsub, -, -⟩ :=
        createSubNode_spec hashFunc k v key value e (d + 1) (by omega)
      obtain ⟨X, hsubdel⟩ := createSubNode_del hashFunc k v key value e (d + 1) (by omega) hsub
      rw [hsub]
      dsimp only
      have hch1 := hch
      rw [slots_of_unset hs h2] at hch1
      obtain ⟨NA, NC, rfl, hNA, hNC, hnl⟩ := forall₂_append_split hch1
      rw [← hnl, insertAt_append, hla, removeAt_append, ← hla, removeAt_append]
      dsimp only
      refine ⟨_, rfl, ?_⟩
      rw [Node.del]
      simp only [bit_eq, land_bit_ne_zero, shift_succ, hsdef]
      rw [if_neg (by rw [testBit_andNot_self hdm]; exact Bool.noConfusion),
        if_pos (testBit_lor_self nm s), popcount_low _ _ hs, popcount_low _ _ hs,
        below_lor, below_andNot hdm, ← hnl, delAt_append_cons, hsubdel]
      dsimp only
      rw [if_pos ⟨rfl, rfl⟩, removeAt_append]
      simp only [List.getElem?_cons_zero]
      rw [hlen, insertAt_append, ← hla, insertAt_append]
      dsimp only
      rw [andNot_lor_cancel hnm hs h2, lor_andNot_cancel hdm h1]
    · have h1' : dm.testBit s = false := by simpa using h1
      rw [if_neg h1]
      by_cases h2 : nm.testBit s = true
      · -- the slot holds a child
        rw [if_pos h2, popcount_low _ _ hs]
        have hch1 := hch
        rw [slots_of_set hs h2] at hch1
        obtain ⟨NA, c, NC, rfl, hNA, hc, hNC, hnl⟩ := forall₂_append_cons hch1
        rw [← hnl, setAt_append_cons]
        have hkc : key ∉ c.entries.map Prod.fst := by
          intro hm
          apply hk
          rw [entriesOf_append, entriesOf_cons]
          simp only [List.map_append, List.mem_append]
          exact Or.inr (Or.inr (Or.inl hm))
        have hcne : c.entries ≠ [] := by
          intro e0
          have := hc.1
          rw [e0] at this
          simp at this
        obtain ⟨c', hset, hdel⟩ := ih c (by simp) hkc hcne
        rw [hset]
        dsimp only
        rw [set_append_cons]
        refine ⟨_, rfl, ?_⟩
        rw [Node.del]
        simp only [bit_eq, land_bit_ne_zero, shift_succ, hsdef]
        rw [if_neg h1, if_pos h2, popcount_low _ _ hs, ← hnl, delAt_append_cons, hdel]
        dsimp only
        have hcwf := hwf c (by simp)
        cases c with
        | bitmapIndexedNode cNm cDm cNodes cKeys cValues =>
          dsimp only
          have hchk : ¬ (cNm = 0 ∧ cKeys.length = 1) := by
            rintro ⟨rfl, hk1⟩
            cases hcwf with
            | bitmapIndexedNode _ _ _ _ _ hv' hch' _ =>
              rw [slots_zero] at hch'
              have hnil := List.forall₂_nil_left_iff.1 hch'
              subst hnil
              have := hc.1
              rw [entries_bitmapIndexedNode, entriesOf_nil, List.append_nil,
                List.length_zip, hv', hk1] at this
              simp at this
          rw [if_neg hchk, set_append_cons]
        | collisionNode cKeys cValues =>
          dsimp only
          rw [set_append_cons]
      · -- the slot is unused
        have h2' : nm.testBit s = false := by simpa using h2
        rw [if_neg h2, popcount_low _ _ hs]
        have hk1 := hk0
        rw [slots_of_unset hs h1'] at hk1
        obtain ⟨KA, KC, rfl, hKA, hKC⟩ := map_eq_append_split hk1
        obtain ⟨VA, VC, rfl, hla, hlc⟩ := split_of_length hv
        have hlen : (below dm s).length = KA.length := by rw [← hKA, List.length_map]
        rw [hlen, insertAt_append, ← hla, insertAt_append]
        dsimp only
        refine ⟨_, rfl, ?_⟩
        rw [Node.del]
        simp only [bit_eq, land_bit_ne_zero, shift_succ, hsdef]
        rw [if_pos (testBit_lor_self dm s), popcount_low _ _ hs, below_lor, hlen,
          getElem?_append_cons]
        dsimp only
        have hnot : ¬ ((KA ++ key :: KC).length = 1 ∧ nodes.length = 0) := by
          rintro ⟨hl1, hl2⟩
          apply hne
          have hKA0 : KA = [] := by
            simp at hl1; exact List.length_eq_zero.1 (by omega)
          have hKC0 : KC = [] := by
            simp at hl1; exact List.length_eq_zero.1 (by omega)
          have hN0 : nodes = [] := List.length_eq_zero.1 hl2
          subst hKA0 hKC0 hN0
          simp [Node.entriesOf]
        rw [if_neg (by simp), if_neg hnot, removeAt_append, ← hla, removeAt_append]
        dsimp only
        rw [andNot_lor_cancel hdm hs h1']
  | @collisionNode keys values hv h2 hn =>
    rw [entries_collisionNode, map_fst_zip_eq hv] at hk
    rw [Node.set, findKey_of_not_mem hk]
    dsimp only
    refine ⟨_, rfl, ?_⟩
    rw [Node.del, findKey_append_cons hk]
    dsimp only
    rw [if_neg (by simp; omega), removeAt_append, ← hv, removeAt_append]
    simp

end SetDelete

/-! ## Properties that hold of every node of a well-formed tree -/

section TreeProps

variable {K V : Type}

theorem forall₂_right_mem {T U : Type} {R : T → U → Prop} {l₁ : List T} {l₂ : List U}
    (h : List.Forall₂ R l₁ l₂) : ∀ y ∈ l₂, ∃ x ∈ l₁, R x y := by
  induction h with
  | nil => intro y hy; simp at hy
  | cons hr _ ih =>
    intro y hy
    rcases List.mem_cons.1 hy with e | e
    · exact ⟨_, List.mem_cons_self _ _, e ▸ hr⟩
    · obtain ⟨x, hx, hxy⟩ := ih y e
      exact ⟨x, List.mem_cons_of_mem _ hx, hxy⟩

theorem child_entries_ne_nil {hashFunc : K → Nat} {d : Nat} {S : List Nat}
    {nodes : List (Node K V)} (h : List.Forall₂ (ChildAt hashFunc d) S nodes) :
    ∀ c ∈ nodes, 2 ≤ c.entries.length := by
  intro c hc
  obtain ⟨s, -, hs⟩ := forall₂_right_mem h c hc
  exact hs.1

/-- A property of non-empty well-formed nodes holds of every node of a non-empty
well-formed tree. -/
theorem allNodes_of_wf {hashFunc : K → Nat} {P : Nat → Node K V → Prop}
    (hP : ∀ d n, WF hashFunc d n → n.entries ≠ [] → P d n) {d : Nat} {n : Node K V}
    (h : WF hashFunc d n) (hne : n.entries ≠ []) : AllNodes P d n := by
  have h0 := h
  induction h with
  | @bitmapIndexedNode d nm dm nodes keys values hd hnm hdm hdisj hk hv hch hwf ih =>
    refine AllNodes.bitmapIndexedNode (hP _ _ h0 hne) ?_
    intro c hc
    have hc2 := child_entries_ne_nil hch c hc
    have hcne : c.entries ≠ [] := by
      intro e; rw [e] at hc2; simp at hc2
    exact ih c hc hcne (hwf c hc)
  | collisionNode hv h2 hn =>
    exact AllNodes.collisionNode (hP _ _ h0 hne)

theorem wf_noSingleEntryChild {hashFunc : K → Nat} {d : Nat} {n : Node K V}
    (h : WF hashFunc d n) : NoSingleEntryChild n := by
  cases h with
  | @bitmapIndexedNode _ nm dm nodes keys values hd hnm hdm hdisj hk hv hch hwf =>
    intro c hc hsingle
    have hc2 := child_entries_ne_nil hch c hc
    have hcwf := hwf c hc
    cases hcwf with
    | @bitmapIndexedNode _ cnm cdm cnodes ckeys cvalues _ _ _ _ _ hv' hch' _ =>
      obtain ⟨hzero, hone⟩ := hsingle
      have hnil : cnodes = [] := by
        rcases hzero with e | e
        · rw [e, slots_zero] at hch'
          exact List.forall₂_nil_left_iff.1 hch'
        · exact e
      subst hnil
      rw [entries_bitmapIndexedNode, entriesOf_nil, List.append_nil, List.length_zip, hv',
        hone] at hc2
      simp at hc2
    | collisionNode _ _ _ => exact hsingle
  | collisionNode _ _ _ => trivial

theorem wf_bitmapsDisjoint {hashFunc : K → Nat} {d : Nat} {n : Node K V}
    (h : WF hashFunc d n) (hne : n.entries ≠ []) : BitmapsDisjoint n := by
  cases h with
  | @bitmapIndexedNode _ nm dm nodes keys values hd hnm hdm hdisj hk hv hch hwf =>
    refine ⟨hdisj, ?_⟩
    rintro ⟨rfl, rfl⟩
    apply hne
    rw [slots_zero] at hk hch
    have hkeys : keys = [] := List.map_eq_nil_iff.1 hk
    have hnodes : nodes = [] := List.forall₂_nil_left_iff.1 hch
    subst hkeys hnodes
    simp [Node.entries, Node.entriesOf]
  | collisionNode _ _ _ => trivial

theorem wf_slotOrdered {hashFunc : K → Nat} {d : Nat} {n : Node K V}
    (h : WF hashFunc d n) : SlotOrdered hashFunc d n := by
  cases h with
  | @bitmapIndexedNode _ nm dm nodes keys values hd hnm hdm hdisj hk hv hch hwf =>
    refine ⟨hk, hk ▸ slots_sorted dm, slots_sorted nm, ?_⟩
    exact hch.imp (fun s c hc => hc.2)
  | collisionNode _ _ _ => trivial

end TreeProps

section MapTreeProps

variable {V : Type} [Inhabited V]

theorem MapOK.allNodes {m : Map V} (h : MapOK m) {P : Nat → Node Key V → Prop}
    (hP : ∀ d n, WF hashKey d n → n.entries ≠ [] → P d n) :
    ∀ root, m.root = some root → AllNodes P 0 root := by
  intro root hroot
  unfold MapOK at h
  rw [hroot] at h
  exact allNodes_of_wf hP h.1 h.2.1

theorem MapOK.not_mem_of_get {m : Map V} (h : MapOK m) {k : Key} {v : V}
    (hk : m.Get k = some (v, false)) : k ∉ (entriesOpt m.root).map Prod.fst := by
  rw [h.get k] at hk
  intro hm
  have := lookupEntry_snd.2 hm
  rw [Option.some.inj hk] at this
  exact Bool.noConfusion this

end MapTreeProps

/-! ## Equality, restoring, emptiness and the shape of the tree -/

section Shape

variable {V : Type} [Inhabited V]

/-- C11, `Equal` is sound, for every outcome of `==` on the values and on the addresses of
the nodes: on two reachable maps `Equal` gives an answer; when the answer is `true` the
maps have the same `Len` and `Get` reports every key found in both or in neither, with
values that are one value or that `==` reports equal, so `A.Get(k) = B.Get(k)` when `==`
holds of no two different values; maps that differ in `Len`, in the presence of a key or
in the value of a key (two values that `==` reports unequal) are reported unequal. -/
theorem equal_sound (sameNode : List Nat → Node Key V → Node Key V → Bool)
    (valueEq : V → V → Bool) (hs : SoundSame sameNode) (A B : Map V) (hA : Reachable A)
    (hB : Reachable B) :
    (∃ b, Equal sameNode valueEq A B = some b)
      ∧ (Equal sameNode valueEq A B = some true →
          A.Len = B.Len
            ∧ ∀ k, ∃ v1 v2 found, A.Get k = some (v1, found) ∧ B.Get k = some (v2, found)
                ∧ (v1 = v2 ∨ valueEq v1 v2 = true))
      ∧ ((∀ a b, valueEq a b = true → a = b) →
          (Equal sameNode valueEq A B = some true → A.Len = B.Len ∧ ∀ k, A.Get k = B.Get k)
            ∧ ((A.Len ≠ B.Len ∨ ∃ k, A.Get k ≠ B.Get k) →
                Equal sameNode valueEq A B = some false))
      ∧ (A.Len ≠ B.Len → Equal sameNode valueEq A B = some false)
      ∧ ∀ k v1 f1 v2 f2, A.Get k = some (v1, f1) → B.Get k = some (v2, f2) →
          (f1 ≠ f2 ∨ (v1 ≠ v2 ∧ valueEq v1 v2 = false)) →
          Equal sameNode valueEq A B = some false := by
  have hokA := reachable_ok hA
  have hokB := reachable_ok hB
  obtain ⟨b, hb, himp⟩ := MapOK.equal_pairs sameNode valueEq hs hokA hokB
  have hagree : Equal sameNode valueEq A B = some true →
      A.Len = B.Len
        ∧ ∀ k, ∃ v1 v2 found, A.Get k = some (v1, found) ∧ B.Get k = some (v2, found)
            ∧ (v1 = v2 ∨ valueEq v1 v2 = true) := by
    intro ht
    rw [hb] at ht
    obtain ⟨hsize, hrel⟩ := himp (Option.some.inj ht)
    refine ⟨hsize, ?_⟩
    intro k
    obtain ⟨hf, hv⟩ := lookup_samePair k hrel
    refine ⟨(lookupEntry k (entriesOpt A.root)).1, (lookupEntry k (entriesOpt B.root)).1,
      (lookupEntry k (entriesOpt A.root)).2, hokA.get k, ?_, hv⟩
    rw [hokB.get k, hf]
  have hfalse : ¬ Equal sameNode valueEq A B = some true →
      Equal sameNode valueEq A B = some false := by
    intro hn
    cases b with
    | false => exact hb
    | true => exact absurd hb hn
  refine ⟨⟨b, hb⟩, hagree, ?_, ?_, ?_⟩
  · intro hlaw
    have hget : Equal sameNode valueEq A B = some true →
        A.Len = B.Len ∧ ∀ k, A.Get k = B.Get k := by
      intro ht
      obtain ⟨hlen, hk⟩ := hagree ht
      refine ⟨hlen, ?_⟩
      intro k
      obtain ⟨v1, v2, found, h1, h2, hv⟩ := hk k
      have e : v1 = v2 := by
        rcases hv with e | e
        · exact e
        · exact hlaw _ _ e
      rw [h1, h2, e]
    refine ⟨hget, ?_⟩
    intro hdiff
    apply hfalse
    intro ht
    obtain ⟨hlen, hk⟩ := hget ht
    rcases hdiff with hd | ⟨k, hd⟩
    · exact hd hlen
    · exact hd (hk k)
  · intro hlen
    apply hfalse
    intro ht
    exact hlen (hagree ht).1
  · intro k v1 f1 v2 f2 h1 h2 hdiff
    apply hfalse
    intro ht
    obtain ⟨w1, w2, found, g1, g2, hv⟩ := (hagree ht).2 k
    rw [h1] at g1
    rw [h2] at g2
    have e1 := Option.some.inj g1
    have e2 := Option.some.inj g2
    injection e1 with e11 e12
    injection e2 with e21 e22
    subst e11 e12 e21
    rcases hdiff with hd | ⟨hne, hd⟩
    · exact hd e22.symm
    · rcases hv with e | e
      · exact hne e
      · rw [hd] at e
        exact Bool.noConfusion e

/-- C12 for values that `==` holds of: setting a key that a reachable map does not contain
and deleting it again gives a map that `Equal` reports equal to the first one, whatever the
comparison of the addresses gives, when every value `w` stored in the map has `w == w`
(no NaN); it is the same map, with the same tree, for all values. -/
theorem set_delete_restores (sameNode : List Nat → Node Key V → Node Key V → Bool)
    (valueEq : V → V → Bool) (m : Map V) (h : Reachable m) (k : Key) (v : V)
    (hk : ∃ w, m.Get k = some (w, false))
    (hv : ∀ k' w, m.Get k' = some (w, true) → valueEq w w = true) :
    ∃ m1 m2, m.Set k v = some m1 ∧ m1.Delete k = some m2
      ∧ Equal sameNode valueEq m2 m = some true ∧ m2 = m := by
  have hok := reachable_ok h
  obtain ⟨w, hw⟩ := hk
  have hnot := hok.not_mem_of_get hw
  have hself : Equal sameNode valueEq m m = some true := by
    apply hok.equal_same_map sameNode valueEq
    intro kv hkv
    apply hv kv.1 kv.2
    rw [hok.get kv.1, lookupEntry_of_mem hok.nodup hkv]
  obtain ⟨r, s⟩ := m
  cases r with
  | none =>
    obtain ⟨m1, hset, hok1, hrel⟩ := hok.set_effect k v
    obtain ⟨m2, hdel, hok2, hrel2⟩ := hok1.delete_effect k
    refine ⟨m1, m2, hset, hdel, ?_⟩
    have hs0 : s = 0 := by simpa [MapOK] using hok
    subst hs0
    have hE1 : (entriesOpt m1.root).Perm [(k, v)] := by
      rcases hrel with ⟨-, hp, -⟩ | ⟨vOld, R, hp1, -, -⟩
      · simpa [entriesOpt] using hp
      · have := hp1.length_eq
        simp [entriesOpt] at this
    have hm2 : m2 = { root := none, size := 0 } := by
      rcases hrel2 with ⟨hn, -⟩ | ⟨v', hp, -⟩
      · exfalso
        apply hn
        exact List.mem_map_of_mem Prod.fst (a := (k, v)) (hE1.mem_iff.2 (by simp))
      · have hlen := hp.length_eq
        rw [hE1.length_eq] at hlen
        have hnil : entriesOpt m2.root = [] := List.length_eq_zero.1 (by simpa using hlen)
        obtain ⟨r2, s2⟩ := m2
        have hok2' := hok2
        unfold MapOK at hok2'
        cases r2 with
        | none =>
          have : s2 = 0 := by simpa using hok2'
          rw [this]
        | some root2 =>
          exfalso
          exact hok2'.2.1 (by simpa [entriesOpt] using hnil)
    rw [hm2]
    exact ⟨hself, rfl⟩
  | some root =>
    have hok' := hok
    unfold MapOK at hok'
    dsimp only at hok'
    obtain ⟨n', hset, hdel⟩ := set_del_cancel hok'.1 k v
      (by simpa [entriesOpt] using hnot) hok'.2.1
    rw [Nat.mul_zero] at hset hdel
    refine ⟨{ root := some n', size := s + 1 }, { root := some root, size := s }, ?_, ?_,
      hself, rfl⟩
    · simp [Map.Set, hset]
    · simp [Map.Delete, hdel]

/-- C14, deleting an absent key: on a reachable map, `Delete` of a key that `Get` reports
not found succeeds and returns the map it was given, root and size unchanged. -/
theorem delete_absent_noop (m : Map V) (h : Reachable m) (k : Key)
    (hk : ∃ w, m.Get k = some (w, false)) : m.Delete k = some m := by
  obtain ⟨m', hdel, -, -, -, r, hr, hsame, -⟩ := (reachable_ok h).delete_get k
  obtain ⟨w, hw⟩ := hk
  rw [hw] at hr
  have e : r = (w, false) := (Option.some.inj hr).symm
  rw [hdel, hsame (by rw [e])]

/-- C15, emptying the map: in a reachable map the root is absent exactly when the size
is 0, and deleting the only key of a reachable map gives `New()`. -/
theorem empty_iff_root_absent (m : Map V) (h : Reachable m) :
    (m.root = none ↔ m.size = 0)
      ∧ ∀ k v, m.All = some [(k, v)] → m.Delete k = some New := by
  have hok := reachable_ok h
  constructor
  · have hok' := hok
    unfold MapOK at hok'
    cases hr : m.root with
    | none => rw [hr] at hok'; simpa using hok'
    | some root =>
      rw [hr] at hok'
      constructor
      · intro e; exact Option.noConfusion e
      · intro e
        exfalso
        rw [hok'.2.2] at e
        exact hok'.2.1 (List.length_eq_zero.1 (by exact_mod_cast e))
  · intro k v hall
    rw [hok.all] at hall
    have hE : entriesOpt m.root = [(k, v)] := Option.some.inj hall
    obtain ⟨m', hdel, hok', hrel⟩ := hok.delete_effect k
    rw [hdel]
    congr 1
    rcases hrel with ⟨hn, -⟩ | ⟨v', hp, -⟩
    · exfalso; apply hn; rw [hE]; simp
    · have hlen := hp.length_eq
      rw [hE] at hlen
      have hnil : entriesOpt m'.root = [] := List.length_eq_zero.1 (by simpa using hlen.symm)
      obtain ⟨r2, s2⟩ := m'
      unfold MapOK at hok'
      cases r2 with
      | none =>
        have : s2 = 0 := by simpa using hok'
        rw [this]; rfl
      | some root2 =>
        exfalso
        exact hok'.2.1 (by simpa [entriesOpt] using hnil)

/-- C16, idempotent delete: on a reachable map, deleting a key a second time returns the
map that the first deletion returned. -/
theorem delete_idempotent (m : Map V) (h : Reachable m) (k : Key) :
    ∃ m', m.Delete k = some m' ∧ m'.Delete k = some m' := by
  obtain ⟨m', hdel, hok', hget, -⟩ := (reachable_ok h).delete_get k
  obtain ⟨m'', hdel', -, -, -, r, hr, hsame, -⟩ := hok'.delete_get k
  rw [hget] at hr
  have e : r = (default, false) := (Option.some.inj hr).symm
  refine ⟨m', hdel, ?_⟩
  rw [hdel', hsame (by rw [e])]

/-- C17, traversal order: on a reachable map `All` produces the pairs of the root in the
order of `Node.entries` (the inline entries in the order of the `keys` array, then the
pairs of each child in the order of the `nodes` array, recursively; the stored order for
a collision node), and in every node these arrays stand in ascending order of the bits
of `datamap` and of `nodemap`. -/
theorem all_in_slot_order (m : Map V) (h : Reachable m) :
    ∃ l, m.All = some l ∧ l = entriesOpt m.root
      ∧ ∀ root, m.root = some root →
          AllNodes (fun d n => SlotOrdered hashKey d n ∧ n.all = some n.entries) 0 root := by
  have hok := reachable_ok h
  exact ⟨_, hok.all, rfl,
    hok.allNodes (fun d n hw _ => ⟨wf_slotOrdered hw, all_eq_entries hw⟩)⟩

/-- C18, the empty map: `New()` has no root and size 0; every key is not found, `Len` is
0, `All` produces nothing and `Delete` returns the same empty map. -/
theorem new_is_empty :
    (New : Map V).root = none ∧ (New : Map V).size = 0
      ∧ (∀ k, (New : Map V).Get k = some (default, false))
      ∧ (New : Map V).Len = 0 ∧ (New : Map V).All = some []
      ∧ ∀ k, (New : Map V).Delete k = some New :=
  ⟨rfl, rfl, fun _ => rfl, rfl, rfl, fun _ => rfl⟩

/-- C19, collapse invariant: in a reachable map, and so in the result of every `Delete`
on it, no `bitmapIndexedNode` has a child that is a `bitmapIndexedNode` with zero children
and exactly one inline entry. -/
theorem no_single_entry_child (m : Map V) (h : Reachable m) :
    (∀ root, m.root = some root → AllNodes (fun _ n => NoSingleEntryChild n) 0 root)
      ∧ ∀ k m', m.Delete k = some m' →
          ∀ root, m'.root = some root → AllNodes (fun _ n => NoSingleEntryChild n) 0 root := by
  refine ⟨(reachable_ok h).allNodes (fun d n hw _ => wf_noSingleEntryChild hw), ?_⟩
  intro k m' hdel
  exact (reachable_ok (Reachable.delete k h hdel)).allNodes
    (fun d n hw _ => wf_noSingleEntryChild hw)

/-- C20, bitmap disjointness: in a reachable map, and in the results of `Set` and `Delete`
on it, every `bitmapIndexedNode` has `datamap & nodemap == 0` and no node has both
bitmaps equal to zero. -/
theorem bitmaps_disjoint (m : Map V) (h : Reachable m) :
    (∀ root, m.root = some root → AllNodes (fun _ n => BitmapsDisjoint n) 0 root)
      ∧ (∀ k v m', m.Set k v = some m' →
          ∀ root, m'.root = some root → AllNodes (fun _ n => BitmapsDisjoint n) 0 root)
      ∧ ∀ k m', m.Delete k = some m' →
          ∀ root, m'.root = some root → AllNodes (fun _ n => BitmapsDisjoint n) 0 root := by
  refine ⟨(reachable_ok h).allNodes (fun d n hw hne => wf_bitmapsDisjoint hw hne), ?_, ?_⟩
  · intro k v m' hset
    exact (reachable_ok (Reachable.set k v h hset)).allNodes
      (fun d n hw hne => wf_bitmapsDisjoint hw hne)
  · intro k m' hdel
    exact (reachable_ok (Reachable.delete k h hdel)).allNodes
      (fun d n hw hne => wf_bitmapsDisjoint hw hne)

end Shape

/-- With a NaN in the map C12 fails: `New().Set("a", NaN)` does not contain `"liquid"`;
setting `"liquid"` and deleting it again gives the same tree with a root that `Delete` has
built, at an address of its own, and `Equal` reports the two maps unequal, as NaN is not
`==` to itself. -/
theorem set_delete_with_nan_not_equal :
    Reachable mapNaN ∧ mapNaN.Get keyLiquid = some (default, false)
      ∧ mapNaN.Set keyLiquid (.num 1) = some mapNaNL
      ∧ mapNaNL.Delete keyLiquid = some mapNaN
      ∧ SampleFloat.goEq .nan .nan = false
      ∧ Equal distinctNodes SampleFloat.goEq mapNaN mapNaN = some false :=
  ⟨reachable_mapNaN, by rfl, by rfl, by rfl, by rfl, by rfl⟩

theorem equal_sound_witness :
    SoundSame (distinctNodes : List Nat → Node Key SampleFloat → Node Key SampleFloat → Bool)
      ∧ Reachable mapZero ∧ Reachable mapNegZero
      ∧ Equal distinctNodes SampleFloat.goEq mapZero mapNegZero = some true
      ∧ (mapZero.Len = mapNegZero.Len
          ∧ ∀ k, ∃ v1 v2 found, mapZero.Get k = some (v1, found)
              ∧ mapNegZero.Get k = some (v2, found)
              ∧ (v1 = v2 ∨ SampleFloat.goEq v1 v2 = true))
      ∧ Reachable mapL ∧ Reachable mapC ∧ mapL.Get keyLiquid ≠ mapC.Get keyLiquid
      ∧ Equal distinctNodes intEq mapL mapC = some false
      ∧ Reachable mapLC ∧ mapL.Len ≠ mapLC.Len
      ∧ Equal distinctNodes intEq mapL mapLC = some false :=
  ⟨soundSame_distinctNodes, reachable_mapZero, reachable_mapNegZero, by rfl,
    (equal_sound distinctNodes SampleFloat.goEq soundSame_distinctNodes mapZero mapNegZero
      reachable_mapZero reachable_mapNegZero).2.1 (by rfl),
    reachable_mapL, reachable_mapC, by decide,
    ((equal_sound distinctNodes intEq soundSame_distinctNodes mapL mapC reachable_mapL
      reachable_mapC).2.2.1 (fun a b => (intEq_iff a b).1)).2
      (Or.inr ⟨keyLiquid, by decide⟩),
    reachable_mapLC, by decide,
    (equal_sound distinctNodes intEq soundSame_distinctNodes mapL mapLC reachable_mapL
      reachable_mapLC).2.2.2.1 (by decide)⟩

theorem set_delete_restores_witness :
    Reachable mapL ∧ (∃ w, mapL.Get keyCostarring = some (w, false))
      ∧ (∀ k' w, mapL.Get k' = some (w, true) → intEq w w = true)
      ∧ ∃ m1 m2, mapL.Set keyCostarring 2 = some m1 ∧ m1.Delete keyCostarring = some m2
        ∧ Equal distinctNodes intEq m2 mapL = some true ∧ m2 = mapL :=
  ⟨reachable_mapL, ⟨0, by decide⟩, fun _ w _ => (intEq_iff w w).2 rfl,
    set_delete_restores distinctNodes intEq mapL reachable_mapL keyCostarring 2
      ⟨0, by decide⟩ (fun _ w _ => (intEq_iff w w).2 rfl)⟩

theorem delete_absent_noop_witness :
    Reachable mapLC ∧ (∃ w, mapLC.Get keyA = some (w, false))
      ∧ mapLC.Delete keyA = some mapLC :=
  ⟨reachable_mapLC, ⟨0, by decide⟩,
    delete_absent_noop mapLC reachable_mapLC keyA ⟨0, by decide⟩⟩

theorem empty_iff_root_absent_witness :
    Reachable mapL ∧ (mapL.root = none ↔ mapL.size = 0)
      ∧ ∀ k v, mapL.All = some [(k, v)] → mapL.Delete k = some New :=
  ⟨reachable_mapL, empty_iff_root_absent mapL reachable_mapL⟩

theorem delete_idempotent_witness :
    Reachable mapLC ∧ ∃ m', mapLC.Delete keyLiquid = some m' ∧ m'.Delete keyLiquid = some m' :=
  ⟨reachable_mapLC, delete_idempotent mapLC reachable_mapLC keyLiquid⟩

theorem all_in_slot_order_witness :
    Reachable mapLC ∧ ∃ l, mapLC.All = some l ∧ l = entriesOpt mapLC.root
      ∧ ∀ root, mapLC.root = some root →
          AllNodes (fun d n => SlotOrdered hashKey d n ∧ n.all = some n.entries) 0 root :=
  ⟨reachable_mapLC, all_in_slot_order mapLC reachable_mapLC⟩

theorem no_single_entry_child_witness :
    Reachable mapLC
      ∧ (∀ root, mapLC.root = some root → AllNodes (fun _ n => NoSingleEntryChild n) 0 root)
      ∧ ∀ k m', mapLC.Delete k = some m' →
          ∀ root, m'.root = some root → AllNodes (fun _ n => NoSingleEntryChild n) 0 root :=
  ⟨reachable_mapLC, no_single_entry_child mapLC reachable_mapLC⟩

theorem bitmaps_disjoint_witness :
    Reachable mapLC
      ∧ (∀ root, mapLC.root = some root → AllNodes (fun _ n => BitmapsDisjoint n) 0 root)
      ∧ (∀ k v m', mapLC.Set k v = some m' →
          ∀ root, m'.root = some root → AllNodes (fun _ n => BitmapsDisjoint n) 0 root)
      ∧ ∀ k m', mapLC.Delete k = some m' →
          ∀ root, m'.root = some root → AllNodes (fun _ n => BitmapsDisjoint n) 0 root :=
  ⟨reachable_mapLC, bitmaps_disjoint mapLC reachable_mapLC⟩

/-! ## Indices in range, hash paths and collision nodes -/

section IndexAndPath

variable {K V : Type}

theorem forall₂_getElem? {T U : Type} {R : T → U → Prop} {l₁ : List T} {l₂ : List U}
    (h : List.Forall₂ R l₁ l₂) :
    ∀ (j : Nat) (y : U), l₂[j]? = some y → ∃ x, l₁[j]? = some x ∧ R x y := by
  induction h with
  | nil => intro j y hy; simp at hy
  | cons hr _ ih =>
    intro j y hy
    cases j with
    | zero =>
      simp only [List.getElem?_cons_zero, Option.some.injEq] at hy
      exact ⟨_, by simp, hy ▸ hr⟩
    | succ j =>
      simp only [List.getElem?_cons_succ] at hy ⊢
      exact ih j y hy

theorem below_length_le {m s : Nat} (hs : s < 32) : (below m s).length ≤ (slots m).length := by
  rw [slots_split m s hs]
  simp only [List.length_append]
  omega

theorem below_length_lt {m s : Nat} (hs : s < 32) (h : m.testBit s = true) :
    (below m s).length < (slots m).length := by
  rw [slots_of_set hs h]
  simp only [List.length_append, List.length_cons]
  omega

/-- In a well-formed node the arrays have the lengths of the bitmaps and the compacted
indices are in range. -/
theorem wf_indexSafe {hashFunc : K → Nat} {d : Nat} {n : Node K V} (h : WF hashFunc d n) :
    IndexSafe n := by
  cases h with
  | @bitmapIndexedNode _ nm dm nodes keys values hd hnm hdm hdisj hk hv hch hwf =>
    have hkl : keys.length = (slots dm).length := by
      rw [← hk, List.length_map]
    have hnl : nodes.length = (slots nm).length := hch.length_eq.symm
    refine ⟨by rw [popcount_eq_slots dm hdm, hkl], by rw [popcount_eq_slots dm hdm, hv, hkl],
      by rw [popcount_eq_slots nm hnm, hnl], ?_⟩
    intro s hs
    rw [popcount_low _ _ hs, popcount_low _ _ hs, hkl, hnl, land_bit_ne_zero, land_bit_ne_zero]
    exact ⟨below_length_le hs, below_length_le hs, below_length_lt hs, below_length_lt hs⟩
  | collisionNode hv _ _ => exact hv

/-- In a well-formed node the keys and the children stand at the compacted indices of
their slices. -/
theorem wf_hashPath {hashFunc : K → Nat} {d : Nat} {n : Node K V} (h : WF hashFunc d n) :
    HashPath hashFunc d n := by
  cases h with
  | @bitmapIndexedNode _ nm dm nodes keys values hd hnm hdm hdisj hk hv hch hwf =>
    constructor
    · intro i k hik
      rw [← hk, List.getElem?_map, hik]
      rfl
    · intro j c hjc
      obtain ⟨s, hs, hsc⟩ := forall₂_getElem? hch j c hjc
      exact ⟨s, hs, hsc.2⟩
  | collisionNode _ _ _ => trivial

/-- A hash below `2 ^ 35` is determined by its slices at the depths `0` to `6`. -/
theorem hash_eq_of_slices {h1 h2 : Nat} (b1 : h1 < 2 ^ 35) (b2 : h2 < 2 ^ 35)
    (hs : ∀ e, e < maxDepth → slice h1 e = slice h2 e) : h1 = h2 := by
  apply Nat.eq_of_testBit_eq
  intro i
  by_cases hi : i < 35
  · have he : i / 5 < maxDepth := by unfold maxDepth; omega
    have hsl := hs (i / 5) he
    have key : ∀ h : Nat, (slice h (i / 5)).testBit (i % 5) = h.testBit i := by
      intro h
      unfold slice bitMask branchFactor bitsPerLevel
      rw [Nat.testBit_and, Nat.testBit_shiftRight]
      have e1 : 5 * (i / 5) + i % 5 = i := Nat.div_add_mod i 5
      have e2 : (1 <<< 5 - 1 : Nat).testBit (i % 5) = true := by
        have : (1 <<< 5 - 1 : Nat) = 2 ^ 5 - 1 := by decide
        rw [this, Nat.testBit_two_pow_sub_one]
        simpa using Nat.mod_lt i (by norm_num : 5 > 0)
      rw [e1, e2, Bool.and_true]
    rw [← key h1, ← key h2, hsl]
  · have hge : (2 : Nat) ^ 35 ≤ 2 ^ i := Nat.pow_le_pow_right (by norm_num) (by omega)
    rw [Nat.testBit_lt_two_pow (lt_of_lt_of_le b1 hge),
      Nat.testBit_lt_two_pow (lt_of_lt_of_le b2 hge)]

theorem mem_zip_of_mem_keys {keys : List K} {values : List V} (hv : values.length = keys.length)
    {k : K} (hk : k ∈ keys) : ∃ v, (k, v) ∈ keys.zip values := by
  have : k ∈ (keys.zip values).map Prod.fst := by rw [map_fst_zip_eq hv]; exact hk
  obtain ⟨⟨k', v⟩, hm, rfl⟩ := List.mem_map.1 this
  exact ⟨v, hm⟩

/-- In a well-formed tree whose keys share the slices above the root, every collision
node stands at depth `maxDepth` and holds distinct keys of one hash. -/
theorem allNodes_collisionInv {hashFunc : K → Nat} (hb : ∀ k, hashFunc k < 2 ^ 35) {d : Nat}
    {n : Node K V} (h : WF hashFunc d n) (hp : SamePrefix hashFunc d n) :
    AllNodes (CollisionInv hashFunc) d n := by
  induction h with
  | @bitmapIndexedNode d nm dm nodes keys values hd hnm hdm hdisj hk hv hch hwf ih =>
    refine AllNodes.bitmapIndexedNode hd ?_
    intro c hc
    apply ih c hc
    obtain ⟨s, -, hsc⟩ := forall₂_right_mem hch c hc
    intro kv1 h1 kv2 h2 e he
    by_cases hed : e < d
    · apply hp kv1 _ kv2 _ e hed
      · rw [entries_bitmapIndexedNode]
        exact List.mem_append_right _ (mem_entriesOf.2 ⟨c, hc, h1⟩)
      · rw [entries_bitmapIndexedNode]
        exact List.mem_append_right _ (mem_entriesOf.2 ⟨c, hc, h2⟩)
    · have : e = d := by omega
      subst this
      rw [hsc.2 kv1 h1, hsc.2 kv2 h2]
  | @collisionNode keys values hv h2 hn =>
    refine AllNodes.collisionNode ⟨rfl, h2, hv, hn, ?_⟩
    intro k1 hk1 k2 hk2
    obtain ⟨v1, hm1⟩ := mem_zip_of_mem_keys hv hk1
    obtain ⟨v2, hm2⟩ := mem_zip_of_mem_keys hv hk2
    apply hash_eq_of_slices (hb k1) (hb k2)
    intro e he
    exact hp (k1, v1) (by rw [entries_collisionNode]; exact hm1) (k2, v2)
      (by rw [entries_collisionNode]; exact hm2) e he

theorem hashKey_lt (key : Key) : hashKey key < 2 ^ 32 := by
  unfold hashKey
  have : ∀ (l : List UInt8) (init : Nat), init < 2 ^ 32 →
      l.foldl (fun h c => ((h ^^^ c.toNat) * 16777619) % 2 ^ 32) init < 2 ^ 32 := by
    intro l
    induction l with
    | nil => intro init hi; simpa using hi
    | cons a l ih =>
      intro init _
      rw [List.foldl_cons]
      exact ih _ (Nat.mod_lt _ (by norm_num))
  exact this key _ (by norm_num)

theorem hashKey_lt_bound (key : Key) : hashKey key < 2 ^ 35 :=
  lt_trans (hashKey_lt key) (by norm_num)

end IndexAndPath

/-! ## The nested calls of `createSubNode` -/

section CreateTotal

variable {K V : Type} [DecidableEq K]

theorem chainLength_single (bit : Nat) (sub : Node K V) :
    (Node.bitmapIndexedNode bit 0 [sub] [] []).chainLength = sub.chainLength + 1 := by
  simp [Node.chainLength, Node.chainLengthOf]

theorem chainLength_pair (dm : Nat) (k1 k2 : K) (v1 v2 : V) :
    (Node.bitmapIndexedNode 0 dm [] [k1, k2] [v1, v2]).chainLength = 0 := by
  simp [Node.chainLength]

theorem chainLength_collisionNode (keys : List K) (values : List V) :
    (Node.collisionNode keys values).chainLength = 0 := by
  simp [Node.chainLength]

/-- With more fuel than levels left, `createSubNodeFuel` returns a node that holds the two
pairs under a chain of single-child nodes no longer than the levels left. -/
theorem createSubNodeFuel_total (key1 : K) (val1 : V) (hash1 : Nat) (key2 : K) (val2 : V)
    (hash2 : Nat) :
    ∀ (fuel shift : Nat),
      (maxDepth * bitsPerLevel - shift + (bitsPerLevel - 1)) / bitsPerLevel < fuel →
      ∃ sub, createSubNodeFuel fuel key1 val1 hash1 key2 val2 hash2 shift = some sub
        ∧ sub.chainLength
            ≤ (maxDepth * bitsPerLevel - shift + (bitsPerLevel - 1)) / bitsPerLevel
        ∧ (sub.entries = [(key1, val1), (key2, val2)]
            ∨ sub.entries = [(key2, val2), (key1, val1)]) := by
  intro fuel
  induction fuel with
  | zero => intro shift h; exact absurd h (Nat.not_lt_zero _)
  | succ fuel ih =>
    intro shift h
    rw [createSubNodeFuel]
    by_cases hs : shift ≥ maxDepth * bitsPerLevel
    · rw [if_pos hs]
      refine ⟨_, rfl, ?_, Or.inl ?_⟩
      · rw [chainLength_collisionNode]; exact Nat.zero_le _
      · rw [entries_collisionNode]; rfl
    · rw [if_neg hs]
      dsimp only
      by_cases hb : 1 <<< ((hash1 >>> shift) &&& bitMask) = 1 <<< ((hash2 >>> shift) &&& bitMask)
      · rw [if_pos hb]
        have hlt : (maxDepth * bitsPerLevel - (shift + bitsPerLevel) + (bitsPerLevel - 1))
            / bitsPerLevel < fuel := by
          unfold maxDepth bitsPerLevel at *
          omega
        obtain ⟨sub, hsub, hchain, hent⟩ := ih (shift + bitsPerLevel) hlt
        rw [hsub]
        refine ⟨_, rfl, ?_, ?_⟩
        · rw [chainLength_single]
          unfold maxDepth bitsPerLevel at *
          omega
        · rw [entries_bitmapIndexedNode, entriesOf_cons, entriesOf_nil]
          simpa using hent
      · rw [if_neg hb]
        by_cases hlt : 1 <<< ((hash1 >>> shift) &&& bitMask)
            < 1 <<< ((hash2 >>> shift) &&& bitMask)
        · rw [if_pos hlt]
          refine ⟨_, rfl, ?_, Or.inl ?_⟩
          · rw [chainLength_pair]; exact Nat.zero_le _
          · rw [entries_bitmapIndexedNode, entriesOf_nil]; rfl
        · rw [if_neg hlt]
          refine ⟨_, rfl, ?_, Or.inr ?_⟩
          · rw [chainLength_pair]; exact Nat.zero_le _
          · rw [entries_bitmapIndexedNode, entriesOf_nil]; rfl

/-- The result of `createSubNodeFuel` does not depend on the fuel once the fuel exceeds
the levels left. -/
theorem createSubNodeFuel_fuel (key1 : K) (val1 : V) (hash1 : Nat) (key2 : K) (val2 : V)
    (hash2 : Nat) :
    ∀ (fuel1 fuel2 shift : Nat),
      (maxDepth * bitsPerLevel - shift + (bitsPerLevel - 1)) / bitsPerLevel < fuel1 →
      (maxDepth * bitsPerLevel - shift + (bitsPerLevel - 1)) / bitsPerLevel < fuel2 →
      createSubNodeFuel fuel1 key1 val1 hash1 key2 val2 hash2 shift
        = createSubNodeFuel fuel2 key1 val1 hash1 key2 val2 hash2 shift := by
  intro fuel1
  induction fuel1 with
  | zero => intro fuel2 shift h; exact absurd h (Nat.not_lt_zero _)
  | succ fuel1 ih =>
    intro fuel2 shift h1 h2
    cases fuel2 with
    | zero => exact absurd h2 (Nat.not_lt_zero _)
    | succ fuel2 =>
      rw [createSubNodeFuel, createSubNodeFuel]
      by_cases hs : shift ≥ maxDepth * bitsPerLevel
      · rw [if_pos hs, if_pos hs]
      · rw [if_neg hs, if_neg hs]
        dsimp only
        have e := ih fuel2 (shift + bitsPerLevel)
          (by unfold maxDepth bitsPerLevel at *; omega)
          (by unfold maxDepth bitsPerLevel at *; omega)
        rw [e]

end CreateTotal

/-! ## Single steps of `set` and `del` -/

section NodeSteps

variable {K V : Type} [DecidableEq K] [Inhabited V]

theorem branchBit_eq (hash shift : Nat) :
    branchBit hash shift = 2 ^ ((hash >>> shift) &&& bitMask) := by
  unfold branchBit
  rw [Nat.one_shiftLeft]

theorem branchSlice_lt (hash shift : Nat) : (hash >>> shift) &&& bitMask < 32 := by
  unfold bitMask branchFactor bitsPerLevel
  exact Nat.and_lt_two_pow _ (by decide : (1 <<< 5 - 1 : Nat) < 2 ^ 5)

theorem andNot_bit_cleared (m s : Nat) (hs : s < 32) : andNot m (2 ^ s) &&& 2 ^ s = 0 := by
  by_contra h
  have := (land_bit_ne_zero _ _).1 h
  rw [testBit_andNot_bit _ _ _ hs] at this
  simp at this

theorem lor_bit_set (m s : Nat) : (m ||| 2 ^ s) &&& 2 ^ s ≠ 0 := by
  rw [land_bit_ne_zero, testBit_lor_bit]
  simp

theorem delAt_of_getElem? {nodes : List (Node K V)} {j : Nat} {c : Node K V}
    (h : nodes[j]? = some c) (key : K) (hash shift : Nat) :
    Node.delAt nodes j key hash shift = c.del key hash shift := by
  induction nodes generalizing j with
  | nil => simp at h
  | cons a A ih =>
    cases j with
    | zero =>
      simp only [List.getElem?_cons_zero, Option.some.injEq] at h
      subst h
      simp [Node.delAt]
    | succ j =>
      simp only [List.getElem?_cons_succ] at h
      simpa [Node.delAt] using ih h

theorem lt_length_of_getElem? {T : Type} {l : List T} {i : Nat} {x : T} (h : l[i]? = some x) :
    i < l.length := by
  by_contra hc
  rw [List.getElem?_eq_none (by omega)] at h
  exact Option.noConfusion h

theorem findKey_of_first {keys : List K} {k : K} {i : Nat} (h : keys[i]? = some k)
    (hf : ∀ j, j < i → keys[j]? ≠ some k) : findKey keys k = some i := by
  induction keys generalizing i with
  | nil => simp at h
  | cons a A ih =>
    cases i with
    | zero =>
      simp only [List.getElem?_cons_zero, Option.some.injEq] at h
      simp [findKey, h]
    | succ i =>
      simp only [List.getElem?_cons_succ] at h
      have hne : ¬ a = k := by
        intro e
        exact hf 0 (Nat.succ_pos _) (by simp [e])
      have := ih h (fun j hj => by simpa using hf (j + 1) (by omega))
      simp [findKey, hne, this]

theorem findKey_of_nodup {keys : List K} {k : K} {i : Nat} (hn : keys.Nodup)
    (h : keys[i]? = some k) : findKey keys k = some i := by
  apply findKey_of_first h
  intro j hj hjk
  have hi := lt_length_of_getElem? h
  have hj' := lt_length_of_getElem? hjk
  rw [List.getElem?_eq_getElem hi] at h
  rw [List.getElem?_eq_getElem hj'] at hjk
  have e : keys[j] = keys[i] := by
    rw [Option.some.inj h, Option.some.inj hjk]
  have := (List.Nodup.getElem_inj_iff hn).1 e
  omega

theorem getElem?_of_mem_nodup {keys : List K} {k : K} (h : k ∈ keys) :
    ∃ i : Nat, keys[i]? = some k := by
  obtain ⟨i, hi, e⟩ := List.getElem_of_mem h
  exact ⟨i, by rw [List.getElem?_eq_getElem hi, e]⟩

theorem slices_differ_below {a b s : Nat} (ha : a < 2 ^ 32) (hb : b < 2 ^ 32)
    (hne : (a >>> s) &&& bitMask ≠ (b >>> s) &&& bitMask) : s < maxDepth * bitsPerLevel := by
  by_contra hc
  have hs : 32 ≤ s := by
    unfold maxDepth bitsPerLevel at hc
    omega
  have hpow : (2 : Nat) ^ 32 ≤ 2 ^ s := Nat.pow_le_pow_right (by norm_num) hs
  have e1 : a >>> s = 0 := by
    rw [Nat.shiftRight_eq_div_pow]
    exact Nat.div_eq_of_lt (lt_of_lt_of_le ha hpow)
  have e2 : b >>> s = 0 := by
    rw [Nat.shiftRight_eq_div_pow]
    exact Nat.div_eq_of_lt (lt_of_lt_of_le hb hpow)
  rw [e1, e2] at hne
  exact hne rfl

/-- The step of `bitmapIndexedNode.set` that replaces an inline entry by a sub-node, when
the next level is still a level of bitmaps and the slices of the two hashes differ
there. -/
theorem set_parts_below_cutover (hashFunc : K → Nat) (nodemap datamap : Nat)
    (nodes : List (Node K V)) (keys : List K) (values : List V) (key : K) (value : V)
    (hash shift : Nat) (k : K) (v : V)
    (hd : datamap &&& branchBit hash shift ≠ 0)
    (hk : keys[popcount (datamap &&& (branchBit hash shift - 1))]? = some k)
    (hne : k ≠ key)
    (hv : values[popcount (datamap &&& (branchBit hash shift - 1))]? = some v)
    (hj : popcount (nodemap &&& (branchBit hash shift - 1)) ≤ nodes.length)
    (hshift : shift + bitsPerLevel < maxDepth * bitsPerLevel)
    (hslice : (hashFunc k >>> (shift + bitsPerLevel)) &&& bitMask
      ≠ (hash >>> (shift + bitsPerLevel)) &&& bitMask) :
    (Node.bitmapIndexedNode nodemap datamap nodes keys values).set hashFunc key value hash shift
        = some (.bitmapIndexedNode (nodemap ||| branchBit hash shift)
            (andNot datamap (branchBit hash shift))
            (nodes.take (popcount (nodemap &&& (branchBit hash shift - 1)))
              ++ (if branchBit (hashFunc k) (shift + bitsPerLevel)
                    < branchBit hash (shift + bitsPerLevel) then
                  Node.bitmapIndexedNode 0
                    (branchBit (hashFunc k) (shift + bitsPerLevel)
                      ||| branchBit hash (shift + bitsPerLevel)) [] [k, key] [v, value]
                else
                  Node.bitmapIndexedNode 0
                    (branchBit (hashFunc k) (shift + bitsPerLevel)
                      ||| branchBit hash (shift + bitsPerLevel)) [] [key, k] [value, v])
                :: nodes.drop (popcount (nodemap &&& (branchBit hash shift - 1))))
            (keys.take (popcount (datamap &&& (branchBit hash shift - 1)))
              ++ keys.drop (popcount (datamap &&& (branchBit hash shift - 1)) + 1))
            (values.take (popcount (datamap &&& (branchBit hash shift - 1)))
              ++ values.drop (popcount (datamap &&& (branchBit hash shift - 1)) + 1)),
          true)
      ∧ andNot datamap (branchBit hash shift) &&& branchBit hash shift = 0
      ∧ (nodemap ||| branchBit hash shift) &&& branchBit hash shift ≠ 0 := by
  refine ⟨?_, ?_, ?_⟩
  · have hik := lt_length_of_getElem? hk
    have hiv := lt_length_of_getElem? hv
    have hbne : ¬ (1 <<< ((hashFunc k >>> (shift + bitsPerLevel)) &&& bitMask)
        = 1 <<< ((hash >>> (shift + bitsPerLevel)) &&& bitMask)) := by
      rw [Nat.one_shiftLeft, Nat.one_shiftLeft]
      intro e
      exact hslice (Nat.pow_right_injective (le_refl 2) e)
    have hcut : ¬ (shift + bitsPerLevel ≥ maxDepth * bitsPerLevel) := by omega
    simp only [branchBit] at hd hk hv hj hik hiv ⊢
    rw [Node.set]
    simp only [hd, ne_eq, not_false_eq_true, if_true, hk, hne, if_false, hv, createSubNode,
      createSubNodeFuel, hcut, hbne, insertAt, removeAt, hj, hik, hiv]
    by_cases hlt : 1 <<< ((hashFunc k >>> (shift + bitsPerLevel)) &&& bitMask)
        < 1 <<< ((hash >>> (shift + bitsPerLevel)) &&& bitMask)
    · simp only [hlt, if_true]
    · simp only [hlt, if_false]
  · rw [branchBit_eq]
    exact andNot_bit_cleared _ _ (branchSlice_lt hash shift)
  · rw [branchBit_eq]
    exact lor_bit_set _ _

end NodeSteps

/-! ## Indices, hash paths, collision nodes and the single steps of the node methods -/

section Paths

variable {V : Type} [Inhabited V]

/-- C21, index safety: in a reachable map every `bitmapIndexedNode` has
`len(keys) = len(values) = popcount(datamap)` and `len(nodes) = popcount(nodemap)`, for
every bit the index `popcount(bitmap & (bit-1))` is at most the length of the array and
an index of the array when the bit is set; `Get`, `Set` and `Delete` return for every key
(no index is out of range and `createSubNode` returns). -/
theorem index_safety (m : Map V) (h : Reachable m) :
    (∀ root, m.root = some root → AllNodes (fun _ n => IndexSafe n) 0 root)
      ∧ (∀ k, ∃ r, m.Get k = some r)
      ∧ (∀ k v, ∃ m', m.Set k v = some m')
      ∧ ∀ k, ∃ m', m.Delete k = some m' := by
  have hok := reachable_ok h
  refine ⟨hok.allNodes (fun d n hw _ => wf_indexSafe hw), ?_, ?_, ?_⟩
  · intro k
    exact ⟨_, hok.get k⟩
  · intro k v
    obtain ⟨m', hset, -⟩ := hok.set_effect k v
    exact ⟨m', hset⟩
  · intro k
    obtain ⟨m', hdel, -⟩ := hok.delete_effect k
    exact ⟨m', hdel⟩

/-- C22, hash-path invariant: in a reachable map the key at the compacted index `i` of a
`bitmapIndexedNode` at depth `d` has the slice `(hash >> 5*d) & 31` equal to the `i`-th
lowest set bit of `datamap`, every key beneath the child at the compacted index `j` has,
at depth `d`, the slice given by the `j`-th lowest set bit of `nodemap`, and no key is
stored twice in the tree. -/
theorem hash_path_invariant (m : Map V) (h : Reachable m) :
    (∀ root, m.root = some root → AllNodes (HashPath hashKey) 0 root)
      ∧ ∃ l, m.All = some l ∧ l = entriesOpt m.root ∧ (l.map Prod.fst).Nodup := by
  have hok := reachable_ok h
  exact ⟨hok.allNodes (fun d n hw _ => wf_hashPath hw), _, hok.all, rfl, hok.nodup⟩

/-- C23, collision-node invariant: in a reachable map a `collisionNode` stands only at
depth `maxDepth = 7` (shift 35, below seven `bitmapIndexedNode`s, never as the root), holds
at least two entries, its keys are pairwise distinct and have one hash; a
`bitmapIndexedNode` stands only at the depths 0 to 6. -/
theorem collision_node_invariant (m : Map V) (h : Reachable m) :
    maxDepth = 7 ∧ maxDepth * bitsPerLevel = 35
      ∧ ∀ root, m.root = some root →
          AllNodes (CollisionInv hashKey) 0 root
            ∧ ∀ keys values, root ≠ .collisionNode keys values := by
  refine ⟨rfl, rfl, ?_⟩
  intro root hroot
  have hok := reachable_ok h
  unfold MapOK at hok
  rw [hroot] at hok
  have hall : AllNodes (CollisionInv hashKey) 0 root :=
    allNodes_collisionInv hashKey_lt_bound hok.1
      (fun _ _ _ _ e he => absurd he (Nat.not_lt_zero e))
  refine ⟨hall, ?_⟩
  intro keys values e
  subst e
  cases hall with
  | collisionNode hp =>
    have : (0 : Nat) = maxDepth := hp.1
    exact absurd this (by decide)

end Paths

section Steps

variable {K V : Type} [DecidableEq K] [Inhabited V]

/-- C24, `createSubNode` terminates: for every two entries, every two hashes (equal ones
too) and every shift it returns a node; the node nests at most
`ceil((maxDepth*bitsPerLevel - shift) / bitsPerLevel)` single-child `bitmapIndexedNode`s
above the node that holds the two entries, and it holds exactly the two entries. The
result is the same for every bound on the nested calls above that number. -/
theorem createSubNode_terminates (key1 : K) (val1 : V) (hash1 : Nat) (key2 : K) (val2 : V)
    (hash2 shift : Nat) :
    ∃ sub, createSubNode key1 val1 hash1 key2 val2 hash2 shift = some sub
      ∧ sub.chainLength
          ≤ (maxDepth * bitsPerLevel - shift + (bitsPerLevel - 1)) / bitsPerLevel
      ∧ (sub.entries = [(key1, val1), (key2, val2)]
          ∨ sub.entries = [(key2, val2), (key1, val1)])
      ∧ ∀ fuel, (maxDepth * bitsPerLevel - shift + (bitsPerLevel - 1)) / bitsPerLevel < fuel →
          createSubNodeFuel fuel key1 val1 hash1 key2 val2 hash2 shift = some sub := by
  have hb : (maxDepth * bitsPerLevel - shift + (bitsPerLevel - 1)) / bitsPerLevel
      < maxDepth + 1 := by
    unfold maxDepth bitsPerLevel
    omega
  obtain ⟨sub, hsub, hchain, hent⟩ :=
    createSubNodeFuel_total key1 val1 hash1 key2 val2 hash2 (maxDepth + 1) shift hb
  refine ⟨sub, hsub, hchain, hent, ?_⟩
  intro fuel hf
  rw [createSubNodeFuel_fuel key1 val1 hash1 key2 val2 hash2 fuel (maxDepth + 1) shift hf hb]
  exact hsub

/-- C25, collapse on delete: when `bitmapIndexedNode.del` goes into the child at the slot
`bit` and the child's `del` returns a `bitmapIndexedNode` with no children and the one
inline entry `(k1, v1)`, the result is `(n', true)` where `n'` has `bit` cleared in
`nodemap` and set in `datamap`, the child removed from `nodes` and `(k1, v1)` inserted
into `keys` and `values` at the index `popcount(datamap & (bit-1))`, everything else in
place; the child may be a `collisionNode` that was reduced to one entry. -/
theorem del_collapses_single_entry_child (nodemap datamap : Nat) (nodes : List (Node K V))
    (keys : List K) (values : List V) (key : K) (hash shift : Nat) (child : Node K V)
    (mDatamap : Nat) (k1 : K) (v1 : V)
    (hd : datamap &&& branchBit hash shift = 0)
    (hn : nodemap &&& branchBit hash shift ≠ 0)
    (hchild : nodes[popcount (nodemap &&& (branchBit hash shift - 1))]? = some child)
    (hdel : child.del key hash (shift + bitsPerLevel)
      = some (some (.bitmapIndexedNode 0 mDatamap [] [k1] [v1]), true))
    (hik : popcount (datamap &&& (branchBit hash shift - 1)) ≤ keys.length)
    (hiv : popcount (datamap &&& (branchBit hash shift - 1)) ≤ values.length) :
    (Node.bitmapIndexedNode nodemap datamap nodes keys values).del key hash shift
        = some (some (.bitmapIndexedNode (andNot nodemap (branchBit hash shift))
            (datamap ||| branchBit hash shift)
            (nodes.take (popcount (nodemap &&& (branchBit hash shift - 1)))
              ++ nodes.drop (popcount (nodemap &&& (branchBit hash shift - 1)) + 1))
            (keys.take (popcount (datamap &&& (branchBit hash shift - 1)))
              ++ k1 :: keys.drop (popcount (datamap &&& (branchBit hash shift - 1))))
            (values.take (popcount (datamap &&& (branchBit hash shift - 1)))
              ++ v1 :: values.drop (popcount (datamap &&& (branchBit hash shift - 1))))),
          true)
      ∧ andNot nodemap (branchBit hash shift) &&& branchBit hash shift = 0
      ∧ (datamap ||| branchBit hash shift) &&& branchBit hash shift ≠ 0 := by
  refine ⟨?_, ?_, ?_⟩
  · have hj := lt_length_of_getElem? hchild
    simp only [branchBit] at hd hn hchild hik hiv hj ⊢
    rw [Node.del]
    simp only [hd, ne_eq, not_true_eq_false, if_false, hn, not_false_eq_true, if_true,
      delAt_of_getElem? hchild, hdel, removeAt, insertAt, hj, hik, hiv, List.length_singleton,
      and_self, List.getElem?_cons_zero]
  · rw [branchBit_eq]
    exact andNot_bit_cleared _ _ (branchSlice_lt hash shift)
  · rw [branchBit_eq]
    exact lor_bit_set _ _

/-- C26, for 32-bit hashes, as `hashKey` gives them: when `bitmapIndexedNode.set` finds a
different key in the inline slot and the slices of the two hashes at `shift + bitsPerLevel`
differ, it returns `true` and a node in which the bit of the slot has moved from `datamap`
to `nodemap` and whose child at the slot is a `bitmapIndexedNode` with `nodemap = 0`,
`datamap = bit1 | bit2` and the two entries inline in ascending order of their bits,
whichever of the two is the new one. -/
theorem set_parts_at_next_level (hashFunc : K → Nat) (nodemap datamap : Nat)
    (nodes : List (Node K V)) (keys : List K) (values : List V) (key : K) (value : V)
    (hash shift : Nat) (k : K) (v : V)
    (hd : datamap &&& branchBit hash shift ≠ 0)
    (hk : keys[popcount (datamap &&& (branchBit hash shift - 1))]? = some k)
    (hne : k ≠ key)
    (hv : values[popcount (datamap &&& (branchBit hash shift - 1))]? = some v)
    (hj : popcount (nodemap &&& (branchBit hash shift - 1)) ≤ nodes.length)
    (hh1 : hashFunc k < 2 ^ 32) (hh2 : hash < 2 ^ 32)
    (hslice : (hashFunc k >>> (shift + bitsPerLevel)) &&& bitMask
      ≠ (hash >>> (shift + bitsPerLevel)) &&& bitMask) :
    (Node.bitmapIndexedNode nodemap datamap nodes keys values).set hashFunc key value hash shift
        = some (.bitmapIndexedNode (nodemap ||| branchBit hash shift)
            (andNot datamap (branchBit hash shift))
            (nodes.take (popcount (nodemap &&& (branchBit hash shift - 1)))
              ++ (if branchBit (hashFunc k) (shift + bitsPerLevel)
                    < branchBit hash (shift + bitsPerLevel) then
                  Node.bitmapIndexedNode 0
                    (branchBit (hashFunc k) (shift + bitsPerLevel)
                      ||| branchBit hash (shift + bitsPerLevel)) [] [k, key] [v, value]
                else
                  Node.bitmapIndexedNode 0
                    (branchBit (hashFunc k) (shift + bitsPerLevel)
                      ||| branchBit hash (shift + bitsPerLevel)) [] [key, k] [value, v])
                :: nodes.drop (popcount (nodemap &&& (branchBit hash shift - 1))))
            (keys.take (popcount (datamap &&& (branchBit hash shift - 1)))
              ++ keys.drop (popcount (datamap &&& (branchBit hash shift - 1)) + 1))
            (values.take (popcount (datamap &&& (branchBit hash shift - 1)))
              ++ values.drop (popcount (datamap &&& (branchBit hash shift - 1)) + 1)),
          true)
      ∧ andNot datamap (branchBit hash shift) &&& branchBit hash shift = 0
      ∧ (nodemap ||| branchBit hash shift) &&& branchBit hash shift ≠ 0 :=
  set_parts_below_cutover hashFunc nodemap datamap nodes keys values key value hash shift k v
    hd hk hne hv hj (slices_differ_below hh1 hh2 hslice) hslice

/-- C28, `collisionNode.set` appends: when `k` stands in `keys`, first at the index `i`,
the result is `(n', false)` where `n'` has the same keys and the same values except
`values[i] = v`; when `k` does not stand in `keys` the result is `(n', true)` where
`n'.keys` is `keys` followed by `k` and `n'.values` is `values` followed by `v`; the hash,
the shift and the hash function have no influence. -/
theorem collisionNode_set_appends (hashFunc : K → Nat) (keys : List K) (values : List V)
    (k : K) (v : V) (hash shift : Nat) :
    (∀ i, keys[i]? = some k → (∀ j, j < i → keys[j]? ≠ some k) → i < values.length →
        (Node.collisionNode keys values).set hashFunc k v hash shift
          = some (.collisionNode keys (values.set i v), false))
      ∧ (k ∉ keys →
          (Node.collisionNode keys values).set hashFunc k v hash shift
            = some (.collisionNode (keys ++ [k]) (values ++ [v]), true))
      ∧ ∀ (hashFunc' : K → Nat) (hash' shift' : Nat),
          (Node.collisionNode keys values).set hashFunc' k v hash' shift'
            = (Node.collisionNode keys values).set hashFunc k v hash shift := by
  refine ⟨?_, ?_, ?_⟩
  · intro i hi hfirst hlen
    rw [Node.set, findKey_of_first hi hfirst]
    simp only [hlen, if_true]
  · intro hnot
    rw [Node.set, findKey_of_not_mem hnot]
  · intro hashFunc' hash' shift'
    rw [Node.set, Node.set]

/-- C30, `collisionNode.del` on a node with pairwise distinct keys: when `k` is not in
`keys` the result is `(n, false)`; when `k` is present and `n` has exactly two entries the
result is `(b, true)` where `b` is a `bitmapIndexedNode` with `datamap = 1`, `nodemap = 0`
and the one remaining entry inline; when `k` is present and `n` has more than two entries
the result is `(n', true)` where `n'` is a `collisionNode` without the entry of `k` and
with the other entries in their order. -/
theorem collisionNode_del_effect (keys : List K) (values : List V) (k : K) (hash shift : Nat)
    (hn : keys.Nodup) (hv : values.length = keys.length) :
    (k ∉ keys →
        (Node.collisionNode keys values).del k hash shift
          = some (some (.collisionNode keys values), false))
      ∧ (∀ i, keys[i]? = some k → keys.length = 2 →
          ∃ k' v', keys.eraseIdx i = [k'] ∧ values.eraseIdx i = [v']
            ∧ (Node.collisionNode keys values).del k hash shift
              = some (some (.bitmapIndexedNode 0 1 [] [k'] [v']), true))
      ∧ ∀ i, keys[i]? = some k → 2 < keys.length →
          (Node.collisionNode keys values).del k hash shift
            = some (some (.collisionNode (keys.eraseIdx i) (values.eraseIdx i)), true) := by
  refine ⟨?_, ?_, ?_⟩
  · intro hnot
    rw [Node.del, findKey_of_not_mem hnot]
  · intro i hi hlen
    have hf := findKey_of_nodup hn hi
    obtain ⟨a, b, rfl⟩ := List.length_eq_two.1 hlen
    obtain ⟨x, y, rfl⟩ := List.length_eq_two.1 (hv.trans hlen)
    rw [Node.del, hf]
    match i, hi with
    | 0, _ => exact ⟨b, y, rfl, rfl, rfl⟩
    | 1, _ => exact ⟨a, x, rfl, rfl, rfl⟩
    | i + 2, hi => simp at hi
  · intro i hi hlen
    have hf := findKey_of_nodup hn hi
    have hlt := lt_length_of_getElem? hi
    have hne : ¬ keys.length = 2 := by omega
    rw [Node.del, hf]
    simp only [hne, if_false, removeAt, hlt, hv, if_true, List.eraseIdx_eq_take_drop_succ]

end Steps

/-! ## The node tests and sample inputs -/

/-- With hashes wider than 35 bits two entries can part at shift 35: a node at shift 30
holds the key `0` of hash `0` in the slot of bit 0, the key `2 ^ 35` of hash `2 ^ 35` comes
into the same slot, and the slices of the two hashes at shift 35 are 0 and 1; the child
that `set` builds is a `collisionNode`, as `createSubNode` is called with a shift that is
not below `maxDepth * bitsPerLevel`. -/
theorem set_at_last_level_makes_collisionNode :
    1 &&& branchBit (2 ^ 35) 30 ≠ 0
      ∧ ([0] : List Nat)[popcount (1 &&& (branchBit (2 ^ 35) 30 - 1))]? = some 0
      ∧ (0 : Nat) ≠ 2 ^ 35
      ∧ ((id 0 : Nat) >>> (30 + bitsPerLevel)) &&& bitMask
          ≠ (2 ^ 35 >>> (30 + bitsPerLevel)) &&& bitMask
      ∧ (Node.bitmapIndexedNode 0 1 [] [0] [100] : Node Nat Nat).set id (2 ^ 35) 200 (2 ^ 35) 30
          = some (.bitmapIndexedNode 1 0 [.collisionNode [0, 2 ^ 35] [100, 200]] [] [], true) :=
  ⟨by decide, by decide, by decide, by decide, rfl⟩

/-- C27, the test `collision creates child collision node` against the code: the keys `A`
and `B` have the hash `1 << 55`; `set` at shift 55 returns `true` and the node
`{nodemap 0b00010, one child collisionNode{keys [A, B], values [100, 200]}}`, with no
single-child `bitmapIndexedNode` for the slice at shift 60 and with the stored entry
before the new one; `equalNode` reports it different from the node the test expects, with
no two nodes at one address and with every other possible outcome of the comparison of
addresses. -/
theorem set_at_shift_55_differs_from_test :
    testHashFunc testKeyA = 1 <<< 55 ∧ testHashFunc testKeyB = 1 <<< 55 ∧ testKeyB ≠ testKeyA
      ∧ testNodeA.set testHashFunc testKeyB 200 (1 <<< 55) 55
          = some (.bitmapIndexedNode 2 0
              [.collisionNode [testKeyA, testKeyB] [100, 200]] [] [], true)
      ∧ equalNode distinctNodes intEq
          (some (.bitmapIndexedNode 2 0 [.collisionNode [testKeyA, testKeyB] [100, 200]] [] []))
          (some testExpectedAB) = some false
      ∧ ∀ sameNode, SoundSame sameNode →
          equalNode sameNode intEq
            (some (.bitmapIndexedNode 2 0
              [.collisionNode [testKeyA, testKeyB] [100, 200]] [] []))
            (some testExpectedAB) = some false := by
  refine ⟨by decide, by decide, by decide, rfl, rfl, ?_⟩
  intro sameNode hs
  have h1 : sameNode []
      (.bitmapIndexedNode 2 0 [.collisionNode [testKeyA, testKeyB] [100, 200]] [] [])
      testExpectedAB = false := by
    cases h : sameNode []
        (.bitmapIndexedNode 2 0 [.collisionNode [testKeyA, testKeyB] [100, 200]] [] [])
        testExpectedAB with
    | false => rfl
    | true =>
      have e := hs _ _ _ h
      simp [testExpectedAB] at e
  have h2 : sameNode [0] (.collisionNode [testKeyA, testKeyB] [100, 200])
      (.bitmapIndexedNode 1 0 [.collisionNode [testKeyB, testKeyA] [200, 100]] [] [])
      = false := by
    cases h : sameNode [0] (.collisionNode [testKeyA, testKeyB] [100, 200])
        (.bitmapIndexedNode 1 0 [.collisionNode [testKeyB, testKeyA] [200, 100]] [] []) with
    | false => rfl
    | true => exact Node.noConfusion (hs _ _ _ h)
  unfold testExpectedAB at h1 ⊢
  simp [equalNode, Node.equal, Node.equalAll, equalEntries, h1, h2]

/-- C29, the test `add new key to existing` against the code: `collisionNode.set` of the
absent key `"00010"` on the keys `["00001", "00100"]` returns `true` and the node with the
keys `["00001", "00100", "00010"]` and the values `[100, 200, 300]`, the new entry last;
`equalNode` reports it different from the node the test expects, which holds the new
entry at its place in ascending key order, with no two nodes at one address and with every
other possible outcome of the comparison of addresses. -/
theorem collisionNode_set_differs_from_test :
    testCollision14.set testHashFunc testKey2 300 0 0
        = some (.collisionNode [testKey1, testKey4, testKey2] [100, 200, 300], true)
      ∧ equalNode distinctNodes intEq
          (some (.collisionNode [testKey1, testKey4, testKey2] [100, 200, 300]))
          (some testExpected124) = some false
      ∧ ∀ sameNode, SoundSame sameNode →
          equalNode sameNode intEq
            (some (.collisionNode [testKey1, testKey4, testKey2] [100, 200, 300]))
            (some testExpected124) = some false := by
  refine ⟨rfl, rfl, ?_⟩
  intro sameNode hs
  have hne : testKey4 ≠ testKey2 := by decide
  have h1 : sameNode [] (.collisionNode [testKey1, testKey4, testKey2] [100, 200, 300])
      testExpected124 = false := by
    cases h : sameNode [] (.collisionNode [testKey1, testKey4, testKey2] [100, 200, 300])
        testExpected124 with
    | false => rfl
    | true =>
      have e := hs _ _ _ h
      simp [testExpected124, hne] at e
  unfold testExpected124 at h1 ⊢
  simp [equalNode, Node.equal, equalEntries, h1, hne, intEq]

theorem index_safety_witness :
    Reachable mapLC
      ∧ (∀ root, mapLC.root = some root → AllNodes (fun _ n => IndexSafe n) 0 root)
      ∧ (∀ k, ∃ r, mapLC.Get k = some r)
      ∧ (∀ k v, ∃ m', mapLC.Set k v = some m')
      ∧ ∀ k, ∃ m', mapLC.Delete k = some m' :=
  ⟨reachable_mapLC, index_safety mapLC reachable_mapLC⟩

theorem hash_path_invariant_witness :
    Reachable mapLC
      ∧ (∀ root, mapLC.root = some root → AllNodes (HashPath hashKey) 0 root)
      ∧ ∃ l, mapLC.All = some l ∧ l = entriesOpt mapLC.root ∧ (l.map Prod.fst).Nodup :=
  ⟨reachable_mapLC, hash_path_invariant mapLC reachable_mapLC⟩

theorem collision_node_invariant_witness :
    Reachable mapLC
      ∧ maxDepth = 7 ∧ maxDepth * bitsPerLevel = 35
      ∧ ∀ root, mapLC.root = some root →
          AllNodes (CollisionInv hashKey) 0 root
            ∧ ∀ keys values, root ≠ .collisionNode keys values :=
  ⟨reachable_mapLC, collision_node_invariant mapLC reachable_mapLC⟩

theorem createSubNode_terminates_witness :
    ∃ sub, createSubNode keyLiquid 1 (hashKey keyLiquid) keyCostarring 2
          (hashKey keyCostarring) 0 = some sub
      ∧ sub.chainLength ≤ 7
      ∧ createSubNodeFuel 8 keyLiquid 1 (hashKey keyLiquid) keyCostarring 2
          (hashKey keyCostarring) 0 = some sub := by
  obtain ⟨sub, h1, h2, -, h4⟩ := createSubNode_terminates keyLiquid (1 : Nat)
    (hashKey keyLiquid) keyCostarring 2 (hashKey keyCostarring) 0
  exact ⟨sub, h1, h2, h4 8 (by decide)⟩

theorem del_collapses_single_entry_child_witness :
    (0 : Nat) &&& branchBit (hashKey keyLiquid) 30 = 0
      ∧ 2 &&& branchBit (hashKey keyLiquid) 30 ≠ 0
      ∧ (Node.collisionNode [keyLiquid, keyCostarring] [1, 2]).del keyLiquid
          (hashKey keyLiquid) (30 + bitsPerLevel)
          = some (some (.bitmapIndexedNode 0 1 [] [keyCostarring] [2]), true)
      ∧ nodeAboveCollision.del keyLiquid (hashKey keyLiquid) 30
          = some (some (.bitmapIndexedNode 0 2 [] [keyCostarring] [2]), true) :=
  ⟨by decide, by decide, by rfl,
    (del_collapses_single_entry_child 2 0 [.collisionNode [keyLiquid, keyCostarring] [1, 2]]
      [] [] keyLiquid (hashKey keyLiquid) 30 (.collisionNode [keyLiquid, keyCostarring] [1, 2])
      1 keyCostarring (2 : Nat) (by decide) (by decide) (by rfl) (by rfl) (by decide) (by decide)).1.trans
      (by rfl)⟩

theorem set_parts_at_next_level_witness :
    testKey1 ≠ testKey33
      ∧ testHashFunc testKey1 < 2 ^ 32 ∧ 33 < 2 ^ 32
      ∧ (testHashFunc testKey1 >>> (0 + bitsPerLevel)) &&& bitMask
          ≠ (33 >>> (0 + bitsPerLevel)) &&& bitMask
      ∧ (Node.bitmapIndexedNode 0 2 [] [testKey1] [100] : Node Key Nat).set testHashFunc
          testKey33 200 33 0
          = some (.bitmapIndexedNode 2 0
              [.bitmapIndexedNode 0 3 [] [testKey1, testKey33] [100, 200]] [] [], true) :=
  ⟨by decide, by decide, by decide, by decide,
    (set_parts_at_next_level testHashFunc 0 2 [] [testKey1] [100] testKey33 (200 : Nat) 33 0
      testKey1 100 (by decide) (by rfl) (by decide) (by rfl) (by decide) (by decide)
      (by decide) (by decide)).1.trans (by rfl)⟩

theorem collisionNode_set_appends_witness :
    testCollision12.set testHashFunc testKey2 250 0 0
        = some (.collisionNode [testKey1, testKey2] [100, 250], false)
      ∧ testKey2 ∉ [testKey1, testKey4]
      ∧ testCollision14.set testHashFunc testKey2 300 0 0
        = some (.collisionNode [testKey1, testKey4, testKey2] [100, 200, 300], true) :=
  ⟨(collisionNode_set_appends testHashFunc [testKey1, testKey2] [100, 200] testKey2
      (250 : Nat) 0 0).1 1 (by rfl) (by decide) (by decide),
    by decide,
    (collisionNode_set_appends testHashFunc [testKey1, testKey4] [100, 200] testKey2
      (300 : Nat) 0 0).2.1 (by decide)⟩

theorem collisionNode_del_effect_witness :
    [testKey1, testKey2].Nodup ∧ [testKey1, testKey2, testKey4].Nodup
      ∧ testCollision12.del testKey4 0 0 = some (some testCollision12, false)
      ∧ testCollision12.del testKey2 0 0
          = some (some (.bitmapIndexedNode 0 1 [] [testKey1] [100]), true)
      ∧ testCollision124.del testKey2 0 0
          = some (some (.collisionNode [testKey1, testKey4] [100, 300]), true) := by
  refine ⟨by decide, by decide, ?_, ?_, ?_⟩
  · exact (collisionNode_del_effect [testKey1, testKey2] [(100 : Nat), 200] testKey4 0 0
      (by decide) (by rfl)).1 (by decide)
  · obtain ⟨k', v', hk, hv, hdel⟩ :=
      (collisionNode_del_effect [testKey1, testKey2] [(100 : Nat), 200] testKey2 0 0
        (by decide) (by rfl)).2.1 1 (by rfl) (by rfl)
    simp only [List.eraseIdx_cons_succ, List.eraseIdx_cons_zero, List.cons.injEq,
      and_true] at hk hv
    rw [← hk, ← hv] at hdel
    exact hdel
  · exact (collisionNode_del_effect [testKey1, testKey2, testKey4] [(100 : Nat), 200, 300]
      testKey2 0 0 (by decide) (by rfl)).2.2 1 (by rfl) (by decide)

/-! ## `popcount` -/

/-- The cases of `TestPopcount`. -/
theorem popcount_test_values :
    popcount 0x00000000 = 0 ∧ popcount 0x00000001 = 1 ∧ popcount 0x00000003 = 2
      ∧ popcount 0x00000007 = 3 ∧ popcount 0x0000000F = 4 ∧ popcount 0x000000FF = 8
      ∧ popcount 0x0000FFFF = 16 ∧ popcount 0xFFFFFFFF = 32 ∧ popcount 0x55555555 = 16
      ∧ popcount 0xAAAAAAAA = 16 ∧ popcount 0x80000000 = 1 ∧ popcount 0x00010000 = 1 := by
  decide

/-- C31, `popcount` is the population count: for every 32-bit unsigned `x` the result of
`popcount(x)`, computed with 32-bit wrap-around arithmetic, is the number of the bits set
in `x`: the number of positions below 32 whose bit is set (no bit of `x` is set at a
position from 32 on), which is the sum of the 32 binary digits; it is between 0 and 32. -/
theorem popcount_is_population_count (x : Nat) (hx : x < 2 ^ 32) :
    popcount x = ((List.range 32).filter (fun i => x.testBit i)).length
      ∧ (∀ i, x.testBit i = true → i < 32)
      ∧ popcount x = bitCount 32 x
      ∧ popcount x ≤ 32 := by
  have h1 := popcount_eq_bitCount x hx
  have h2 := bitCount_eq_filter 32 x
  refine ⟨h1.trans h2, fun i hi => testBit_of_lt hx hi, h1, ?_⟩
  rw [h1, h2]
  exact le_trans (List.length_filter_le _ _) (by simp)

theorem popcount_is_population_count_witness :
    (0xAAAAAAAA : Nat) < 2 ^ 32
      ∧ popcount 0xAAAAAAAA = 16
      ∧ ((List.range 32).filter (fun i => (0xAAAAAAAA : Nat).testBit i)).length = 16
      ∧ bitCount 32 0xAAAAAAAA = 16 := by
  have h := popcount_is_population_count 0xAAAAAAAA (by decide)
  have e : popcount 0xAAAAAAAA = 16 := by decide
  exact ⟨by decide, e, h.1.symm.trans e, h.2.2.1.symm.trans e⟩

end Champ
